import Mathlib

/-!
# SWIFT text editor (`editor.go`): buffer, cursor and key handling

A shallow embedding of the `TextEditor` struct of `src/editor.go` and of the
methods that read or write its data fields.

* Go strings are byte sequences: `len`, indexing and slicing all count bytes.
  A `string` is modelled as `List UInt8`, a `[]string` as a list of those.
* `lineNum` and `colNum` are Go `int`s and are modelled as `Int`.  Values stay
  far below `2^63` (they are bounded by lengths of in-memory data), so no
  wrap-around is modelled.
* An index or slice expression that is out of range panics in Go.  Every method
  therefore returns `Option TextEditor`; `none` is a run-time panic.
* The widgets (`textView`, `statusBar`, the modals, `app`) are never read by the
  methods below.  Calls into them are recorded, in order, in the field `ui`.
* The results of `os.ReadFile` and `os.WriteFile` are inputs of the model.
* The highlighters are pure functions on byte strings.  `strings.ReplaceAll` is the scan
  `replaceAll`; the library composition `strings.ToLower(filepath.Ext(path))` is the
  parameter `lowerExt` of `highlightLine`.
-/

namespace Swift

/-! ## Go primitives -/

/-- A Go `string`: an immutable sequence of bytes. -/
abbrev GoString := List UInt8

/-- A Go `rune` (an `int32` code point value). -/
abbrev Rune := Int

/-- Go `len(xs)` as an `int`. -/
def len {α : Type} (xs : List α) : Int := (xs.length : Int)

/-- Go `xs[i]`: panics (`none`) unless `0 ≤ i < len(xs)`. -/
def index {α : Type} (xs : List α) (i : Int) : Option α :=
  if 0 ≤ i then xs[i.toNat]? else none

/-- Go `xs[lo:hi]`: panics (`none`) unless `0 ≤ lo ≤ hi ≤ len(xs)`.
For a `[]string` Go allows `hi` up to the capacity; every reslice in
`editor.go` comes after an index expression that already forces `hi ≤ len`. -/
def slice {α : Type} (xs : List α) (lo hi : Int) : Option (List α) :=
  if 0 ≤ lo ∧ lo ≤ hi ∧ hi ≤ len xs then some ((xs.take hi.toNat).drop lo.toNat) else none

/-- Go `xs[i] = v`: panics (`none`) unless `0 ≤ i < len(xs)`. -/
def setIndex {α : Type} (xs : List α) (i : Int) (v : α) : Option (List α) :=
  if 0 ≤ i ∧ i < len xs then some (xs.set i.toNat v) else none

/-- Go `string(r)` for a rune `r`: the UTF-8 encoding of the code point; values
that are not valid code points (negative, surrogates, above U+10FFFF) give the
encoding of U+FFFD. -/
def runeString (r : Rune) : GoString :=
  if r < 0 then [0xEF, 0xBF, 0xBD]
  else
    let n := r.toNat
    if n ≤ 0x7F then [UInt8.ofNat n]
    else if n ≤ 0x7FF then [UInt8.ofNat (0xC0 + n / 64), UInt8.ofNat (0x80 + n % 64)]
    else if (0xD800 ≤ n ∧ n ≤ 0xDFFF) ∨ 0x10FFFF < n then [0xEF, 0xBF, 0xBD]
    else if n ≤ 0xFFFF then
      [UInt8.ofNat (0xE0 + n / 4096), UInt8.ofNat (0x80 + n / 64 % 64),
        UInt8.ofNat (0x80 + n % 64)]
    else
      [UInt8.ofNat (0xF0 + n / 262144), UInt8.ofNat (0x80 + n / 4096 % 64),
        UInt8.ofNat (0x80 + n / 64 % 64), UInt8.ofNat (0x80 + n % 64)]

/-- A Lean string literal as the bytes of the Go string literal with the same text. -/
def goStr (s : String) : GoString :=
  s.toList.flatMap (fun c => runeString (c.toNat : Int))

/-! ## Data model -/

/-- Editor modes (`ViewMode = iota`, `EditMode`). -/
inductive EditorMode
  | ViewMode
  | EditMode
  deriving DecidableEq

/-- The `error` value returned by `os.ReadFile` / `os.WriteFile`, by its text. -/
structure FileError where
  text : GoString
  deriving DecidableEq

/-- What `app.SetRoot` is given. -/
inductive Root
  | mainLayout
  | helpModal
  | saveForm
  | openForm
  | nilRoot
  deriving DecidableEq

/-- The message handed to `updateStatusBar` (shown as `"SWIFT | " + message`). -/
inductive StatusMessage
  /-- The text `Welcome to SWIFT! Press g for help` (with quotes around g). -/
  | welcome
  /-- The text `View Mode`. -/
  | viewMode
  /-- The text `Edit Mode - Press ESC to exit`. -/
  | editMode
  /-- The text `View Mode - Command: ` followed by the command buffer. -/
  | command (buffer : GoString)
  /-- The text `Unknown command: ` followed by the command. -/
  | unknownCommand (command : GoString)
  /-- The text `Error: ` followed by the error. -/
  | loadError (err : FileError)
  /-- The text `Error saving: ` followed by the error. -/
  | saveError (err : FileError)
  /-- The text `Saved: ` followed by `filepath.Base` of the path. -/
  | saved (path : GoString)
  deriving DecidableEq

/-- The text of a status message, as the `fmt.Sprintf` calls build it; `base` stands for
`filepath.Base`.  The status bar shows `"SWIFT | "` followed by this text. -/
def StatusMessage.text (base : GoString → GoString) : StatusMessage → GoString
  | StatusMessage.welcome => goStr "Welcome to SWIFT! Press \x27g\x27 for help"
  | StatusMessage.viewMode => goStr "View Mode"
  | StatusMessage.editMode => goStr "Edit Mode - Press ESC to exit"
  | StatusMessage.command typed => goStr "View Mode - Command: " ++ typed
  | StatusMessage.unknownCommand typed => goStr "Unknown command: " ++ typed
  | StatusMessage.loadError err => goStr "Error: " ++ err.text
  | StatusMessage.saveError err => goStr "Error saving: " ++ err.text
  | StatusMessage.saved path => goStr "Saved: " ++ base path

/-- One call into the widget layer. -/
inductive UiCall
  /-- The call `textView.SetText(welcomeText)` of `showWelcomeScreen`. -/
  | welcomeText
  /-- The call `textView.SetText("Error loading file: ...")` of `loadFile`. -/
  | loadErrorText (err : FileError)
  /-- A call of `updateStatusBar`. -/
  | status (message : StatusMessage)
  /-- The two `SetText` calls of `updateDisplay` (frame and status line). -/
  | display
  /-- A call of `app.SetRoot`. -/
  | setRoot (root : Root)
  /-- A call of `app.Stop`. -/
  | stop
  deriving DecidableEq

/-- The data fields of `type TextEditor struct`; `ui` is the log of widget calls. -/
structure TextEditor where
  filePath : GoString
  content : List GoString
  lineNum : Int
  colNum : Int
  showHelp : Bool
  showWelcome : Bool
  modified : Bool
  mode : EditorMode
  commandBuffer : GoString
  showingDialog : Bool
  ui : List UiCall
  deriving DecidableEq

/-! ## Display -/

/-- The method `getMainLayout`. -/
def getMainLayout (e : TextEditor) : Root :=
  if e.showHelp then Root.helpModal
  else if e.showingDialog then Root.nilRoot
  else Root.mainLayout

/-- The method `updateStatusBar`. -/
def updateStatusBar (message : StatusMessage) (e : TextEditor) : TextEditor :=
  { e with ui := e.ui ++ [UiCall.status message] }

/-- The method `showWelcomeScreen`. -/
def showWelcomeScreen (e : TextEditor) : TextEditor :=
  updateStatusBar StatusMessage.welcome { e with ui := e.ui ++ [UiCall.welcomeText] }

/-- The method `updateDisplay`.  It returns at once on the welcome screen.
Otherwise it renders every line; for the line `i == e.lineNum` it calls
`highlightLineWithCursor`, whose `line[:e.colNum]` (taken when
`e.colNum < len(line)`) panics exactly when `e.colNum` is negative.  The
rendered text depends on the fields only and is not stored in them. -/
def updateDisplay (e : TextEditor) : Option TextEditor :=
  if e.showWelcome then some e
  else if 0 ≤ e.lineNum ∧ e.lineNum < len e.content ∧ e.colNum < 0 then none
  else some { e with ui := e.ui ++ [UiCall.display] }

/-! ## Movement functions -/

/-- The method `moveUp`. -/
def moveUp (e : TextEditor) : Option TextEditor :=
  if e.lineNum > 0 then do
    let e := { e with lineNum := e.lineNum - 1 }
    let line ← index e.content e.lineNum
    let e := if e.colNum ≥ len line then { e with colNum := len line } else e
    updateDisplay e
  else some e

/-- The method `moveDown`. -/
def moveDown (e : TextEditor) : Option TextEditor :=
  if e.lineNum < len e.content - 1 then do
    let e := { e with lineNum := e.lineNum + 1 }
    let line ← index e.content e.lineNum
    let e := if e.colNum ≥ len line then { e with colNum := len line } else e
    updateDisplay e
  else some e

/-- The method `moveLeft`. -/
def moveLeft (e : TextEditor) : Option TextEditor :=
  if e.colNum > 0 then
    updateDisplay { e with colNum := e.colNum - 1 }
  else if e.lineNum > 0 then do
    let e := { e with lineNum := e.lineNum - 1 }
    let line ← index e.content e.lineNum
    updateDisplay { e with colNum := len line }
  else updateDisplay e

/-- The method `moveRight`. -/
def moveRight (e : TextEditor) : Option TextEditor := do
  let line ← index e.content e.lineNum
  if e.colNum < len line then
    updateDisplay { e with colNum := e.colNum + 1 }
  else if e.lineNum < len e.content - 1 then
    updateDisplay { e with lineNum := e.lineNum + 1, colNum := 0 }
  else updateDisplay e

/-- The method `moveToLineStart`. -/
def moveToLineStart (e : TextEditor) : Option TextEditor :=
  updateDisplay { e with colNum := 0 }

/-- The method `moveToLineEnd`. -/
def moveToLineEnd (e : TextEditor) : Option TextEditor := do
  let line ← index e.content e.lineNum
  updateDisplay { e with colNum := len line }

/-! ## Editing functions -/

/-- The method `insertChar`. -/
def insertChar (char : Rune) (e : TextEditor) : Option TextEditor :=
  if e.showWelcome then some e
  else do
    let line ← index e.content e.lineNum
    let before ← slice line 0 e.colNum
    let after ← slice line e.colNum (len line)
    let content ← setIndex e.content e.lineNum (before ++ runeString char ++ after)
    updateDisplay { e with content := content, colNum := e.colNum + 1, modified := true }

/-- The method `insertNewline`. -/
def insertNewline (e : TextEditor) : Option TextEditor :=
  if e.showWelcome then some e
  else do
    let line ← index e.content e.lineNum
    let before ← slice line 0 e.colNum
    let after ← slice line e.colNum (len line)
    let content ← setIndex e.content e.lineNum before
    let newLine := after
    let tail ← slice content (e.lineNum + 1) (len content)
    let head ← slice content 0 (e.lineNum + 1)
    updateDisplay
      { e with content := head ++ ([newLine] ++ tail), lineNum := e.lineNum + 1, colNum := 0,
               modified := true }

/-- The method `backspace`. -/
def backspace (e : TextEditor) : Option TextEditor :=
  if e.showWelcome then some e
  else if e.colNum > 0 then do
    let line ← index e.content e.lineNum
    let before ← slice line 0 (e.colNum - 1)
    let after ← slice line e.colNum (len line)
    let content ← setIndex e.content e.lineNum (before ++ after)
    updateDisplay { e with content := content, colNum := e.colNum - 1, modified := true }
  else if e.lineNum > 0 then do
    let prevLine ← index e.content (e.lineNum - 1)
    let currentLine ← index e.content e.lineNum
    let content ← setIndex e.content (e.lineNum - 1) (prevLine ++ currentLine)
    let head ← slice content 0 e.lineNum
    let tail ← slice content (e.lineNum + 1) (len content)
    updateDisplay
      { e with content := head ++ tail, lineNum := e.lineNum - 1, colNum := len prevLine,
               modified := true }
  else updateDisplay e

/-- The method `delete`. -/
def delete (e : TextEditor) : Option TextEditor :=
  if e.showWelcome then some e
  else do
    let line ← index e.content e.lineNum
    if e.colNum < len line then do
      let before ← slice line 0 e.colNum
      let after ← slice line (e.colNum + 1) (len line)
      let content ← setIndex e.content e.lineNum (before ++ after)
      updateDisplay { e with content := content, modified := true }
    else if e.lineNum < len e.content - 1 then do
      let nextLine ← index e.content (e.lineNum + 1)
      let content ← setIndex e.content e.lineNum (line ++ nextLine)
      let head ← slice content 0 (e.lineNum + 1)
      let tail ← slice content (e.lineNum + 2) (len content)
      updateDisplay { e with content := head ++ tail, modified := true }
    else updateDisplay e

/-- The loop `for i := 0; i < 4; i++ { e.insertChar(' ') }` with `n` rounds left. -/
def insertTabLoop : Nat → TextEditor → Option TextEditor
  | 0, e => some e
  | n + 1, e => (insertChar 32 e).bind (insertTabLoop n)

/-- The method `insertTab`. -/
def insertTab (e : TextEditor) : Option TextEditor :=
  if e.showWelcome then some e
  else insertTabLoop 4 e

/-! ## Files -/

/-- Go `strings.Split(s, "\n")`: the pieces of `s` between line feeds (byte 10),
always at least one piece. -/
def splitLines : GoString → List GoString
  | [] => [[]]
  | b :: rest =>
    if b = 10 then [] :: splitLines rest
    else
      match splitLines rest with
      | [] => [[b]]
      | piece :: pieces => (b :: piece) :: pieces

/-- Go `strings.Join(lines, "\n")`. -/
def joinLines : List GoString → GoString
  | [] => []
  | [l] => l
  | l :: rest => l ++ 10 :: joinLines rest

/-- The method `loadFile`; `read` is what `os.ReadFile(e.filePath)` returns. -/
def loadFile (read : Except FileError GoString) (e : TextEditor) : Option TextEditor :=
  if e.filePath = [] then some e
  else
    match read with
    | Except.error err =>
      some (updateStatusBar (StatusMessage.loadError err)
        { e with ui := e.ui ++ [UiCall.loadErrorText err] })
    | Except.ok data =>
      let content := splitLines data
      let content := if len content = 0 then [[]] else content
      updateDisplay
        { e with content := content, lineNum := 0, colNum := 0, showWelcome := false,
                 modified := false }

/-- The method `showSaveDialog`. -/
def showSaveDialog (e : TextEditor) : TextEditor :=
  { e with showingDialog := true, ui := e.ui ++ [UiCall.setRoot Root.saveForm] }

/-- The method `saveFile`; `write` is the error `os.WriteFile` returns, if any. -/
def saveFile (write : Option FileError) (e : TextEditor) : TextEditor :=
  if e.filePath = [] then showSaveDialog e
  else
    match write with
    | some err => updateStatusBar (StatusMessage.saveError err) e
    | none => updateStatusBar (StatusMessage.saved e.filePath) { e with modified := false }

/-- The text `saveFile` hands to `os.WriteFile`. -/
def savedText (e : TextEditor) : GoString := joinLines e.content

/-- The method `showOpenDialog`. -/
def showOpenDialog (e : TextEditor) : TextEditor :=
  { e with showingDialog := true, ui := e.ui ++ [UiCall.setRoot Root.openForm] }

/-- The method `openFile`. -/
def openFile (e : TextEditor) : TextEditor := showOpenDialog e

/-- The method `newFile`. -/
def newFile (e : TextEditor) : Option TextEditor :=
  updateDisplay
    { e with filePath := [], content := [[]], lineNum := 0, colNum := 0, showWelcome := false,
             modified := false }

/-! ## Dialog buttons (closures of `setupUI`) -/

/-- The `SetDoneFunc` closure of the help modal. -/
def helpDone (e : TextEditor) : TextEditor :=
  let e := { e with showHelp := false }
  { e with ui := e.ui ++ [UiCall.setRoot (getMainLayout e)] }

/-- The closing lines shared by the form buttons:
`e.showingDialog = false; e.app.SetRoot(e.getMainLayout(), true)`. -/
def closeDialog (e : TextEditor) : TextEditor :=
  let e := { e with showingDialog := false }
  { e with ui := e.ui ++ [UiCall.setRoot (getMainLayout e)] }

/-- The `Save` button of the save form; `filename` is the text of its input field. -/
def saveFormSave (filename : GoString) (write : Option FileError) (e : TextEditor) :
    TextEditor :=
  closeDialog (if filename ≠ [] then saveFile write { e with filePath := filename } else e)

/-- The `Cancel` button of the save form. -/
def saveFormCancel (e : TextEditor) : TextEditor := closeDialog e

/-- The `Open` button of the open form; `filename` is the text of its input field. -/
def openFormOpen (filename : GoString) (read : Except FileError GoString) (e : TextEditor) :
    Option TextEditor :=
  if filename ≠ [] then
    (loadFile read { e with filePath := filename }).map closeDialog
  else some (closeDialog e)

/-- The `Cancel` button of the open form. -/
def openFormCancel (e : TextEditor) : TextEditor := closeDialog e

/-! ## Key handling -/

/-- The keys of `tcell` that the handlers name; `KeyRune` is a printable character and
`KeyOther` any other key. -/
inductive Key
  | KeyEscape
  | KeyUp
  | KeyDown
  | KeyLeft
  | KeyRight
  | KeyHome
  | KeyEnd
  | KeyEnter
  | KeyBackspace
  | KeyBackspace2
  | KeyDelete
  | KeyTab
  | KeyCtrlQ
  | KeyRune
  | KeyOther
  deriving DecidableEq

/-- A `tcell.EventKey`, by what `Key()` and `Rune()` return. -/
structure EventKey where
  key : Key
  rune : Rune
  deriving DecidableEq

/-- The method `executeCommand`; `write` is the result of the `os.WriteFile` call
that `saveFile` may make. -/
def executeCommand (write : Option FileError) (e : TextEditor) : Option TextEditor :=
  let command := e.commandBuffer
  let e := { e with commandBuffer := [] }
  if command = goStr "q" then
    some { e with ui := e.ui ++ [UiCall.stop] }
  else if command = goStr "w" then
    some (saveFile write e)
  else if command = goStr "wq" then
    let e := saveFile write e
    some { e with ui := e.ui ++ [UiCall.stop] }
  else if command = goStr "o" then
    some (openFile e)
  else if command = goStr "n" then
    newFile e
  else if command = goStr "h" then
    some { e with showHelp := true, ui := e.ui ++ [UiCall.setRoot Root.helpModal] }
  else
    some (updateStatusBar (StatusMessage.unknownCommand command) e)

/-- The method `handleEditMode` (the returned event is not modelled). -/
def handleEditMode (event : EventKey) (e : TextEditor) : Option TextEditor :=
  match event.key with
  | Key.KeyEscape =>
    some (updateStatusBar StatusMessage.viewMode { e with mode := EditorMode.ViewMode })
  | Key.KeyUp => moveUp e
  | Key.KeyDown => moveDown e
  | Key.KeyLeft => moveLeft e
  | Key.KeyRight => moveRight e
  | Key.KeyHome => moveToLineStart e
  | Key.KeyEnd => moveToLineEnd e
  | Key.KeyEnter => insertNewline e
  | Key.KeyBackspace => backspace e
  | Key.KeyBackspace2 => backspace e
  | Key.KeyDelete => delete e
  | Key.KeyTab => insertTab e
  | _ => if event.rune ≠ 0 then insertChar event.rune e else some e

/-- The method `handleViewMode` (the returned event is not modelled).  In the rune
switch the case for the letter g has no `return` when `showWelcome` is false, and a
Go `switch` case does not fall through, so the function then returns the event. -/
def handleViewMode (event : EventKey) (write : Option FileError) (e : TextEditor) :
    Option TextEditor :=
  match event.key with
  | Key.KeyCtrlQ => some { e with ui := e.ui ++ [UiCall.stop] }
  | Key.KeyUp => moveUp e
  | Key.KeyDown => moveDown e
  | Key.KeyLeft => moveLeft e
  | Key.KeyRight => moveRight e
  | Key.KeyHome => moveToLineStart e
  | Key.KeyEnd => moveToLineEnd e
  | Key.KeyEnter => executeCommand write e
  | _ =>
    if event.rune ≠ 0 then
      if event.rune = 105 then
        some (updateStatusBar StatusMessage.editMode { e with mode := EditorMode.EditMode })
      else if event.rune = 103 then
        if e.showWelcome then
          some { e with showHelp := true, ui := e.ui ++ [UiCall.setRoot Root.helpModal] }
        else some e
      else if event.rune = 104 then
        some { e with showHelp := true, ui := e.ui ++ [UiCall.setRoot Root.helpModal] }
      else
        let e := { e with commandBuffer := e.commandBuffer ++ runeString event.rune }
        some (updateStatusBar (StatusMessage.command e.commandBuffer) e)
    else some e

/-- The input capture installed by `setupKeyBindings`. -/
def inputCapture (event : EventKey) (write : Option FileError) (e : TextEditor) :
    Option TextEditor :=
  if e.mode = EditorMode.EditMode then handleEditMode event e
  else handleViewMode event write e

/-- The constructor `NewTextEditor` followed by the loading part of `setupUI`;
`read` is what `os.ReadFile(filePath)` returns when a path is given. -/
def NewTextEditor (filePath : GoString) (read : Except FileError GoString) :
    Option TextEditor :=
  let editor : TextEditor :=
    { filePath := filePath, content := [[]], lineNum := 0, colNum := 0, showHelp := false,
      showWelcome := decide (filePath = []), modified := false, mode := EditorMode.ViewMode,
      commandBuffer := [], showingDialog := false, ui := [] }
  let loaded :=
    if editor.filePath ≠ [] then loadFile read editor else some (showWelcomeScreen editor)
  loaded.map (fun e => { e with ui := e.ui ++ [UiCall.setRoot (getMainLayout e)] })

/-! ## Runs -/

/-- One thing that can happen to a running editor. -/
inductive Input
  /-- A key event reaches the text view. -/
  | key (event : EventKey) (write : Option FileError)
  /-- The help modal is closed. -/
  | helpClose
  /-- The save form is submitted. -/
  | saveSubmit (filename : GoString) (write : Option FileError)
  /-- The save form is cancelled. -/
  | saveCancel
  /-- The open form is submitted. -/
  | openSubmit (filename : GoString) (read : Except FileError GoString)
  /-- The open form is cancelled. -/
  | openCancel
  /-- A direct call of `moveUp`. -/
  | callMoveUp
  /-- A direct call of `moveDown`. -/
  | callMoveDown
  /-- A direct call of `moveLeft`. -/
  | callMoveLeft
  /-- A direct call of `moveRight`. -/
  | callMoveRight
  /-- A direct call of `moveToLineStart`. -/
  | callMoveToLineStart
  /-- A direct call of `moveToLineEnd`. -/
  | callMoveToLineEnd
  /-- A direct call of `insertChar`. -/
  | callInsertChar (char : Rune)
  /-- A direct call of `insertNewline`. -/
  | callInsertNewline
  /-- A direct call of `backspace`. -/
  | callBackspace
  /-- A direct call of `delete`. -/
  | callDelete
  /-- A direct call of `insertTab`. -/
  | callInsertTab
  /-- A direct call of `executeCommand`. -/
  | callExecuteCommand (write : Option FileError)
  /-- A direct call of `loadFile`. -/
  | callLoadFile (read : Except FileError GoString)
  /-- A direct call of `saveFile`. -/
  | callSaveFile (write : Option FileError)
  /-- A direct call of `newFile`. -/
  | callNewFile

/-- The editor after one input (`none`: the program panicked). -/
def step (i : Input) (e : TextEditor) : Option TextEditor :=
  match i with
  | Input.key event write => inputCapture event write e
  | Input.helpClose => some (helpDone e)
  | Input.saveSubmit filename write => some (saveFormSave filename write e)
  | Input.saveCancel => some (saveFormCancel e)
  | Input.openSubmit filename read => openFormOpen filename read e
  | Input.openCancel => some (openFormCancel e)
  | Input.callMoveUp => moveUp e
  | Input.callMoveDown => moveDown e
  | Input.callMoveLeft => moveLeft e
  | Input.callMoveRight => moveRight e
  | Input.callMoveToLineStart => moveToLineStart e
  | Input.callMoveToLineEnd => moveToLineEnd e
  | Input.callInsertChar char => insertChar char e
  | Input.callInsertNewline => insertNewline e
  | Input.callBackspace => backspace e
  | Input.callDelete => delete e
  | Input.callInsertTab => insertTab e
  | Input.callExecuteCommand write => executeCommand write e
  | Input.callLoadFile read => loadFile read e
  | Input.callSaveFile write => some (saveFile write e)
  | Input.callNewFile => newFile e

/-- The editor after a sequence of inputs. -/
def run : List Input → TextEditor → Option TextEditor
  | [], e => some e
  | i :: rest, e => (step i e).bind (run rest)

/-- The states the program can be in: those `NewTextEditor` returns and those a
non-panicking step leads to from such a state. -/
inductive Reachable : TextEditor → Prop
  | init (filePath : GoString) (read : Except FileError GoString) (e : TextEditor) :
      NewTextEditor filePath read = some e → Reachable e
  | step (i : Input) (e e' : TextEditor) : Reachable e → step i e = some e' → Reachable e'

/-- The buffer is well formed: `content` is non-empty, `0 ≤ lineNum < len(content)`
and `0 ≤ colNum ≤ len(content[lineNum])`. -/
def WellFormed (e : TextEditor) : Prop :=
  e.content ≠ [] ∧ 0 ≤ e.lineNum ∧ e.lineNum < len e.content ∧
    ∃ line, index e.content e.lineNum = some line ∧ 0 ≤ e.colNum ∧ e.colNum ≤ len line

/-- The method never panics on a well-formed buffer and leaves it well formed. -/
def Safe (f : TextEditor → Option TextEditor) : Prop :=
  ∀ e, WellFormed e → ∃ e', f e = some e' ∧ WellFormed e'

/-- The method never panics on a well-formed buffer, leaves it well formed and changes
nothing but the cursor (and the widgets). -/
def Moves (f : TextEditor → Option TextEditor) : Prop :=
  ∀ e, WellFormed e → ∃ e', f e = some e' ∧ WellFormed e' ∧ e'.content = e.content ∧
    e'.modified = e.modified ∧ e'.showWelcome = e.showWelcome ∧ e'.filePath = e.filePath ∧
    e'.mode = e.mode ∧ e'.commandBuffer = e.commandBuffer ∧ e'.showHelp = e.showHelp ∧
    e'.showingDialog = e.showingDialog

/-! ## Syntax highlighting -/

/-- The scan of Go `strings.ReplaceAll(s, old, new)` for a non-empty `old`: left to
right, each occurrence of `old` that starts after the previous replaced occurrence ends is
replaced by `new`; `skip` counts the bytes of a replaced occurrence still to pass over. -/
def replaceAllAux (old new : GoString) : Nat → GoString → GoString
  | _, [] => []
  | skip + 1, _ :: rest => replaceAllAux old new skip rest
  | 0, b :: rest =>
    if old.isPrefixOf (b :: rest) then new ++ replaceAllAux old new (old.length - 1) rest
    else b :: replaceAllAux old new 0 rest

/-- Go `strings.ReplaceAll(s, old, new)`.  Every call in `editor.go` passes a non-empty
literal as `old`; for an empty `old` (where Go inserts `new` around every character) this
definition returns `s`. -/
def replaceAll (s old new : GoString) : GoString :=
  if old = [] then s else replaceAllAux old new 0 s

/-- The loop `for _, keyword := range keywords` of the keyword highlighters:
`result = strings.ReplaceAll(result, keyword, fmt.Sprintf("[blue]%s[white]", keyword))`. -/
def highlightKeywords (keywords : List GoString) (line : GoString) : GoString :=
  keywords.foldl
    (fun result keyword =>
      replaceAll result keyword (goStr "[blue]" ++ keyword ++ goStr "[white]"))
    line

/-- The `keywords` of `highlightGo`. -/
def goKeywords : List GoString :=
  (["package", "import", "func", "var", "const", "type", "struct", "interface", "if", "else",
    "for", "range", "return", "go", "defer", "select", "case", "default", "switch", "break",
    "continue", "fallthrough"] : List String).map goStr

/-- The `keywords` of `highlightPython`. -/
def pythonKeywords : List GoString :=
  (["def", "class", "if", "else", "elif", "for", "while", "import", "from", "return", "yield",
    "try", "except", "finally", "with", "as", "pass", "break", "continue", "and", "or", "not",
    "in", "is", "lambda", "True", "False", "None"] : List String).map goStr

/-- The `keywords` of `highlightJavaScript`. -/
def javaScriptKeywords : List GoString :=
  (["function", "var", "let", "const", "if", "else", "for", "while", "return", "class",
    "extends", "import", "export", "async", "await", "try", "catch", "finally", "throw",
    "new", "this", "true", "false", "null", "undefined"] : List String).map goStr

/-- The `keywords` of `highlightCSS`. -/
def cssKeywords : List GoString :=
  (["color", "background", "margin", "padding", "border", "width", "height", "display",
    "position", "float", "clear", "font", "text", "line", "letter", "word", "white", "space",
    "overflow", "visibility", "opacity", "z-index"] : List String).map goStr

/-- The method `highlightGo`. -/
def highlightGo (line : GoString) : GoString :=
  let result := highlightKeywords goKeywords line
  replaceAll result (goStr "\"") (goStr "[green]\"[white]")

/-- The method `highlightPython`. -/
def highlightPython (line : GoString) : GoString :=
  highlightKeywords pythonKeywords line

/-- The method `highlightJavaScript`. -/
def highlightJavaScript (line : GoString) : GoString :=
  highlightKeywords javaScriptKeywords line

/-- The method `highlightHTML`. -/
def highlightHTML (line : GoString) : GoString :=
  let result := line
  let result := replaceAll result (goStr "<") (goStr "[red]<[white]")
  let result := replaceAll result (goStr ">") (goStr "[red]>[white]")
  result

/-- The method `highlightCSS`. -/
def highlightCSS (line : GoString) : GoString :=
  highlightKeywords cssKeywords line

/-- The method `highlightJSON`. -/
def highlightJSON (line : GoString) : GoString :=
  let result := line
  let result := replaceAll result (goStr "\"") (goStr "[green]\"[white]")
  let result := replaceAll result (goStr ":") (goStr "[yellow]:[white]")
  let result := replaceAll result (goStr ",") (goStr "[yellow],[white]")
  result

/-- The method `highlightLine`; `lowerExt` stands for the library composition
`strings.ToLower(filepath.Ext(path))`. -/
def highlightLine (lowerExt : GoString → GoString) (e : TextEditor) (line : GoString) :
    GoString :=
  if e.filePath = [] then line
  else
    let ext := lowerExt e.filePath
    if ext = goStr ".go" then highlightGo line
    else if ext = goStr ".py" then highlightPython line
    else if ext = goStr ".js" ∨ ext = goStr ".ts" then highlightJavaScript line
    else if ext = goStr ".html" ∨ ext = goStr ".htm" then highlightHTML line
    else if ext = goStr ".css" then highlightCSS line
    else if ext = goStr ".json" then highlightJSON line
    else line

/-- The colour tags the highlighters insert. -/
def colourTags : List GoString :=
  [goStr "[blue]", goStr "[green]", goStr "[red]", goStr "[yellow]", goStr "[white]"]

/-- Deleting the colour tags, left to right: where a tag starts it is passed over, any
other byte is kept; `skip` counts the bytes of a tag still to pass over. -/
def stripTagsAux : Nat → GoString → GoString
  | _, [] => []
  | skip + 1, _ :: rest => stripTagsAux skip rest
  | 0, b :: rest =>
    match colourTags.find? (fun tag => tag.isPrefixOf (b :: rest)) with
    | some tag => stripTagsAux (tag.length - 1) rest
    | none => b :: stripTagsAux 0 rest

/-- The text that is left when the colour tags are deleted. -/
def stripTags (s : GoString) : GoString := stripTagsAux 0 s

/-- The relation `Tagged s t`: `s` is the text `t` with whole colour tags inserted;
the bytes of `t` themselves contain no `[`. -/
inductive Tagged : GoString → GoString → Prop
  | nil : Tagged [] []
  | byte (b : UInt8) (s t : GoString) : b ≠ 91 → Tagged s t → Tagged (b :: s) (b :: t)
  | tag (tag s t : GoString) : tag ∈ colourTags → Tagged s t → Tagged (tag ++ s) t

/-- The conditions on a search text `k` under which a replacement scan can neither start
nor end inside a colour tag: `k` is non-empty, has no bracket, and occurs in no tag. -/
def TagSafe (k : GoString) : Prop :=
  k ≠ [] ∧ (91 : UInt8) ∉ k ∧ (93 : UInt8) ∉ k ∧
    ∀ tag ∈ colourTags, ∀ i < tag.length, k.isPrefixOf (tag.dropLast.drop i) = false


/-- Go `filepath.Ext(path)` where the path separator is `/`: the suffix that starts at
the last dot of the last path element, empty if that element has no dot. -/
def filepathExt : GoString → GoString
  | [] => []
  | b :: rest =>
    if (47 : UInt8) ∈ rest then filepathExt rest
    else if (46 : UInt8) ∈ rest then filepathExt rest
    else if b = 46 then b :: rest
    else []

/-- Go `strings.ToLower(s)` on a string of ASCII bytes: `A`..`Z` become `a`..`z`. -/
def asciiToLower (s : GoString) : GoString :=
  s.map (fun b => if 65 ≤ b ∧ b ≤ 90 then b + 32 else b)

/-- The composition `strings.ToLower(filepath.Ext(path))` for an ASCII path with `/` as
separator. -/
def unixLowerExt (path : GoString) : GoString := asciiToLower (filepathExt path)

/-- The byte-by-byte rule of JSON highlighting: a double quote becomes
`[green]"[white]`, a colon `[yellow]:[white]`, a comma `[yellow],[white]`, and every
other byte stays as it is. -/
def jsonByte (b : UInt8) : GoString :=
  if b = 34 then goStr "[green]\"[white]"
  else if b = 58 then goStr "[yellow]:[white]"
  else if b = 44 then goStr "[yellow],[white]"
  else [b]

/-! ## Classified lines

Reference definitions for the overlap policy of the highlighting: a line is a list of
cells, each scan pass wraps the occurrences of one search text, and what has been wrapped
is either closed to later passes (`firstMatchWins`) or scanned again (`rematching`).
The scan is not taken from `editor.go`: the highlighters above are compared with it.  The
rule lists (`keywordRules`, `goRules`, `htmlRules`, `jsonRules`) are those of the source. -/

/-- Go `strings.Contains(s, k)`: `k` occurs in `s`. -/
def contains : GoString → GoString → Bool
  | [], k => k.isPrefixOf []
  | b :: rest, k => k.isPrefixOf (b :: rest) || contains rest k

/-- One cell of a line that is being classified: a byte of the line that no rule has
classified yet, an occurrence `text` that a rule has wrapped in `colour` and `[white]`
and that is closed to later rules, or an inserted colour tag on its own. -/
inductive Cell
  | plain (b : UInt8)
  | wrapped (colour text : GoString)
  | tag (t : GoString)
  deriving DecidableEq

/-- The text a cell is displayed as. -/
def Cell.render : Cell → GoString
  | Cell.plain b => [b]
  | Cell.wrapped colour text => colour ++ text ++ goStr "[white]"
  | Cell.tag t => t

/-- The text a classified line is displayed as. -/
def renderCells (cells : List Cell) : GoString := cells.flatMap Cell.render

/-- The bytes of the line a cell stands for. -/
def Cell.text : Cell → GoString
  | Cell.plain b => [b]
  | Cell.wrapped _ text => text
  | Cell.tag _ => []

/-- The line a list of cells stands for. -/
def cellsText (cells : List Cell) : GoString := cells.flatMap Cell.text

/-- The search text `old` is spelled by unclassified bytes at the start of `cells`. -/
def startsPlain : GoString → List Cell → Bool
  | [], _ => true
  | k :: ks, Cell.plain b :: rest => k == b && startsPlain ks rest
  | _ :: _, _ => false

/-- The cells an occurrence of `old` becomes.  First match wins (`reconsider` false):
one closed cell, which no later rule looks into.  With `reconsider` true the bytes stay
unclassified between the two inserted tags, so that a later rule can match inside. -/
def wrapCells (reconsider : Bool) (colour old : GoString) : List Cell :=
  if reconsider then
    Cell.tag colour :: (old.map Cell.plain ++ [Cell.tag (goStr "[white]")])
  else [Cell.wrapped colour old]

/-- One scan pass for the search text `old`, left to right over the cells: each
occurrence of `old` in unclassified bytes that starts after the previous occurrence ends
is wrapped; `skip` counts the cells of an occurrence still to pass over. -/
def classifyAux (reconsider : Bool) (old colour : GoString) : Nat → List Cell → List Cell
  | _, [] => []
  | skip + 1, _ :: rest => classifyAux reconsider old colour skip rest
  | 0, c :: rest =>
    if startsPlain old (c :: rest) then
      wrapCells reconsider colour old ++ classifyAux reconsider old colour (old.length - 1) rest
    else c :: classifyAux reconsider old colour 0 rest

/-- One scan pass; an empty search text matches nothing. -/
def classify (reconsider : Bool) (cells : List Cell) (old colour : GoString) : List Cell :=
  if old = [] then cells else classifyAux reconsider old colour 0 cells

/-- The scan passes of the rules `(search text, colour)` in list order over a line that
starts out unclassified, displayed. -/
def scanRules (reconsider : Bool) (rules : List (GoString × GoString)) (line : GoString) :
    GoString :=
  renderCells
    (rules.foldl (fun cells rule => classify reconsider cells rule.1 rule.2)
      (line.map Cell.plain))

/-- First-match-wins highlighting: matches are found in rule order, and a region that a
rule has wrapped is not reconsidered by a later rule. -/
def firstMatchWins (rules : List (GoString × GoString)) (line : GoString) : GoString :=
  scanRules false rules line

/-- Highlighting in which a later rule is matched again inside the text an earlier rule
has wrapped, though not inside an inserted tag. -/
def rematching (rules : List (GoString × GoString)) (line : GoString) : GoString :=
  scanRules true rules line

/-- The rules of a keyword loop: each keyword is wrapped in `[blue]` and `[white]`. -/
def keywordRules (keywords : List GoString) : List (GoString × GoString) :=
  keywords.map (fun keyword => (keyword, goStr "[blue]"))

/-- The rules of `highlightGo`: the keywords, then the double quote in `[green]`. -/
def goRules : List (GoString × GoString) :=
  keywordRules goKeywords ++ [(goStr "\"", goStr "[green]")]

/-- The rules of `highlightHTML`. -/
def htmlRules : List (GoString × GoString) :=
  [(goStr "<", goStr "[red]"), (goStr ">", goStr "[red]")]

/-- The rules of `highlightJSON`. -/
def jsonRules : List (GoString × GoString) :=
  [(goStr "\"", goStr "[green]"), (goStr ":", goStr "[yellow]"), (goStr ",", goStr "[yellow]")]

/-- The search texts of a rule list in which the search text of a later rule occurs. -/
def nestingTexts : List GoString → List GoString
  | [] => []
  | k :: later =>
    if later.any (fun k2 => contains k k2) then k :: nestingTexts later
    else nestingTexts later

/-- The inserted cells carry colour tags. -/
def TagCells (cells : List Cell) : Prop :=
  (∀ colour text, Cell.wrapped colour text ∈ cells → colour ∈ colourTags) ∧
    ∀ t, Cell.tag t ∈ cells → t ∈ colourTags

/-! ## Invariants of runs -/

/-- While the welcome screen is showing the buffer is pristine: `content` is `[""]`, the
cursor is `(0, 0)` and `modified` is false. -/
def Pristine (e : TextEditor) : Prop :=
  e.showWelcome = true → e.content = [[]] ∧ e.lineNum = 0 ∧ e.colNum = 0 ∧ e.modified = false

/-- The step from `e` to `e'` keeps `showWelcome`, `content` and the cursor, and does not
set `modified`. -/
def Quiet (e e' : TextEditor) : Prop :=
  e'.showWelcome = e.showWelcome ∧ e'.content = e.content ∧ e'.lineNum = e.lineNum ∧
    e'.colNum = e.colNum ∧ (e'.modified = e.modified ∨ e'.modified = false)

/-- The command buffer holds none of the bytes of the letters i (105), g (103) and
h (104). -/
def NoShortcut (e : TextEditor) : Prop :=
  (105 : UInt8) ∉ e.commandBuffer ∧ (103 : UInt8) ∉ e.commandBuffer ∧
    (104 : UInt8) ∉ e.commandBuffer

/-- Successive calls `insertChar(c1)`, ..., `insertChar(cn)`. -/
def insertChars : List Rune → TextEditor → Option TextEditor
  | [], e => some e
  | char :: rest, e => (insertChar char e).bind (insertChars rest)

/-! ## Example states -/

/-- An editor past the welcome screen, in view mode, showing `content` with the cursor at
`(lineNum, colNum)`; no dialog is open and no widget call has been logged. -/
def editing (filePath : GoString) (content : List GoString) (lineNum colNum : Int) :
    TextEditor :=
  { filePath := filePath, content := content, lineNum := lineNum, colNum := colNum,
    showHelp := false, showWelcome := false, modified := false, mode := EditorMode.ViewMode,
    commandBuffer := [], showingDialog := false, ui := [] }

/-- The buffer `["ab", "cde", "f"]` with the cursor at `(1, 2)`. -/
def threeLines : TextEditor := editing [] [goStr "ab", goStr "cde", goStr "f"] 1 2

/-- The buffer `["ab", "cd"]` with the cursor at `(1, 0)`. -/
def twoLinesAtStart : TextEditor := editing [] [goStr "ab", goStr "cd"] 1 0

/-- The buffer `["ab", "cd"]` with the cursor at `(0, 2)`. -/
def twoLinesAtEnd : TextEditor := editing [] [goStr "ab", goStr "cd"] 0 2

/-- The buffer `["abc"]` with the cursor at `(0, 3)`. -/
def oneLineAtEnd : TextEditor := editing [] [goStr "abc"] 0 3

/-- The buffer of `a.txt`, `["x"]`, modified, with the Open dialog showing. -/
def openDialogShowing : TextEditor :=
  { editing (goStr "a.txt") [goStr "x"] 0 1 with modified := true, showingDialog := true }

/-- A welcome-screen state whose buffer is `["a"]`, cursor at `(0, 0)`. -/
def welcomeWithText : TextEditor :=
  { editing [] [goStr "a"] 0 0 with showWelcome := true }

/-- The state `NewTextEditor("")` leaves the data fields in: the welcome screen over the
pristine buffer `[""]`. -/
def welcomePristine : TextEditor :=
  { editing [] [[]] 0 0 with showWelcome := true }

/-- The modified buffer of `a.txt`, `["ab", "cd"]`, cursor at `(1, 1)`, in view mode with
`w` typed into the command buffer. -/
def viewState : TextEditor :=
  { editing (goStr "a.txt") [goStr "ab", goStr "cd"] 1 1 with
    modified := true, commandBuffer := goStr "w" }

/-- The state `viewState` with an empty command buffer. -/
def viewStateIdle : TextEditor := { viewState with commandBuffer := [] }

/-- The state `viewState` with `x` in the command buffer. -/
def viewStateUnknown : TextEditor := { viewState with commandBuffer := goStr "x" }

/-- The buffer of `style.css` holding the line `color`. -/
def cssFile : TextEditor := editing (goStr "style.css") [goStr "color"] 0 0

/-- The buffer of `loop.py` holding the line `continue`. -/
def pythonFile : TextEditor := editing (goStr "loop.py") [goStr "continue"] 0 0

/-- The buffer of `data.json` holding the line `{"a":1,"b":2}`. -/
def jsonFile : TextEditor := editing (goStr "data.json") [goStr "\x7b\"a\":1,\"b\":2\x7d"] 0 0

/-- The buffer of `main.go` holding the line `if s[0] == "go"`. -/
def goFile : TextEditor := editing (goStr "main.go") [goStr "if s[0] == \"go\""] 0 0

/-! ## Lists indexed by Go integers -/

theorem len_nonneg {α : Type} (xs : List α) : 0 ≤ len xs := by
  simp [len]

theorem len_append {α : Type} (xs ys : List α) : len (xs ++ ys) = len xs + len ys := by
  simp [len]

theorem len_cons {α : Type} (x : α) (xs : List α) : len (x :: xs) = len xs + 1 := by
  simp [len]

theorem len_nil {α : Type} : len ([] : List α) = 0 := rfl

theorem getElem?_split {α : Type} (pre : List α) (x : α) (post : List α) :
    (pre ++ x :: post)[pre.length]? = some x := by
  induction pre with
  | nil => simp
  | cons y ys ih => simpa using ih

/-- Indexing at the length of a prefix gives the element that follows the prefix. -/
theorem index_split {α : Type} (xs pre : List α) (x : α) (post : List α) (i : Int)
    (hx : xs = pre ++ x :: post) (h : i = len pre) : index xs i = some x := by
  subst hx h
  unfold index len
  rw [if_pos (Int.natCast_nonneg _), Int.toNat_ofNat]
  exact getElem?_split pre x post

/-- An index expression that does not panic splits the list around the element. -/
theorem index_some {α : Type} (xs : List α) (i : Int) (x : α) (h : index xs i = some x) :
    ∃ pre post, xs = pre ++ x :: post ∧ i = len pre := by
  unfold index at h
  split at h
  · next h0 =>
    obtain ⟨hlt, hget⟩ := List.getElem?_eq_some.mp h
    refine ⟨xs.take i.toNat, xs.drop (i.toNat + 1), ?_, ?_⟩
    · rw [← hget, List.getElem_cons_drop, List.take_append_drop]
    · simp only [len, List.length_take]
      omega
  · cases h

theorem slice_take {α : Type} (xs a b : List α) (hi : Int) (hx : xs = a ++ b)
    (h : hi = len a) : slice xs 0 hi = some a := by
  subst hx h
  simp [slice, len]

theorem slice_drop {α : Type} (xs a b : List α) (lo hi : Int) (hx : xs = a ++ b)
    (h : lo = len a) (h2 : hi = len xs) : slice xs lo hi = some b := by
  subst hx h h2
  have h3 : (len (a ++ b)).toNat = (a ++ b).length := by simp [len]; omega
  have h4 : (len a).toNat = a.length := by simp [len]
  unfold slice
  rw [if_pos ⟨len_nonneg a, by simp [len], le_refl _⟩, h3, h4, List.take_length,
    List.drop_left]

theorem setIndex_split {α : Type} (xs pre : List α) (x : α) (post : List α) (i : Int) (v : α)
    (hx : xs = pre ++ x :: post) (h : i = len pre) :
    setIndex xs i v = some (pre ++ v :: post) := by
  subst hx h
  simp [setIndex, len]

/-- A prefix of a line of the given length, when the length is within the line. -/
theorem exists_split_at {α : Type} (xs : List α) (i : Int) (h0 : 0 ≤ i) (h1 : i ≤ len xs) :
    ∃ a b, xs = a ++ b ∧ i = len a := by
  refine ⟨xs.take i.toNat, xs.drop i.toNat, (List.take_append_drop _ _).symm, ?_⟩
  simp only [len, List.length_take] at *
  omega

/-! ## The operations on a well-formed buffer -/

theorem updateDisplay_ok (e : TextEditor) (hc : 0 ≤ e.colNum) :
    updateDisplay e =
      some { e with ui := if e.showWelcome then e.ui else e.ui ++ [UiCall.display] } := by
  have h : ¬ e.colNum < 0 := by omega
  unfold updateDisplay
  cases hw : e.showWelcome
  · simp [h]
  · cases e
    simp_all

/-- A well-formed buffer splits around the cursor. -/
theorem WellFormed.split {e : TextEditor} (h : WellFormed e) :
    ∃ pre a b post, e.content = pre ++ (a ++ b) :: post ∧ e.lineNum = len pre ∧
      e.colNum = len a := by
  obtain ⟨_, _, _, line, hline, h0, h1⟩ := h
  obtain ⟨pre, post, hc, hl⟩ := index_some _ _ _ hline
  obtain ⟨a, b, hab, hcol⟩ := exists_split_at line e.colNum h0 h1
  exact ⟨pre, a, b, post, by rw [hc, hab], hl, hcol⟩

/-- A buffer split around the cursor is well formed. -/
theorem WellFormed.of_split {e : TextEditor} (pre : List GoString) (a b : GoString)
    (post : List GoString) (hc : e.content = pre ++ (a ++ b) :: post) (hl : e.lineNum = len pre)
    (hcol : e.colNum = len a) : WellFormed e := by
  refine ⟨by simp [hc], by rw [hl]; exact len_nonneg _, by rw [hl, hc]; simp [len], a ++ b,
    index_split _ _ _ _ _ hc hl, by rw [hcol]; exact len_nonneg _, by rw [hcol]; simp [len]⟩

theorem moveUp_first (e : TextEditor) (hl : e.lineNum = 0) : moveUp e = some e := by
  simp [moveUp, hl]

theorem moveUp_split (e : TextEditor) (pre : List GoString) (prev : GoString)
    (post : List GoString) (hc : e.content = pre ++ prev :: post) (hl : e.lineNum = len pre + 1)
    (hcol : 0 ≤ e.colNum) :
    moveUp e = some { e with lineNum := len pre,
                             colNum := if e.colNum ≥ len prev then len prev else e.colNum,
                             ui := if e.showWelcome then e.ui else e.ui ++ [UiCall.display] } := by
  unfold moveUp
  rw [if_pos (by rw [hl]; have := len_nonneg pre; omega)]
  simp only [Option.bind_eq_bind]
  rw [index_split e.content pre prev post _ hc (by rw [hl]; omega), Option.some_bind]
  split
  · rw [updateDisplay_ok]
    · simp [hl]
    · exact len_nonneg _
  · rw [updateDisplay_ok]
    · simp [hl]
    · exact hcol

theorem moveDown_last (e : TextEditor) (hl : ¬ e.lineNum < len e.content - 1) :
    moveDown e = some e := by
  simp [moveDown, hl]

theorem moveDown_split (e : TextEditor) (pre : List GoString) (cur next : GoString)
    (post : List GoString) (hc : e.content = pre ++ cur :: next :: post)
    (hl : e.lineNum = len pre) (hcol : 0 ≤ e.colNum) :
    moveDown e = some { e with lineNum := len pre + 1,
                               colNum := if e.colNum ≥ len next then len next else e.colNum,
                               ui := if e.showWelcome then e.ui else e.ui ++ [UiCall.display] } := by
  unfold moveDown
  rw [if_pos (by rw [hl, hc]; simp only [len, List.length_append, List.length_cons]; omega)]
  simp only [Option.bind_eq_bind]
  rw [index_split e.content (pre ++ [cur]) next post _ (by simp [hc]) (by simp [hl, len]),
    Option.some_bind]
  split
  · rw [updateDisplay_ok]
    · simp [hl]
    · exact len_nonneg _
  · rw [updateDisplay_ok]
    · simp [hl]
    · exact hcol

theorem moveLeft_col (e : TextEditor) (hcol : 0 < e.colNum) :
    moveLeft e = some { e with colNum := e.colNum - 1,
                               ui := if e.showWelcome then e.ui else e.ui ++ [UiCall.display] } := by
  unfold moveLeft
  rw [if_pos hcol, updateDisplay_ok]
  show 0 ≤ e.colNum - 1
  omega

theorem moveLeft_split (e : TextEditor) (pre : List GoString) (prev : GoString)
    (post : List GoString) (hc : e.content = pre ++ prev :: post) (hl : e.lineNum = len pre + 1)
    (hcol : e.colNum = 0) :
    moveLeft e = some { e with lineNum := len pre, colNum := len prev,
                               ui := if e.showWelcome then e.ui else e.ui ++ [UiCall.display] } := by
  unfold moveLeft
  rw [if_neg (by omega), if_pos (by rw [hl]; have := len_nonneg pre; omega)]
  simp only [Option.bind_eq_bind]
  rw [index_split e.content pre prev post _ hc (by rw [hl]; omega), Option.some_bind,
    updateDisplay_ok]
  · simp [hl]
  · exact len_nonneg _

theorem moveLeft_origin (e : TextEditor) (hl : e.lineNum = 0) (hcol : e.colNum = 0) :
    moveLeft e =
      some { e with ui := if e.showWelcome then e.ui else e.ui ++ [UiCall.display] } := by
  unfold moveLeft
  rw [if_neg (by omega), if_neg (by omega), updateDisplay_ok]
  omega

theorem moveRight_col (e : TextEditor) (pre : List GoString) (cur : GoString)
    (post : List GoString) (hc : e.content = pre ++ cur :: post) (hl : e.lineNum = len pre)
    (h0 : 0 ≤ e.colNum) (hcol : e.colNum < len cur) :
    moveRight e = some { e with colNum := e.colNum + 1,
                                ui := if e.showWelcome then e.ui else e.ui ++ [UiCall.display] } := by
  unfold moveRight
  simp only [Option.bind_eq_bind]
  rw [index_split e.content pre cur post _ hc hl, Option.some_bind, if_pos hcol,
    updateDisplay_ok]
  show 0 ≤ e.colNum + 1
  omega

theorem moveRight_split (e : TextEditor) (pre : List GoString) (cur next : GoString)
    (post : List GoString) (hc : e.content = pre ++ cur :: next :: post)
    (hl : e.lineNum = len pre) (hcol : e.colNum = len cur) :
    moveRight e = some { e with lineNum := len pre + 1, colNum := 0,
                                ui := if e.showWelcome then e.ui else e.ui ++ [UiCall.display] } := by
  unfold moveRight
  simp only [Option.bind_eq_bind]
  rw [index_split e.content pre cur (next :: post) _ hc hl, Option.some_bind,
    if_neg (by omega),
    if_pos (by rw [hl, hc]; simp only [len, List.length_append, List.length_cons]; omega),
    updateDisplay_ok]
  · simp [hl]
  · exact le_refl _

theorem moveRight_end (e : TextEditor) (pre : List GoString) (cur : GoString)
    (hc : e.content = pre ++ [cur]) (hl : e.lineNum = len pre) (hcol : e.colNum = len cur) :
    moveRight e =
      some { e with ui := if e.showWelcome then e.ui else e.ui ++ [UiCall.display] } := by
  unfold moveRight
  simp only [Option.bind_eq_bind]
  rw [index_split e.content pre cur [] _ hc hl, Option.some_bind,
    if_neg (by omega),
    if_neg (by rw [hl, hc]; simp only [len, List.length_append, List.length_cons]; simp),
    updateDisplay_ok]
  rw [hcol]
  exact len_nonneg _

theorem moveToLineStart_eq (e : TextEditor) :
    moveToLineStart e =
      some { e with colNum := 0,
                    ui := if e.showWelcome then e.ui else e.ui ++ [UiCall.display] } := by
  unfold moveToLineStart
  rw [updateDisplay_ok]
  exact le_refl _

theorem moveToLineEnd_split (e : TextEditor) (pre : List GoString) (cur : GoString)
    (post : List GoString) (hc : e.content = pre ++ cur :: post) (hl : e.lineNum = len pre) :
    moveToLineEnd e =
      some { e with colNum := len cur,
                    ui := if e.showWelcome then e.ui else e.ui ++ [UiCall.display] } := by
  unfold moveToLineEnd
  simp only [Option.bind_eq_bind]
  rw [index_split e.content pre cur post _ hc hl, Option.some_bind, updateDisplay_ok]
  exact len_nonneg _

theorem insertChar_welcome (char : Rune) (e : TextEditor) (hw : e.showWelcome = true) :
    insertChar char e = some e := by
  simp [insertChar, hw]

theorem insertNewline_welcome (e : TextEditor) (hw : e.showWelcome = true) :
    insertNewline e = some e := by
  simp [insertNewline, hw]

theorem backspace_welcome (e : TextEditor) (hw : e.showWelcome = true) :
    backspace e = some e := by
  simp [backspace, hw]

theorem delete_welcome (e : TextEditor) (hw : e.showWelcome = true) :
    delete e = some e := by
  simp [delete, hw]

theorem insertTab_welcome (e : TextEditor) (hw : e.showWelcome = true) :
    insertTab e = some e := by
  simp [insertTab, hw]

theorem insertChar_split (char : Rune) (e : TextEditor) (pre : List GoString) (a b : GoString)
    (post : List GoString) (hw : e.showWelcome = false)
    (hc : e.content = pre ++ (a ++ b) :: post) (hl : e.lineNum = len pre)
    (hcol : e.colNum = len a) :
    insertChar char e =
      some { e with content := pre ++ (a ++ runeString char ++ b) :: post,
                    colNum := len a + 1, modified := true,
                    ui := e.ui ++ [UiCall.display] } := by
  unfold insertChar
  rw [if_neg (by simp [hw])]
  simp only [Option.bind_eq_bind]
  rw [index_split e.content pre (a ++ b) post _ hc hl, Option.some_bind,
    slice_take (a ++ b) a b _ rfl hcol, Option.some_bind,
    slice_drop (a ++ b) a b _ _ rfl hcol rfl, Option.some_bind,
    setIndex_split e.content pre (a ++ b) post _ _ hc hl, Option.some_bind, updateDisplay_ok]
  · simp [hw, hcol]
  · show 0 ≤ e.colNum + 1
    have := len_nonneg a
    omega

theorem insertNewline_split (e : TextEditor) (pre : List GoString) (a b : GoString)
    (post : List GoString) (hw : e.showWelcome = false)
    (hc : e.content = pre ++ (a ++ b) :: post) (hl : e.lineNum = len pre)
    (hcol : e.colNum = len a) :
    insertNewline e =
      some { e with content := pre ++ a :: b :: post, lineNum := len pre + 1, colNum := 0,
                    modified := true, ui := e.ui ++ [UiCall.display] } := by
  unfold insertNewline
  rw [if_neg (by simp [hw])]
  simp only [Option.bind_eq_bind]
  rw [index_split e.content pre (a ++ b) post _ hc hl, Option.some_bind,
    slice_take (a ++ b) a b _ rfl hcol, Option.some_bind,
    slice_drop (a ++ b) a b _ _ rfl hcol rfl, Option.some_bind,
    setIndex_split e.content pre (a ++ b) post _ a hc hl, Option.some_bind,
    slice_drop (pre ++ a :: post) (pre ++ [a]) post _ _ (by simp) (by simp [len, hl]) rfl,
    Option.some_bind,
    slice_take (pre ++ a :: post) (pre ++ [a]) post _ (by simp) (by simp [len, hl]),
    Option.some_bind, updateDisplay_ok]
  · simp [hw, hl]
  · exact le_refl _

theorem backspace_col (e : TextEditor) (pre : List GoString) (a : GoString) (c : UInt8)
    (b : GoString) (post : List GoString) (hw : e.showWelcome = false)
    (hc : e.content = pre ++ (a ++ c :: b) :: post) (hl : e.lineNum = len pre)
    (hcol : e.colNum = len a + 1) :
    backspace e =
      some { e with content := pre ++ (a ++ b) :: post, colNum := len a, modified := true,
                    ui := e.ui ++ [UiCall.display] } := by
  have ha := len_nonneg a
  unfold backspace
  rw [if_neg (by simp [hw]), if_pos (by omega)]
  simp only [Option.bind_eq_bind]
  rw [index_split e.content pre (a ++ c :: b) post _ hc hl, Option.some_bind,
    slice_take (a ++ c :: b) a (c :: b) _ rfl (by omega), Option.some_bind,
    slice_drop (a ++ c :: b) (a ++ [c]) b _ _ (by simp) (by simp [len, hcol]) rfl,
    Option.some_bind,
    setIndex_split e.content pre (a ++ c :: b) post _ _ hc hl, Option.some_bind,
    updateDisplay_ok]
  · simp [hw, hcol]
  · show 0 ≤ e.colNum - 1
    omega

theorem backspace_join (e : TextEditor) (pre : List GoString) (prev cur : GoString)
    (post : List GoString) (hw : e.showWelcome = false)
    (hc : e.content = pre ++ prev :: cur :: post) (hl : e.lineNum = len pre + 1)
    (hcol : e.colNum = 0) :
    backspace e =
      some { e with content := pre ++ (prev ++ cur) :: post, lineNum := len pre,
                    colNum := len prev, modified := true,
                    ui := e.ui ++ [UiCall.display] } := by
  have hp := len_nonneg pre
  unfold backspace
  rw [if_neg (by simp [hw]), if_neg (by omega), if_pos (by omega)]
  simp only [Option.bind_eq_bind]
  rw [index_split e.content pre prev (cur :: post) _ hc (by omega), Option.some_bind,
    index_split e.content (pre ++ [prev]) cur post _ (by simp [hc]) (by simp [len, hl]),
    Option.some_bind,
    setIndex_split e.content pre prev (cur :: post) _ _ hc (by omega), Option.some_bind,
    slice_take (pre ++ (prev ++ cur) :: cur :: post) (pre ++ [prev ++ cur]) (cur :: post) _
      (by simp) (by simp [len, hl]),
    Option.some_bind,
    slice_drop (pre ++ (prev ++ cur) :: cur :: post) (pre ++ [prev ++ cur, cur]) post _ _
      (by simp) (by simp [len, hl]; omega) rfl,
    Option.some_bind, updateDisplay_ok]
  · simp [hw, hl]
  · exact len_nonneg _

theorem backspace_origin (e : TextEditor) (hw : e.showWelcome = false) (hl : e.lineNum = 0)
    (hcol : e.colNum = 0) : backspace e = some { e with ui := e.ui ++ [UiCall.display] } := by
  unfold backspace
  rw [if_neg (by simp [hw]), if_neg (by omega), if_neg (by omega), updateDisplay_ok]
  · simp [hw]
  · omega

theorem delete_col (e : TextEditor) (pre : List GoString) (a : GoString) (c : UInt8)
    (b : GoString) (post : List GoString) (hw : e.showWelcome = false)
    (hc : e.content = pre ++ (a ++ c :: b) :: post) (hl : e.lineNum = len pre)
    (hcol : e.colNum = len a) :
    delete e =
      some { e with content := pre ++ (a ++ b) :: post, modified := true,
                    ui := e.ui ++ [UiCall.display] } := by
  have ha := len_nonneg a
  unfold delete
  rw [if_neg (by simp [hw])]
  simp only [Option.bind_eq_bind]
  rw [index_split e.content pre (a ++ c :: b) post _ hc hl, Option.some_bind,
    if_pos (by rw [hcol]; simp only [len, List.length_append, List.length_cons]; omega),
    slice_take (a ++ c :: b) a (c :: b) _ rfl hcol, Option.some_bind,
    slice_drop (a ++ c :: b) (a ++ [c]) b _ _ (by simp) (by simp [len, hcol]) rfl,
    Option.some_bind,
    setIndex_split e.content pre (a ++ c :: b) post _ _ hc hl, Option.some_bind,
    updateDisplay_ok]
  · simp [hw]
  · show 0 ≤ e.colNum
    omega

theorem delete_join (e : TextEditor) (pre : List GoString) (cur next : GoString)
    (post : List GoString) (hw : e.showWelcome = false)
    (hc : e.content = pre ++ cur :: next :: post) (hl : e.lineNum = len pre)
    (hcol : e.colNum = len cur) :
    delete e =
      some { e with content := pre ++ (cur ++ next) :: post, modified := true,
                    ui := e.ui ++ [UiCall.display] } := by
  have hp := len_nonneg pre
  have hcur := len_nonneg cur
  unfold delete
  rw [if_neg (by simp [hw])]
  simp only [Option.bind_eq_bind]
  rw [index_split e.content pre cur (next :: post) _ hc hl, Option.some_bind,
    if_neg (by omega),
    if_pos (by rw [hl, hc]; simp only [len, List.length_append, List.length_cons]; omega),
    index_split e.content (pre ++ [cur]) next post _ (by simp [hc]) (by simp [len, hl]),
    Option.some_bind,
    setIndex_split e.content pre cur (next :: post) _ _ hc hl, Option.some_bind,
    slice_take (pre ++ (cur ++ next) :: next :: post) (pre ++ [cur ++ next]) (next :: post) _
      (by simp) (by simp [len, hl]),
    Option.some_bind,
    slice_drop (pre ++ (cur ++ next) :: next :: post) (pre ++ [cur ++ next, next]) post _ _
      (by simp) (by simp [len, hl]) rfl,
    Option.some_bind, updateDisplay_ok]
  · simp [hw]
  · show 0 ≤ e.colNum
    omega

theorem delete_end (e : TextEditor) (pre : List GoString) (cur : GoString)
    (hw : e.showWelcome = false) (hc : e.content = pre ++ [cur]) (hl : e.lineNum = len pre)
    (hcol : e.colNum = len cur) :
    delete e = some { e with ui := e.ui ++ [UiCall.display] } := by
  have hcur := len_nonneg cur
  unfold delete
  rw [if_neg (by simp [hw])]
  simp only [Option.bind_eq_bind]
  rw [index_split e.content pre cur [] _ hc hl, Option.some_bind,
    if_neg (by omega),
    if_neg (by rw [hl, hc]; simp only [len, List.length_append, List.length_cons]; simp),
    updateDisplay_ok]
  · simp [hw]
  · omega

/-- The loop of `insertTab` with `n` rounds left inserts `n` spaces at the cursor. -/
theorem insertTabLoop_split (pre : List GoString) (b : GoString) (post : List GoString)
    (n : Nat) : ∀ (e : TextEditor) (a : GoString), e.showWelcome = false →
      e.content = pre ++ (a ++ b) :: post → e.lineNum = len pre → e.colNum = len a →
      ∃ e', insertTabLoop n e = some e' ∧
        e'.content = pre ++ (a ++ (List.replicate n 32 ++ b)) :: post ∧
        e'.lineNum = e.lineNum ∧ e'.colNum = len a + n ∧ e'.showWelcome = false ∧
        e'.filePath = e.filePath ∧ e'.showHelp = e.showHelp ∧ e'.mode = e.mode ∧
        e'.commandBuffer = e.commandBuffer ∧ e'.showingDialog = e.showingDialog ∧
        (0 < n → e'.modified = true) ∧ (n = 0 → e'.modified = e.modified) := by
  induction n with
  | zero =>
    intro e a hw hc hl hcol
    exact ⟨e, rfl, by simpa using hc, rfl, by simpa using hcol, hw, rfl, rfl, rfl, rfl, rfl,
      by simp, by simp⟩
  | succ n ih =>
    intro e a hw hc hl hcol
    obtain ⟨e', h1, h2, h3, h4, h5, h6, h7, h8, h9, h10, _, _⟩ :=
      ih { e with content := pre ++ (a ++ runeString 32 ++ b) :: post, colNum := len a + 1,
                  modified := true, ui := e.ui ++ [UiCall.display] }
        (a ++ [32]) hw (by simp [runeString]) hl (by simp [len])
    refine ⟨e', ?_, ?_, h3, ?_, h5, h6, h7, h8, h9, h10, ?_, by simp⟩
    · rw [insertTabLoop, insertChar_split 32 e pre a b post hw hc hl hcol, Option.some_bind]
      exact h1
    · rw [h2]
      simp [List.replicate_succ]
    · rw [h4]
      simp only [len, List.length_append, List.length_singleton]
      push_cast
      omega
    · intro _
      rcases Nat.eq_zero_or_pos n with hn | hn
      · subst hn
        simp_all
      · simp_all

theorem insertTab_split (e : TextEditor) (pre : List GoString) (a b : GoString)
    (post : List GoString) (hw : e.showWelcome = false)
    (hc : e.content = pre ++ (a ++ b) :: post) (hl : e.lineNum = len pre)
    (hcol : e.colNum = len a) :
    ∃ e', insertTab e = some e' ∧
      e'.content = pre ++ (a ++ ([32, 32, 32, 32] ++ b)) :: post ∧
      e'.lineNum = e.lineNum ∧ e'.colNum = len a + 4 ∧ e'.showWelcome = false ∧
      e'.modified = true := by
  obtain ⟨e', h1, h2, h3, h4, h5, _, _, _, _, _, h11, _⟩ :=
    insertTabLoop_split pre b post 4 e a hw hc hl hcol
  refine ⟨e', ?_, h2, h3, h4, h5, h11 (by decide)⟩
  unfold insertTab
  rw [if_neg (by simp [hw])]
  exact h1

/-- A buffer whose cursor line is known and whose column is within it is well formed. -/
theorem WellFormed.of_line {e : TextEditor} (pre : List GoString) (cur : GoString)
    (post : List GoString) (hc : e.content = pre ++ cur :: post) (hl : e.lineNum = len pre)
    (h0 : 0 ≤ e.colNum) (h1 : e.colNum ≤ len cur) : WellFormed e := by
  refine ⟨by simp [hc], by rw [hl]; exact len_nonneg _, by rw [hl, hc]; simp [len], cur,
    index_split _ _ _ _ _ hc hl, h0, h1⟩

theorem Moves.safe {f : TextEditor → Option TextEditor} (h : Moves f) : Safe f := by
  intro e he
  obtain ⟨e', h1, h2, _⟩ := h e he
  exact ⟨e', h1, h2⟩

theorem updateDisplay_moves : Moves updateDisplay := by
  intro e h
  obtain ⟨pre, a, b, post, hc, hl, hcol⟩ := h.split
  refine ⟨_, updateDisplay_ok e (by rw [hcol]; exact len_nonneg _),
      ?_, rfl, rfl, rfl, rfl, rfl, rfl, rfl, rfl⟩
  exact WellFormed.of_split pre a b post hc hl hcol

theorem moveUp_moves : Moves moveUp := by
  intro e h
  obtain ⟨pre, a, b, post, hc, hl, hcol⟩ := h.split
  have ha := len_nonneg a
  rcases List.eq_nil_or_concat pre with hp | ⟨pre', prev, hp⟩
  · subst hp
    exact ⟨e, moveUp_first e hl, h, rfl, rfl, rfl, rfl, rfl, rfl, rfl, rfl⟩
  · subst hp
    refine ⟨_, moveUp_split e pre' prev ((a ++ b) :: post) (by simp [hc])
      (by simp [hl, len]) (by omega),
      ?_, rfl, rfl, rfl, rfl, rfl, rfl, rfl, rfl⟩
    refine WellFormed.of_line pre' prev ((a ++ b) :: post) (by simp [hc]) rfl ?_ ?_
    · show 0 ≤ (if e.colNum ≥ len prev then len prev else e.colNum)
      split
      · exact len_nonneg _
      · omega
    · show (if e.colNum ≥ len prev then len prev else e.colNum) ≤ len prev
      split <;> omega

theorem moveDown_moves : Moves moveDown := by
  intro e h
  obtain ⟨pre, a, b, post, hc, hl, hcol⟩ := h.split
  have ha := len_nonneg a
  cases post with
  | nil =>
    exact ⟨e, moveDown_last e (by rw [hl, hc]; simp [len]), h,
      rfl, rfl, rfl, rfl, rfl, rfl, rfl, rfl⟩
  | cons next post =>
    refine ⟨_, moveDown_split e pre (a ++ b) next post hc hl (by omega),
      ?_, rfl, rfl, rfl, rfl, rfl, rfl, rfl, rfl⟩
    refine WellFormed.of_line (pre ++ [a ++ b]) next post (by simp [hc]) (by simp [len]) ?_ ?_
    · show 0 ≤ (if e.colNum ≥ len next then len next else e.colNum)
      split
      · exact len_nonneg _
      · omega
    · show (if e.colNum ≥ len next then len next else e.colNum) ≤ len next
      split <;> omega

theorem moveLeft_moves : Moves moveLeft := by
  intro e h
  obtain ⟨pre, a, b, post, hc, hl, hcol⟩ := h.split
  have ha := len_nonneg a
  have hab : len (a ++ b) = len a + len b := len_append a b
  have hb := len_nonneg b
  by_cases h0 : 0 < e.colNum
  · refine ⟨_, moveLeft_col e h0,
      ?_, rfl, rfl, rfl, rfl, rfl, rfl, rfl, rfl⟩
    refine WellFormed.of_line pre (a ++ b) post hc hl ?_ ?_
    · show 0 ≤ e.colNum - 1
      omega
    · show e.colNum - 1 ≤ len (a ++ b)
      omega
  · have hz : e.colNum = 0 := by omega
    rcases List.eq_nil_or_concat pre with hp | ⟨pre', prev, hp⟩
    · subst hp
      refine ⟨_, moveLeft_origin e hl hz,
      ?_, rfl, rfl, rfl, rfl, rfl, rfl, rfl, rfl⟩
      exact WellFormed.of_split [] a b post hc hl hcol
    · subst hp
      refine ⟨_, moveLeft_split e pre' prev ((a ++ b) :: post) (by simp [hc])
        (by simp [hl, len]) hz,
      ?_, rfl, rfl, rfl, rfl, rfl, rfl, rfl, rfl⟩
      exact WellFormed.of_line pre' prev ((a ++ b) :: post) (by simp [hc]) rfl
        (len_nonneg _) (le_refl _)

theorem moveRight_moves : Moves moveRight := by
  intro e h
  obtain ⟨pre, a, b, post, hc, hl, hcol⟩ := h.split
  have ha := len_nonneg a
  have hab : len (a ++ b) = len a + len b := len_append a b
  have hb := len_nonneg b
  by_cases h0 : e.colNum < len (a ++ b)
  · refine ⟨_, moveRight_col e pre (a ++ b) post hc hl (by omega) h0,
      ?_, rfl, rfl, rfl, rfl, rfl, rfl, rfl, rfl⟩
    refine WellFormed.of_line pre (a ++ b) post hc hl ?_ ?_
    · show 0 ≤ e.colNum + 1
      omega
    · show e.colNum + 1 ≤ len (a ++ b)
      omega
  · have hz : e.colNum = len (a ++ b) := by omega
    cases post with
    | nil =>
      refine ⟨_, moveRight_end e pre (a ++ b) hc hl hz,
      ?_, rfl, rfl, rfl, rfl, rfl, rfl, rfl, rfl⟩
      exact WellFormed.of_split pre a b [] hc hl hcol
    | cons next post =>
      refine ⟨_, moveRight_split e pre (a ++ b) next post hc hl hz,
      ?_, rfl, rfl, rfl, rfl, rfl, rfl, rfl, rfl⟩
      exact WellFormed.of_line (pre ++ [a ++ b]) next post (by simp [hc]) (by simp [len])
        (le_refl _) (len_nonneg _)

theorem moveToLineStart_moves : Moves moveToLineStart := by
  intro e h
  obtain ⟨pre, a, b, post, hc, hl, hcol⟩ := h.split
  refine ⟨_, moveToLineStart_eq e,
      ?_, rfl, rfl, rfl, rfl, rfl, rfl, rfl, rfl⟩
  exact WellFormed.of_line pre (a ++ b) post hc hl (le_refl _) (len_nonneg _)

theorem moveToLineEnd_moves : Moves moveToLineEnd := by
  intro e h
  obtain ⟨pre, a, b, post, hc, hl, hcol⟩ := h.split
  refine ⟨_, moveToLineEnd_split e pre (a ++ b) post hc hl,
      ?_, rfl, rfl, rfl, rfl, rfl, rfl, rfl, rfl⟩
  exact WellFormed.of_line pre (a ++ b) post hc hl (len_nonneg _) (le_refl _)

theorem runeString_ne_nil (r : Rune) : runeString r ≠ [] := by
  unfold runeString
  split
  · simp
  · simp only
    split_ifs <;> simp

theorem insertChar_safe (char : Rune) : Safe (insertChar char) := by
  intro e h
  obtain ⟨pre, a, b, post, hc, hl, hcol⟩ := h.split
  cases hw : e.showWelcome
  · refine ⟨_, insertChar_split char e pre a b post hw hc hl hcol, ?_⟩
    refine WellFormed.of_line pre (a ++ runeString char ++ b) post rfl hl ?_ ?_
    · show 0 ≤ len a + 1
      have := len_nonneg a
      omega
    · show len a + 1 ≤ len (a ++ runeString char ++ b)
      have hr : 0 < (runeString char).length :=
        List.length_pos.mpr (runeString_ne_nil char)
      simp only [len, List.length_append]
      omega
  · exact ⟨e, insertChar_welcome char e hw, h⟩

theorem insertNewline_safe : Safe insertNewline := by
  intro e h
  obtain ⟨pre, a, b, post, hc, hl, hcol⟩ := h.split
  cases hw : e.showWelcome
  · refine ⟨_, insertNewline_split e pre a b post hw hc hl hcol, ?_⟩
    exact WellFormed.of_line (pre ++ [a]) b post (by simp) (by simp [len]) (le_refl _)
      (len_nonneg _)
  · exact ⟨e, insertNewline_welcome e hw, h⟩

theorem backspace_safe : Safe backspace := by
  intro e h
  obtain ⟨pre, a, b, post, hc, hl, hcol⟩ := h.split
  cases hw : e.showWelcome
  · rcases List.eq_nil_or_concat a with ha | ⟨a', c, ha⟩
    · subst ha
      have hz : e.colNum = 0 := hcol
      rcases List.eq_nil_or_concat pre with hp | ⟨pre', prev, hp⟩
      · subst hp
        refine ⟨_, backspace_origin e hw hl hz, ?_⟩
        exact WellFormed.of_split [] [] b post hc hl hcol
      · subst hp
        refine ⟨_, backspace_join e pre' prev b post hw (by simp [hc]) (by simp [hl, len]) hz,
          ?_⟩
        exact WellFormed.of_split pre' prev b post rfl rfl rfl
    · subst ha
      refine ⟨_, backspace_col e pre a' c b post hw (by simp [hc]) hl (by simp [hcol, len]), ?_⟩
      exact WellFormed.of_split pre a' b post rfl hl rfl
  · exact ⟨e, backspace_welcome e hw, h⟩

theorem delete_safe : Safe delete := by
  intro e h
  obtain ⟨pre, a, b, post, hc, hl, hcol⟩ := h.split
  cases hw : e.showWelcome
  · cases b with
    | nil =>
      cases post with
      | nil =>
        refine ⟨_, delete_end e pre (a ++ []) hw hc hl (by simp [hcol]), ?_⟩
        exact WellFormed.of_split pre a [] [] hc hl hcol
      | cons next post =>
        refine ⟨_, delete_join e pre (a ++ []) next post hw hc hl (by simp [hcol]), ?_⟩
        exact WellFormed.of_split pre a next post (by simp) hl hcol
    | cons c b =>
      refine ⟨_, delete_col e pre a c b post hw hc hl hcol, ?_⟩
      exact WellFormed.of_split pre a b post rfl hl hcol
  · exact ⟨e, delete_welcome e hw, h⟩

theorem insertTab_safe : Safe insertTab := by
  intro e h
  obtain ⟨pre, a, b, post, hc, hl, hcol⟩ := h.split
  cases hw : e.showWelcome
  · obtain ⟨e', h1, h2, h3, h4, _, _⟩ := insertTab_split e pre a b post hw hc hl hcol
    refine ⟨e', h1, ?_⟩
    exact WellFormed.of_split pre (a ++ [32, 32, 32, 32]) b post (by simp [h2])
      (by rw [h3, hl]) (by simp [h4, len])
  · exact ⟨e, insertTab_welcome e hw, h⟩

/-- Well-formedness depends on `content`, `lineNum` and `colNum` only. -/
theorem WellFormed.congr {e e' : TextEditor} (h : WellFormed e) (hc : e'.content = e.content)
    (hl : e'.lineNum = e.lineNum) (hcol : e'.colNum = e.colNum) : WellFormed e' := by
  unfold WellFormed at *
  rw [hc, hl, hcol]
  exact h

theorem splitLines_ne_nil (s : GoString) : splitLines s ≠ [] := by
  cases s with
  | nil => simp [splitLines]
  | cons b rest =>
    unfold splitLines
    split
    · simp
    · split <;> simp

theorem loadFile_safe (read : Except FileError GoString) : Safe (loadFile read) := by
  intro e h
  unfold loadFile
  split
  · exact ⟨e, rfl, h⟩
  · cases read with
    | error err => exact ⟨_, rfl, h.congr rfl rfl rfl⟩
    | ok data =>
      simp only
      rw [updateDisplay_ok _ (le_refl _)]
      refine ⟨_, rfl, ?_⟩
      rw [if_neg (by
        have := List.length_pos.mpr (splitLines_ne_nil data)
        simp only [len]
        omega)]
      obtain ⟨l, ls, hs⟩ := List.exists_cons_of_ne_nil (splitLines_ne_nil data)
      exact WellFormed.of_line [] l ls (by simpa using hs) rfl (le_refl _) (len_nonneg _)

theorem newFile_safe : Safe newFile := by
  intro e _
  unfold newFile
  rw [updateDisplay_ok _ (le_refl _)]
  exact ⟨_, rfl, WellFormed.of_line [] [] [] rfl rfl (le_refl _) (le_refl _)⟩

theorem saveFile_wellFormed (write : Option FileError) (e : TextEditor) (h : WellFormed e) :
    WellFormed (saveFile write e) := by
  unfold saveFile
  split
  · exact h.congr rfl rfl rfl
  · cases write with
    | none => exact h.congr rfl rfl rfl
    | some err => exact h.congr rfl rfl rfl

theorem closeDialog_wellFormed (e : TextEditor) (h : WellFormed e) :
    WellFormed (closeDialog e) :=
  h.congr rfl rfl rfl

theorem executeCommand_safe (write : Option FileError) : Safe (executeCommand write) := by
  intro e h
  have h' : WellFormed { e with commandBuffer := [] } := h.congr rfl rfl rfl
  unfold executeCommand
  simp only
  split_ifs
  · exact ⟨_, rfl, h.congr rfl rfl rfl⟩
  · exact ⟨_, rfl, saveFile_wellFormed write _ h'⟩
  · exact ⟨_, rfl, (saveFile_wellFormed write _ h').congr rfl rfl rfl⟩
  · exact ⟨_, rfl, h.congr rfl rfl rfl⟩
  · exact newFile_safe _ h'
  · exact ⟨_, rfl, h.congr rfl rfl rfl⟩
  · exact ⟨_, rfl, h.congr rfl rfl rfl⟩

theorem handleEditMode_safe (event : EventKey) : Safe (handleEditMode event) := by
  intro e h
  unfold handleEditMode
  split
  · exact ⟨_, rfl, h.congr rfl rfl rfl⟩
  · exact moveUp_moves.safe e h
  · exact moveDown_moves.safe e h
  · exact moveLeft_moves.safe e h
  · exact moveRight_moves.safe e h
  · exact moveToLineStart_moves.safe e h
  · exact moveToLineEnd_moves.safe e h
  · exact insertNewline_safe e h
  · exact backspace_safe e h
  · exact backspace_safe e h
  · exact delete_safe e h
  · exact insertTab_safe e h
  · split
    · exact insertChar_safe _ e h
    · exact ⟨e, rfl, h⟩

theorem handleViewMode_safe (event : EventKey) (write : Option FileError) :
    Safe (handleViewMode event write) := by
  intro e h
  unfold handleViewMode
  split
  · exact ⟨_, rfl, h.congr rfl rfl rfl⟩
  · exact moveUp_moves.safe e h
  · exact moveDown_moves.safe e h
  · exact moveLeft_moves.safe e h
  · exact moveRight_moves.safe e h
  · exact moveToLineStart_moves.safe e h
  · exact moveToLineEnd_moves.safe e h
  · exact executeCommand_safe write e h
  · split_ifs
    · exact ⟨_, rfl, h.congr rfl rfl rfl⟩
    · exact ⟨_, rfl, h.congr rfl rfl rfl⟩
    · exact ⟨e, rfl, h⟩
    · exact ⟨_, rfl, h.congr rfl rfl rfl⟩
    · exact ⟨_, rfl, h.congr rfl rfl rfl⟩
    · exact ⟨e, rfl, h⟩

theorem step_safe (i : Input) : Safe (step i) := by
  intro e h
  cases i with
  | key event write =>
    show ∃ e', inputCapture event write e = some e' ∧ WellFormed e'
    unfold inputCapture
    split
    · exact handleEditMode_safe event e h
    · exact handleViewMode_safe event write e h
  | helpClose => exact ⟨_, rfl, h.congr rfl rfl rfl⟩
  | saveSubmit filename write =>
    refine ⟨_, rfl, ?_⟩
    unfold saveFormSave
    split
    · exact closeDialog_wellFormed _ (saveFile_wellFormed write _ (h.congr rfl rfl rfl))
    · exact closeDialog_wellFormed _ h
  | saveCancel => exact ⟨_, rfl, h.congr rfl rfl rfl⟩
  | openSubmit filename read =>
    show ∃ e', openFormOpen filename read e = some e' ∧ WellFormed e'
    unfold openFormOpen
    split
    · obtain ⟨e1, h1, h2⟩ :=
        loadFile_safe read { e with filePath := filename } (h.congr rfl rfl rfl)
      exact ⟨closeDialog e1, by rw [h1]; rfl, closeDialog_wellFormed e1 h2⟩
    · exact ⟨_, rfl, closeDialog_wellFormed e h⟩
  | openCancel => exact ⟨_, rfl, h.congr rfl rfl rfl⟩
  | callMoveUp => exact moveUp_moves.safe e h
  | callMoveDown => exact moveDown_moves.safe e h
  | callMoveLeft => exact moveLeft_moves.safe e h
  | callMoveRight => exact moveRight_moves.safe e h
  | callMoveToLineStart => exact moveToLineStart_moves.safe e h
  | callMoveToLineEnd => exact moveToLineEnd_moves.safe e h
  | callInsertChar char => exact insertChar_safe char e h
  | callInsertNewline => exact insertNewline_safe e h
  | callBackspace => exact backspace_safe e h
  | callDelete => exact delete_safe e h
  | callInsertTab => exact insertTab_safe e h
  | callExecuteCommand write => exact executeCommand_safe write e h
  | callLoadFile read => exact loadFile_safe read e h
  | callSaveFile write => exact ⟨_, rfl, saveFile_wellFormed write e h⟩
  | callNewFile => exact newFile_safe e h

theorem NewTextEditor_wellFormed (filePath : GoString) (read : Except FileError GoString)
    (e : TextEditor) (h : NewTextEditor filePath read = some e) : WellFormed e := by
  have h0 : WellFormed
      { filePath := filePath, content := [[]], lineNum := 0, colNum := 0, showHelp := false,
        showWelcome := decide (filePath = []), modified := false, mode := EditorMode.ViewMode,
        commandBuffer := [], showingDialog := false, ui := [] } :=
    WellFormed.of_line [] [] [] rfl rfl (le_refl _) (le_refl _)
  unfold NewTextEditor at h
  simp only at h
  split at h
  · obtain ⟨e1, h1, h2⟩ := loadFile_safe read _ h0
    rw [h1] at h
    simp only [Option.map_some', Option.some.injEq] at h
    subst h
    exact h2.congr rfl rfl rfl
  · simp only [Option.map_some', Option.some.injEq] at h
    subst h
    exact h0.congr rfl rfl rfl

theorem NewTextEditor_isSome (filePath : GoString) (read : Except FileError GoString) :
    ∃ e, NewTextEditor filePath read = some e := by
  have h0 : WellFormed
      { filePath := filePath, content := [[]], lineNum := 0, colNum := 0, showHelp := false,
        showWelcome := decide (filePath = []), modified := false, mode := EditorMode.ViewMode,
        commandBuffer := [], showingDialog := false, ui := [] } :=
    WellFormed.of_line [] [] [] rfl rfl (le_refl _) (le_refl _)
  unfold NewTextEditor
  simp only
  split
  · obtain ⟨e1, h1, _⟩ := loadFile_safe read _ h0
    rw [h1]
    exact ⟨_, rfl⟩
  · exact ⟨_, rfl⟩

theorem Reachable.wellFormed {e : TextEditor} (h : Reachable e) : WellFormed e := by
  induction h with
  | init filePath read e h => exact NewTextEditor_wellFormed filePath read e h
  | step i e e' _ hs ih =>
    obtain ⟨e1, h1, h2⟩ := step_safe i e ih
    rw [h1] at hs
    cases hs
    exact h2

theorem run_safe (is : List Input) : Safe (run is) := by
  induction is with
  | nil => exact fun e h => ⟨e, rfl, h⟩
  | cons i rest ih =>
    intro e h
    obtain ⟨e1, h1, h2⟩ := step_safe i e h
    obtain ⟨e2, h3, h4⟩ := ih e1 h2
    exact ⟨e2, by rw [run, h1]; exact h3, h4⟩

theorem runeString_one_byte (r : Int) (h0 : 0 ≤ r) (h1 : r ≤ 127) :
    runeString r = [UInt8.ofNat r.toNat] := by
  have h2 : ¬ r < 0 := by omega
  have h3 : r.toNat ≤ 0x7F := by omega
  unfold runeString
  rw [if_neg h2]
  simp only
  rw [if_pos h3]

/-- Typing one-byte characters: the line receives their text at the cursor and the cursor
ends right after it. -/
theorem insertChars_one_byte (pre : List GoString) (b : GoString) (post : List GoString)
    (chars : List Rune) : (∀ c ∈ chars, 0 ≤ c ∧ c ≤ 127) →
    ∀ (e : TextEditor) (a : GoString), e.showWelcome = false →
      e.content = pre ++ (a ++ b) :: post → e.lineNum = len pre → e.colNum = len a →
      ∃ e', insertChars chars e = some e' ∧
        e'.content = pre ++ (a ++ (chars.flatMap runeString ++ b)) :: post ∧
        e'.lineNum = e.lineNum ∧ e'.colNum = len a + len chars ∧
        len (chars.flatMap runeString) = len chars := by
  induction chars with
  | nil =>
    intro _ e a hw hc hl hcol
    exact ⟨e, rfl, by simpa using hc, rfl, by simpa [len] using hcol, rfl⟩
  | cons c cs ih =>
    intro hcs e a hw hc hl hcol
    have hc1 := runeString_one_byte c (hcs c (List.mem_cons_self _ _)).1
      (hcs c (List.mem_cons_self _ _)).2
    obtain ⟨e', h1, h2, h3, h4, h5⟩ :=
      ih (fun x hx => hcs x (List.mem_cons_of_mem _ hx))
        { e with content := pre ++ (a ++ runeString c ++ b) :: post, colNum := len a + 1,
                 modified := true, ui := e.ui ++ [UiCall.display] }
        (a ++ runeString c) hw rfl hl (by rw [hc1]; simp [len])
    refine ⟨e', ?_, ?_, h3, ?_, ?_⟩
    · rw [insertChars, insertChar_split c e pre a b post hw hc hl hcol, Option.some_bind]
      exact h1
    · rw [h2]
      simp
    · rw [h4, hc1]
      simp only [len, List.length_append, List.length_cons, List.length_nil]
      push_cast
      omega
    · simp only [len, List.flatMap_cons, List.length_append, List.length_cons] at h5 ⊢
      rw [hc1]
      simp only [List.length_cons, List.length_nil]
      push_cast
      omega

/-- A well-formed buffer whose content is `[""]` has its cursor at `(0, 0)`. -/
theorem WellFormed.pristine {e : TextEditor} (h : WellFormed e) (hc : e.content = [[]]) :
    e.lineNum = 0 ∧ e.colNum = 0 := by
  obtain ⟨_, h0, h1, line, hline, h2, h3⟩ := h
  rw [hc] at h1 hline
  have hl : e.lineNum = 0 := by
    simp only [len, List.length_singleton] at h1
    omega
  rw [hl] at hline
  have : line = [] := by
    simpa [index] using hline.symm
  subst this
  exact ⟨hl, by simp only [len, List.length_nil] at h3; omega⟩

/-- On the welcome screen over the pristine buffer no movement changes anything. -/
theorem moves_pristine (e : TextEditor) (hw : e.showWelcome = true) (h : WellFormed e)
    (hc : e.content = [[]]) :
    moveUp e = some e ∧ moveDown e = some e ∧ moveLeft e = some e ∧ moveRight e = some e ∧
      moveToLineStart e = some e ∧ moveToLineEnd e = some e := by
  obtain ⟨hl, hcol⟩ := h.pristine hc
  have hidx : index e.content e.lineNum = some [] := index_split _ [] [] [] _ hc hl
  have hup : updateDisplay e = some e := by simp [updateDisplay, hw]
  have hcol' : ({ e with colNum := 0 } : TextEditor) = e := by
    cases e
    simp_all
  refine ⟨moveUp_first e hl, moveDown_last e (by rw [hl, hc]; decide), ?_, ?_, ?_, ?_⟩
  · unfold moveLeft
    rw [if_neg (by omega), if_neg (by omega), hup]
  · unfold moveRight
    simp only [Option.bind_eq_bind]
    rw [hidx, Option.some_bind, if_neg (by rw [hcol]; decide),
      if_neg (by rw [hl, hc]; decide), hup]
  · unfold moveToLineStart
    rw [hcol', hup]
  · unfold moveToLineEnd
    simp only [Option.bind_eq_bind]
    rw [hidx, Option.some_bind]
    show updateDisplay { e with colNum := 0 } = some e
    rw [hcol', hup]

/-! ## Properties of the specification -/

/-- C1: from every initial state (`NewTextEditor` with or without a path, whatever the
read gives) every sequence of inputs - key events in either mode, dialog buttons, direct
calls of the buffer operations, of `executeCommand`, `loadFile`, `saveFile` and `newFile` -
runs without a panic and ends in a state whose buffer is well formed: `content` is
non-empty, `0 ≤ lineNum < len(content)` and `0 ≤ colNum ≤ len(content[lineNum])`. -/
theorem reachable_buffer_wellFormed (filePath : GoString) (read : Except FileError GoString)
    (inputs : List Input) :
    ∃ e0 e, NewTextEditor filePath read = some e0 ∧ run inputs e0 = some e ∧
      e.content ≠ [] ∧ 0 ≤ e.lineNum ∧ e.lineNum < len e.content ∧
      ∃ line, index e.content e.lineNum = some line ∧ 0 ≤ e.colNum ∧ e.colNum ≤ len line := by
  obtain ⟨e0, h0⟩ := NewTextEditor_isSome filePath read
  obtain ⟨e, h1, h2⟩ := run_safe inputs e0 (NewTextEditor_wellFormed filePath read e0 h0)
  exact ⟨e0, e, h0, h1, h2⟩

/-- C2: on a well-formed buffer past the welcome screen, `insertNewline` followed by
`backspace` gives back the original `content` and the original cursor. -/
theorem insertNewline_backspace_restores (e : TextEditor) (hw : e.showWelcome = false)
    (h : WellFormed e) :
    ∃ e1 e2, insertNewline e = some e1 ∧ backspace e1 = some e2 ∧
      e2.content = e.content ∧ e2.lineNum = e.lineNum ∧ e2.colNum = e.colNum := by
  obtain ⟨pre, a, b, post, hc, hl, hcol⟩ := h.split
  refine ⟨_, _, insertNewline_split e pre a b post hw hc hl hcol,
    backspace_join _ pre a b post hw rfl rfl rfl, ?_, ?_, ?_⟩
  · exact hc.symm
  · exact hl.symm
  · exact hcol.symm

/-- C2 at `["ab", "cde", "f"]` with the cursor at `(1, 2)`. -/
theorem insertNewline_backspace_restores_witness :
    threeLines.showWelcome = false ∧ WellFormed threeLines ∧
    ∃ e1 e2, insertNewline threeLines = some e1 ∧ backspace e1 = some e2 ∧
      e2.content = [goStr "ab", goStr "cde", goStr "f"] ∧ e2.lineNum = 1 ∧ e2.colNum = 2 :=
  ⟨rfl, WellFormed.of_line [goStr "ab"] (goStr "cde") [goStr "f"] rfl rfl (by decide) (by decide),
    insertNewline_backspace_restores threeLines rfl
      (WellFormed.of_line [goStr "ab"] (goStr "cde") [goStr "f"] rfl rfl (by decide)
        (by decide))⟩

/-- C3 (evaluation at the failing input): two calls `insertChar(0xE9)` on an empty line.
The first call stores the two bytes `C3 A9` and advances `colNum` by one, so the second
call splices its two bytes between them: the line is `C3 C3 A9 A9`, not the text
`C3 A9 C3 A9` of the two characters. -/
theorem insertChar_twice_two_byte_rune :
    insertChars [233, 233] (editing [] [[]] 0 0) =
      some { editing [] [[195, 195, 169, 169]] 0 2 with
             modified := true, ui := [UiCall.display, UiCall.display] } ∧
    runeString 233 ++ runeString 233 = [195, 169, 195, 169] := by
  decide

/-- C4 (evaluation at the failing input): the line holds the single two-byte character
U+00E9 (`C3 A9`).  `moveToLineEnd` puts the cursor at `colNum = 2`; `backspace` there
removes only the byte `A9` and leaves the cursor at 1, inside the character; `delete`
with the cursor at the start removes only the byte `C3`. -/
theorem backspace_delete_two_byte_rune :
    runeString 233 = [195, 169] ∧
    moveToLineEnd (editing [] [[195, 169]] 0 0) =
      some { editing [] [[195, 169]] 0 2 with ui := [UiCall.display] } ∧
    backspace (editing [] [[195, 169]] 0 2) =
      some { editing [] [[195]] 0 1 with modified := true, ui := [UiCall.display] } ∧
    delete (editing [] [[195, 169]] 0 0) =
      some { editing [] [[169]] 0 0 with modified := true, ui := [UiCall.display] } := by
  decide

/-- C5: on a well-formed buffer past the welcome screen with `colNum = 0`: if
`lineNum > 0`, `backspace` replaces the previous and the current line by their
concatenation, keeps the lines before and after, puts the cursor at
`(lineNum - 1, len(previous line))` and sets `modified`; if `lineNum = 0` it leaves
`content`, the cursor and `modified` unchanged. -/
theorem backspace_at_column_zero (e : TextEditor) (hw : e.showWelcome = false)
    (h : WellFormed e) (hcol : e.colNum = 0) :
    (0 < e.lineNum → ∃ pre prev cur post e',
      e.content = pre ++ prev :: cur :: post ∧ e.lineNum = len pre + 1 ∧
      backspace e = some e' ∧ e'.content = pre ++ (prev ++ cur) :: post ∧
      e'.lineNum = e.lineNum - 1 ∧ e'.colNum = len prev ∧ e'.modified = true) ∧
    (e.lineNum = 0 → ∃ e', backspace e = some e' ∧ e'.content = e.content ∧
      e'.lineNum = e.lineNum ∧ e'.colNum = e.colNum ∧ e'.modified = e.modified) := by
  obtain ⟨pre, a, b, post, hc, hl, hcol'⟩ := h.split
  constructor
  · intro hpos
    rcases List.eq_nil_or_concat pre with hp | ⟨pre', prev, hp⟩
    · subst hp
      rw [hl] at hpos
      exact absurd hpos (by decide)
    · subst hp
      have hc' : e.content = pre' ++ prev :: (a ++ b) :: post := by simp [hc]
      have hl' : e.lineNum = len pre' + 1 := by simp [hl, len]
      exact ⟨pre', prev, a ++ b, post, _, hc', hl',
        backspace_join e pre' prev (a ++ b) post hw hc' hl' hcol, rfl, by simp [hl'], rfl, rfl⟩
  · intro hz
    exact ⟨_, backspace_origin e hw hz hcol, rfl, rfl, rfl, rfl⟩

/-- C5 at `["ab", "cd"]` with the cursor at `(1, 0)`: the lines become `["abcd"]` and the
cursor `(0, 2)`. -/
theorem backspace_at_column_zero_witness :
    twoLinesAtStart.showWelcome = false ∧ WellFormed twoLinesAtStart ∧
    twoLinesAtStart.colNum = 0 ∧
    backspace twoLinesAtStart =
      some { editing [] [goStr "abcd"] 0 2 with modified := true, ui := [UiCall.display] } ∧
    ((0 < twoLinesAtStart.lineNum → ∃ pre prev cur post e',
      twoLinesAtStart.content = pre ++ prev :: cur :: post ∧
      twoLinesAtStart.lineNum = len pre + 1 ∧
      backspace twoLinesAtStart = some e' ∧ e'.content = pre ++ (prev ++ cur) :: post ∧
      e'.lineNum = twoLinesAtStart.lineNum - 1 ∧ e'.colNum = len prev ∧
      e'.modified = true) ∧
    (twoLinesAtStart.lineNum = 0 → ∃ e', backspace twoLinesAtStart = some e' ∧
      e'.content = twoLinesAtStart.content ∧ e'.lineNum = twoLinesAtStart.lineNum ∧
      e'.colNum = twoLinesAtStart.colNum ∧ e'.modified = twoLinesAtStart.modified)) :=
  ⟨rfl, WellFormed.of_line [goStr "ab"] (goStr "cd") [] rfl rfl (by decide) (by decide), rfl,
    by decide,
    backspace_at_column_zero twoLinesAtStart rfl
      (WellFormed.of_line [goStr "ab"] (goStr "cd") [] rfl rfl (by decide) (by decide)) rfl⟩

/-- C6: on a well-formed buffer past the welcome screen `delete` never moves the cursor.
With the line split at the cursor into `a ++ b`: if `colNum < len(line)` the first byte
of `b`, the one at index `colNum`, is removed; otherwise, if the line is not the last,
the next line is appended to it and removed from the list (one line fewer, the others
unchanged and in order); at the end of the last line `content` and `modified` are
unchanged.  `modified` becomes true in the first two cases. -/
theorem delete_cases (e : TextEditor) (hw : e.showWelcome = false) (h : WellFormed e) :
    ∃ pre a b post e', e.content = pre ++ (a ++ b) :: post ∧ e.lineNum = len pre ∧
      e.colNum = len a ∧ delete e = some e' ∧
      e'.lineNum = e.lineNum ∧ e'.colNum = e.colNum ∧
      (e.colNum < len (a ++ b) → ∃ c b', b = c :: b' ∧
        e'.content = pre ++ (a ++ b') :: post ∧ e'.modified = true) ∧
      (¬ e.colNum < len (a ++ b) → e.lineNum < len e.content - 1 → ∃ next post',
        post = next :: post' ∧ e'.content = pre ++ ((a ++ b) ++ next) :: post' ∧
        len e'.content = len e.content - 1 ∧ e'.modified = true) ∧
      (¬ e.colNum < len (a ++ b) → ¬ e.lineNum < len e.content - 1 →
        e'.content = e.content ∧ e'.modified = e.modified) := by
  obtain ⟨pre, a, b, post, hc, hl, hcol⟩ := h.split
  cases b with
  | cons c b =>
    refine ⟨pre, a, c :: b, post, _, hc, hl, hcol, delete_col e pre a c b post hw hc hl hcol,
      rfl, rfl, fun _ => ⟨c, b, rfl, rfl, rfl⟩, ?_, ?_⟩
    · intro hn
      exact absurd (by rw [hcol]; simp [len]) hn
    · intro hn
      exact absurd (by rw [hcol]; simp [len]) hn
  | nil =>
    have hlt : ¬ e.colNum < len (a ++ []) := by rw [hcol]; simp
    cases post with
    | nil =>
      refine ⟨pre, a, [], [], _, hc, hl, hcol,
        delete_end e pre (a ++ []) hw hc hl (by simp [hcol]), rfl, rfl,
        fun hlt' => absurd hlt' hlt, ?_, fun _ _ => ⟨rfl, rfl⟩⟩
      intro _ hn
      rw [hl, hc] at hn
      simp [len] at hn
    | cons next post =>
      refine ⟨pre, a, [], next :: post, _, hc, hl, hcol,
        delete_join e pre (a ++ []) next post hw hc hl (by simp [hcol]), rfl, rfl,
        fun hlt' => absurd hlt' hlt, fun _ _ => ⟨next, post, rfl, rfl, ?_, rfl⟩, ?_⟩
      · show len (pre ++ (a ++ [] ++ next) :: post) = len e.content - 1
        rw [hc]
        simp only [len, List.length_append, List.length_cons]
        push_cast
        omega
      · intro _ hn
        refine absurd ?_ hn
        rw [hl, hc]
        simp only [len, List.length_append, List.length_cons]
        omega

/-- C6 at `["ab", "cd"]` with the cursor at `(0, 2)`, the end of a line that is not the
last: the lines become `["abcd"]` and the cursor stays. -/
theorem delete_cases_witness :
    twoLinesAtEnd.showWelcome = false ∧ WellFormed twoLinesAtEnd ∧
    delete twoLinesAtEnd =
      some { editing [] [goStr "abcd"] 0 2 with modified := true, ui := [UiCall.display] } ∧
    ∃ pre a b post e', twoLinesAtEnd.content = pre ++ (a ++ b) :: post ∧
      twoLinesAtEnd.lineNum = len pre ∧ twoLinesAtEnd.colNum = len a ∧
      delete twoLinesAtEnd = some e' ∧
      e'.lineNum = twoLinesAtEnd.lineNum ∧ e'.colNum = twoLinesAtEnd.colNum ∧
      (twoLinesAtEnd.colNum < len (a ++ b) → ∃ c b', b = c :: b' ∧
        e'.content = pre ++ (a ++ b') :: post ∧ e'.modified = true) ∧
      (¬ twoLinesAtEnd.colNum < len (a ++ b) →
        twoLinesAtEnd.lineNum < len twoLinesAtEnd.content - 1 → ∃ next post',
        post = next :: post' ∧ e'.content = pre ++ ((a ++ b) ++ next) :: post' ∧
        len e'.content = len twoLinesAtEnd.content - 1 ∧ e'.modified = true) ∧
      (¬ twoLinesAtEnd.colNum < len (a ++ b) →
        ¬ twoLinesAtEnd.lineNum < len twoLinesAtEnd.content - 1 →
        e'.content = twoLinesAtEnd.content ∧ e'.modified = twoLinesAtEnd.modified) :=
  ⟨rfl, WellFormed.of_line [] (goStr "ab") [goStr "cd"] rfl rfl (by decide) (by decide),
    by decide,
    delete_cases twoLinesAtEnd rfl
      (WellFormed.of_line [] (goStr "ab") [goStr "cd"] rfl rfl (by decide) (by decide))⟩

/-- C7: on a well-formed buffer past the welcome screen `insertNewline` splits the
current line at the cursor: with the line split there into `a ++ b`, the new `content`
has `a` at the old `lineNum` and `b` right after it, the lines before and after are
unchanged (one line more in all), the cursor is `(lineNum + 1, 0)` and `modified` is
true. -/
theorem insertNewline_splits_line (e : TextEditor) (hw : e.showWelcome = false)
    (h : WellFormed e) :
    ∃ pre a b post e', e.content = pre ++ (a ++ b) :: post ∧ e.lineNum = len pre ∧
      e.colNum = len a ∧ insertNewline e = some e' ∧
      e'.content = pre ++ a :: b :: post ∧ len e'.content = len e.content + 1 ∧
      e'.lineNum = e.lineNum + 1 ∧ e'.colNum = 0 ∧ e'.modified = true := by
  obtain ⟨pre, a, b, post, hc, hl, hcol⟩ := h.split
  refine ⟨pre, a, b, post, _, hc, hl, hcol, insertNewline_split e pre a b post hw hc hl hcol,
    rfl, ?_, by simp [hl], rfl, rfl⟩
  show len (pre ++ a :: b :: post) = len e.content + 1
  rw [hc]
  simp only [len, List.length_append, List.length_cons]
  push_cast
  omega

/-- C7 at `["abc"]` with the cursor at `(0, 3)`: the lines become `["abc", ""]` and the
cursor `(1, 0)`. -/
theorem insertNewline_splits_line_witness :
    oneLineAtEnd.showWelcome = false ∧ WellFormed oneLineAtEnd ∧
    insertNewline oneLineAtEnd =
      some { editing [] [goStr "abc", goStr ""] 1 0 with
             modified := true, ui := [UiCall.display] } ∧
    ∃ pre a b post e', oneLineAtEnd.content = pre ++ (a ++ b) :: post ∧
      oneLineAtEnd.lineNum = len pre ∧ oneLineAtEnd.colNum = len a ∧
      insertNewline oneLineAtEnd = some e' ∧
      e'.content = pre ++ a :: b :: post ∧ len e'.content = len oneLineAtEnd.content + 1 ∧
      e'.lineNum = oneLineAtEnd.lineNum + 1 ∧ e'.colNum = 0 ∧ e'.modified = true :=
  ⟨rfl, WellFormed.of_line [] (goStr "abc") [] rfl rfl (by decide) (by decide), by decide,
    insertNewline_splits_line oneLineAtEnd rfl
      (WellFormed.of_line [] (goStr "abc") [] rfl rfl (by decide) (by decide))⟩

/-- C8: on a well-formed buffer whose cursor is not `(0, 0)`, `moveLeft` followed by
`moveRight` brings the cursor back to where it was - also when `moveLeft` went from the
start of a line to the end of the line above - and leaves `content` and `modified`
unchanged. -/
theorem moveLeft_moveRight_restores (e : TextEditor) (h : WellFormed e)
    (hne : ¬ (e.lineNum = 0 ∧ e.colNum = 0)) :
    ∃ e1 e2, moveLeft e = some e1 ∧ moveRight e1 = some e2 ∧
      e2.lineNum = e.lineNum ∧ e2.colNum = e.colNum ∧
      e1.content = e.content ∧ e2.content = e.content ∧
      e1.modified = e.modified ∧ e2.modified = e.modified := by
  obtain ⟨pre, a, b, post, hc, hl, hcol⟩ := h.split
  have ha := len_nonneg a
  have hb := len_nonneg b
  have hab : len (a ++ b) = len a + len b := len_append a b
  by_cases h0 : 0 < e.colNum
  · refine ⟨_, _, moveLeft_col e h0,
      moveRight_col _ pre (a ++ b) post hc hl ?_ ?_, rfl, ?_, rfl, rfl, rfl, rfl⟩
    · show 0 ≤ e.colNum - 1
      omega
    · show e.colNum - 1 < len (a ++ b)
      omega
    · show e.colNum - 1 + 1 = e.colNum
      omega
  · have hz : e.colNum = 0 := by omega
    rcases List.eq_nil_or_concat pre with hp | ⟨pre', prev, hp⟩
    · subst hp
      exact absurd ⟨hl, hz⟩ hne
    · subst hp
      have hc' : e.content = pre' ++ prev :: (a ++ b) :: post := by simp [hc]
      have hl' : e.lineNum = len pre' + 1 := by simp [hl, len]
      refine ⟨_, _, moveLeft_split e pre' prev ((a ++ b) :: post) hc' hl' hz,
        moveRight_split _ pre' prev (a ++ b) post hc' rfl rfl, hl'.symm, hz.symm, rfl, rfl,
        rfl, rfl⟩

/-- C8 at `["ab", "cd"]` with the cursor at `(1, 0)`: `moveLeft` crosses to `(0, 2)` and
`moveRight` comes back to `(1, 0)`. -/
theorem moveLeft_moveRight_restores_witness :
    WellFormed twoLinesAtStart ∧
    ¬ (twoLinesAtStart.lineNum = 0 ∧ twoLinesAtStart.colNum = 0) ∧
    moveLeft twoLinesAtStart =
      some { editing [] [goStr "ab", goStr "cd"] 0 2 with ui := [UiCall.display] } ∧
    ∃ e1 e2, moveLeft twoLinesAtStart = some e1 ∧ moveRight e1 = some e2 ∧
      e2.lineNum = 1 ∧ e2.colNum = 0 ∧
      e1.content = twoLinesAtStart.content ∧ e2.content = twoLinesAtStart.content ∧
      e1.modified = twoLinesAtStart.modified ∧ e2.modified = twoLinesAtStart.modified :=
  ⟨WellFormed.of_line [goStr "ab"] (goStr "cd") [] rfl rfl (by decide) (by decide),
    by decide, by decide,
    moveLeft_moveRight_restores twoLinesAtStart
      (WellFormed.of_line [goStr "ab"] (goStr "cd") [] rfl rfl (by decide) (by decide))
      (by decide)⟩

/-- C9 (counterexample): the buffer of `a.txt` is open and modified, the Open dialog is
confirmed with `b.txt` and the read fails.  `content`, the cursor and `modified` are as
before but `filePath` is now `b.txt`. -/
theorem openFormOpen_failure_changes_filePath :
    openDialogShowing.filePath = goStr "a.txt" ∧
    (openFormOpen (goStr "b.txt") (Except.error ⟨goStr "open b.txt: no such file"⟩)
      openDialogShowing).map
        (fun e => (e.filePath, e.content, e.lineNum, e.colNum, e.modified)) =
      some (goStr "b.txt", [goStr "x"], 0, 1, true) ∧
    goStr "b.txt" ≠ goStr "a.txt" := by
  decide

/-- C9 (amended): when the Open dialog is confirmed with a non-empty path and the read
fails, `content`, the cursor, `modified` (and `showWelcome`, `mode`, `commandBuffer`,
`showHelp`) are unchanged, `filePath` is the submitted path, the dialog is closed, and the
widget calls are the error text, the error status message and the `SetRoot` that closes
the dialog. -/
theorem openFormOpen_failure (filename : GoString) (err : FileError) (e : TextEditor)
    (hne : filename ≠ []) :
    ∃ e', openFormOpen filename (Except.error err) e = some e' ∧
      e'.content = e.content ∧ e'.lineNum = e.lineNum ∧ e'.colNum = e.colNum ∧
      e'.modified = e.modified ∧ e'.showWelcome = e.showWelcome ∧ e'.mode = e.mode ∧
      e'.commandBuffer = e.commandBuffer ∧ e'.showHelp = e.showHelp ∧
      e'.filePath = filename ∧ e'.showingDialog = false ∧
      e'.ui = e.ui ++ [UiCall.loadErrorText err, UiCall.status (StatusMessage.loadError err),
        UiCall.setRoot (if e.showHelp then Root.helpModal else Root.mainLayout)] := by
  refine ⟨closeDialog (updateStatusBar (StatusMessage.loadError err)
      { e with filePath := filename, ui := e.ui ++ [UiCall.loadErrorText err] }),
    ?_, rfl, rfl, rfl, rfl, rfl, rfl, rfl, rfl, rfl, rfl, ?_⟩
  · unfold openFormOpen loadFile
    rw [if_pos hne, if_neg hne]
    rfl
  · simp [closeDialog, updateStatusBar, getMainLayout]

/-- C9 (amended) at the buffer of `a.txt` with the Open dialog confirmed for `b.txt`. -/
theorem openFormOpen_failure_witness :
    goStr "b.txt" ≠ [] ∧
    ∃ e', openFormOpen (goStr "b.txt") (Except.error ⟨goStr "no such file"⟩)
        openDialogShowing = some e' ∧
      e'.content = [goStr "x"] ∧ e'.lineNum = 0 ∧ e'.colNum = 1 ∧
      e'.modified = true ∧ e'.showWelcome = false ∧ e'.mode = EditorMode.ViewMode ∧
      e'.commandBuffer = [] ∧ e'.showHelp = false ∧
      e'.filePath = goStr "b.txt" ∧ e'.showingDialog = false ∧
      e'.ui = [] ++ [UiCall.loadErrorText ⟨goStr "no such file"⟩,
          UiCall.status (StatusMessage.loadError ⟨goStr "no such file"⟩),
          UiCall.setRoot (if false then Root.helpModal else Root.mainLayout)] :=
  ⟨by decide, openFormOpen_failure (goStr "b.txt") ⟨goStr "no such file"⟩ openDialogShowing
    (by decide)⟩

/-- The movement methods do not test `showWelcome`: on a state with `showWelcome` true
over the buffer `["a"]`, which no run from `NewTextEditor` ends in, `moveRight` and
`moveToLineEnd` move the cursor to column 1.  That they change nothing while the welcome
screen is showing rests on the buffer being `[""]` there. -/
theorem moveRight_on_welcome_moves :
    WellFormed welcomeWithText ∧ welcomeWithText.showWelcome = true ∧
    welcomeWithText.colNum = 0 ∧
    moveRight welcomeWithText = some { welcomeWithText with colNum := 1 } ∧
    moveToLineEnd welcomeWithText = some { welcomeWithText with colNum := 1 } :=
  ⟨WellFormed.of_line [] (goStr "a") [] rfl rfl (by decide) (by decide), rfl, rfl,
    by decide, by decide⟩

theorem newFile_eq (e : TextEditor) :
    newFile e = some { e with filePath := [], content := [[]], lineNum := 0, colNum := 0,
                              showWelcome := false, modified := false,
                              ui := e.ui ++ [UiCall.display] } := by
  unfold newFile
  rw [updateDisplay_ok _ (le_refl _)]
  rfl

theorem saveFile_commandBuffer (write : Option FileError) (e : TextEditor) :
    (saveFile write e).commandBuffer = e.commandBuffer := by
  unfold saveFile
  split
  · rfl
  · cases write <;> rfl

/-- C11: in view mode a key event that carries a character (`KeyRune`, any rune, the
letters i, g and h included) is handled by `handleViewMode` without a panic and leaves
`content`, `lineNum`, `colNum` and `modified` unchanged. -/
theorem handleViewMode_rune_never_edits (event : EventKey) (write : Option FileError)
    (e : TextEditor) (hmode : e.mode = EditorMode.ViewMode) (hkey : event.key = Key.KeyRune) :
    ∃ e', inputCapture event write e = some e' ∧ handleViewMode event write e = some e' ∧
      e'.content = e.content ∧ e'.lineNum = e.lineNum ∧ e'.colNum = e.colNum ∧
      e'.modified = e.modified := by
  have hcap : inputCapture event write e = handleViewMode event write e := by
    simp [inputCapture, hmode]
  rw [hcap]
  unfold handleViewMode
  rw [hkey]
  simp only
  split_ifs
  · exact ⟨_, rfl, rfl, rfl, rfl, rfl, rfl⟩
  · exact ⟨_, rfl, rfl, rfl, rfl, rfl, rfl⟩
  · exact ⟨_, rfl, rfl, rfl, rfl, rfl, rfl⟩
  · exact ⟨_, rfl, rfl, rfl, rfl, rfl, rfl⟩
  · exact ⟨_, rfl, rfl, rfl, rfl, rfl, rfl⟩
  · exact ⟨_, rfl, rfl, rfl, rfl, rfl, rfl⟩

/-- C11 at the modified buffer `["ab", "cd"]`, cursor `(1, 1)`, with the letter x typed. -/
theorem handleViewMode_rune_never_edits_witness :
    viewState.mode = EditorMode.ViewMode ∧
    (⟨Key.KeyRune, 120⟩ : EventKey).key = Key.KeyRune ∧
    ∃ e', inputCapture ⟨Key.KeyRune, 120⟩ none viewState = some e' ∧
      handleViewMode ⟨Key.KeyRune, 120⟩ none viewState = some e' ∧
      e'.content = [goStr "ab", goStr "cd"] ∧ e'.lineNum = 1 ∧ e'.colNum = 1 ∧
      e'.modified = true :=
  ⟨rfl, rfl, handleViewMode_rune_never_edits ⟨Key.KeyRune, 120⟩ none viewState rfl rfl⟩

/-- C12: in view mode Enter runs `executeCommand`, which never panics and leaves
`commandBuffer` empty; when the buffer held none of `q`, `w`, `wq`, `o`, `n`, `h` the
state is otherwise unchanged and the one widget call is the status message
`Unknown command: ` followed by the buffer. -/
theorem executeCommand_clears_buffer (write : Option FileError) (e : TextEditor)
    (hmode : e.mode = EditorMode.ViewMode) (rune : Rune) :
    ∃ e', inputCapture ⟨Key.KeyEnter, rune⟩ write e = some e' ∧
      executeCommand write e = some e' ∧ e'.commandBuffer = [] ∧
      (e.commandBuffer ∉ [goStr "q", goStr "w", goStr "wq", goStr "o", goStr "n", goStr "h"] →
        e' = { e with commandBuffer := [],
                      ui := e.ui ++
                        [UiCall.status (StatusMessage.unknownCommand e.commandBuffer)] } ∧
        ∀ base, (StatusMessage.unknownCommand e.commandBuffer).text base =
          goStr "Unknown command: " ++ e.commandBuffer) := by
  have hcap : inputCapture ⟨Key.KeyEnter, rune⟩ write e = executeCommand write e := by
    simp [inputCapture, hmode, handleViewMode]
  rw [hcap]
  unfold executeCommand
  simp only [List.mem_cons, List.mem_singleton, List.not_mem_nil, or_false, not_or]
  split_ifs with h1 h2 h3 h4 h5 h6
  · exact ⟨_, rfl, rfl, rfl, fun h => absurd h1 h.1⟩
  · exact ⟨_, rfl, rfl, saveFile_commandBuffer write _, fun h => absurd h2 h.2.1⟩
  · exact ⟨_, rfl, rfl, saveFile_commandBuffer write _, fun h => absurd h3 h.2.2.1⟩
  · exact ⟨_, rfl, rfl, rfl, fun h => absurd h4 h.2.2.2.1⟩
  · rw [newFile_eq]
    exact ⟨_, rfl, rfl, rfl, fun h => absurd h5 h.2.2.2.2.1⟩
  · exact ⟨_, rfl, rfl, rfl, fun h => absurd h6 h.2.2.2.2.2⟩
  · exact ⟨_, rfl, rfl, rfl, fun _ => ⟨rfl, fun _ => rfl⟩⟩

/-- C12 with `x` in the command buffer. -/
theorem executeCommand_clears_buffer_witness :
    viewStateUnknown.mode = EditorMode.ViewMode ∧
    ∃ e', inputCapture ⟨Key.KeyEnter, 13⟩ none viewStateUnknown = some e' ∧
      executeCommand none viewStateUnknown = some e' ∧ e'.commandBuffer = [] ∧
      (goStr "x" ∉ [goStr "q", goStr "w", goStr "wq", goStr "o", goStr "n", goStr "h"] →
        e' = { viewStateUnknown with
               commandBuffer := [],
               ui := [UiCall.status (StatusMessage.unknownCommand (goStr "x"))] } ∧
        ∀ base, (StatusMessage.unknownCommand (goStr "x")).text base =
          goStr "Unknown command: " ++ goStr "x") :=
  ⟨rfl, executeCommand_clears_buffer none viewStateUnknown rfl 13⟩

/-- C13 (counterexample): in view mode with `w` in the command buffer, the letter h is
not appended: the buffer stays `w` and the help modal opens. -/
theorem handleViewMode_h_not_appended :
    viewState.mode = EditorMode.ViewMode ∧ viewState.commandBuffer = goStr "w" ∧
    inputCapture ⟨Key.KeyRune, 104⟩ none viewState =
      some { viewState with showHelp := true, ui := [UiCall.setRoot Root.helpModal] } ∧
    goStr "w" ≠ goStr "w" ++ runeString 104 := by
  decide

/-- C13 (amended): in view mode every character other than the letters i, g and h is
appended to `commandBuffer` (as `string(rune)`) and nothing else of the data changes; the
letter h opens the help modal at once and is not appended; typing w, q from an empty
buffer leaves `wq` in it, and Enter then runs the `wq` branch of `executeCommand`
(`saveFile`, then `app.Stop`). -/
theorem handleViewMode_appends (e : TextEditor) (hmode : e.mode = EditorMode.ViewMode) :
    (∀ (rune : Int) (write : Option FileError), rune ≠ 0 → rune ≠ 105 → rune ≠ 103 →
      rune ≠ 104 →
      inputCapture ⟨Key.KeyRune, rune⟩ write e =
        some { e with commandBuffer := e.commandBuffer ++ runeString rune,
                      ui := e.ui ++ [UiCall.status
                        (StatusMessage.command (e.commandBuffer ++ runeString rune))] }) ∧
    (∀ write, inputCapture ⟨Key.KeyRune, 104⟩ write e =
        some { e with showHelp := true, ui := e.ui ++ [UiCall.setRoot Root.helpModal] }) ∧
    (e.commandBuffer = [] → ∀ write, ∃ e2 e3,
      run [Input.key ⟨Key.KeyRune, 119⟩ write, Input.key ⟨Key.KeyRune, 113⟩ write] e = some e2 ∧
      e2.commandBuffer = goStr "wq" ∧ e2.content = e.content ∧ e2.lineNum = e.lineNum ∧
      e2.colNum = e.colNum ∧ e2.modified = e.modified ∧ e2.filePath = e.filePath ∧
      step (Input.key ⟨Key.KeyEnter, 13⟩ write) e2 = some e3 ∧
      e3 = { saveFile write { e2 with commandBuffer := [] } with
             ui := (saveFile write { e2 with commandBuffer := [] }).ui ++ [UiCall.stop] }) := by
  refine ⟨?_, ?_, ?_⟩
  · intro rune write h0 h1 h2 h3
    simp [inputCapture, hmode, handleViewMode, h0, h1, h2, h3, updateStatusBar]
  · intro write
    simp [inputCapture, hmode, handleViewMode]
  · intro hbuf write
    refine ⟨{ e with commandBuffer := e.commandBuffer ++ runeString 119 ++ runeString 113,
                     ui := e.ui ++ [UiCall.status
                       (StatusMessage.command (e.commandBuffer ++ runeString 119)),
                       UiCall.status (StatusMessage.command
                         (e.commandBuffer ++ runeString 119 ++ runeString 113))] },
      _, ?_, ?_, rfl, rfl, rfl, rfl, rfl, ?_, rfl⟩
    · simp [run, step, inputCapture, hmode, handleViewMode, updateStatusBar]
    · show e.commandBuffer ++ runeString 119 ++ runeString 113 = goStr "wq"
      rw [hbuf]
      decide
    · have hwq : e.commandBuffer ++ runeString 119 ++ runeString 113 = goStr "wq" := by
        rw [hbuf]
        decide
      have h1 : goStr "wq" ≠ goStr "q" := by decide
      have h2 : goStr "wq" ≠ goStr "w" := by decide
      have hcap : ∀ x : TextEditor, x.mode = EditorMode.ViewMode →
          step (Input.key ⟨Key.KeyEnter, 13⟩ write) x = executeCommand write x := by
        intro x hx
        simp [step, inputCapture, hx, handleViewMode]
      rw [hcap]
      · unfold executeCommand
        simp only [hwq, ↓reduceIte]
        rw [if_neg h1, if_neg h2]
      · exact hmode

/-- C13 (amended) at an idle view-mode state: the letter x is appended, and w, q, Enter
dispatch `wq`. -/
theorem handleViewMode_appends_witness :
    viewStateIdle.mode = EditorMode.ViewMode ∧
    inputCapture ⟨Key.KeyRune, 120⟩ none viewStateIdle =
      some { viewStateIdle with
             commandBuffer := viewStateIdle.commandBuffer ++ runeString 120,
             ui := viewStateIdle.ui ++ [UiCall.status
               (StatusMessage.command (viewStateIdle.commandBuffer ++ runeString 120))] } ∧
    ∃ e2 e3,
      run [Input.key ⟨Key.KeyRune, 119⟩ none, Input.key ⟨Key.KeyRune, 113⟩ none]
        viewStateIdle = some e2 ∧
      e2.commandBuffer = goStr "wq" ∧ e2.content = viewStateIdle.content ∧
      e2.lineNum = viewStateIdle.lineNum ∧ e2.colNum = viewStateIdle.colNum ∧
      e2.modified = viewStateIdle.modified ∧ e2.filePath = viewStateIdle.filePath ∧
      step (Input.key ⟨Key.KeyEnter, 13⟩ none) e2 = some e3 ∧
      e3 = { saveFile none { e2 with commandBuffer := [] } with
             ui := (saveFile none { e2 with commandBuffer := [] }).ui ++ [UiCall.stop] } :=
  ⟨rfl,
    (handleViewMode_appends viewStateIdle rfl).1 120 none (by decide) (by decide) (by decide)
      (by decide),
    (handleViewMode_appends viewStateIdle rfl).2.2 rfl none⟩

/-- C14 (counterexample): on the welcome screen, and likewise with a dialog showing, the
letter i in view mode switches `mode` to `EditMode`. -/
theorem handleViewMode_i_on_welcome :
    welcomePristine.mode = EditorMode.ViewMode ∧ welcomePristine.showWelcome = true ∧
    inputCapture ⟨Key.KeyRune, 105⟩ none welcomePristine =
      some { welcomePristine with
             mode := EditorMode.EditMode, ui := [UiCall.status StatusMessage.editMode] } ∧
    openDialogShowing.mode = EditorMode.ViewMode ∧ openDialogShowing.showingDialog = true ∧
    inputCapture ⟨Key.KeyRune, 105⟩ none openDialogShowing =
      some { openDialogShowing with
             mode := EditorMode.EditMode, ui := [UiCall.status StatusMessage.editMode] } := by
  decide

/-- C14 (amended): in view mode the letter i switches `mode` to `EditMode` in every
state, whatever `showWelcome` and `showingDialog` are; the rest of the data is unchanged
and the status message `Edit Mode - Press ESC to exit` is shown. -/
theorem handleViewMode_i_enters_edit_mode (e : TextEditor)
    (hmode : e.mode = EditorMode.ViewMode) (write : Option FileError) :
    inputCapture ⟨Key.KeyRune, 105⟩ write e =
      some { e with mode := EditorMode.EditMode,
                    ui := e.ui ++ [UiCall.status StatusMessage.editMode] } := by
  simp [inputCapture, hmode, handleViewMode, updateStatusBar]

/-- C14 (amended) at the welcome screen. -/
theorem handleViewMode_i_enters_edit_mode_witness :
    welcomePristine.mode = EditorMode.ViewMode ∧
    inputCapture ⟨Key.KeyRune, 105⟩ none welcomePristine =
      some { welcomePristine with
             mode := EditorMode.EditMode,
             ui := welcomePristine.ui ++ [UiCall.status StatusMessage.editMode] } :=
  ⟨rfl, handleViewMode_i_enters_edit_mode welcomePristine rfl none⟩

/-- C15 (counterexample): past the welcome screen the letter g in view mode does not open
help: the state, `showHelp = false` included, is returned unchanged. -/
theorem handleViewMode_g_past_welcome :
    viewState.mode = EditorMode.ViewMode ∧ viewState.showWelcome = false ∧
    viewState.showHelp = false ∧
    inputCapture ⟨Key.KeyRune, 103⟩ none viewState = some viewState := by
  decide

/-- C15 (amended): in view mode the letter g opens help at once (`showHelp` becomes true,
`commandBuffer` and the rest of the data unchanged) when the welcome screen is showing;
when it is not showing, g changes nothing: help stays closed and g is not appended to
the command buffer either. -/
theorem handleViewMode_g (e : TextEditor) (hmode : e.mode = EditorMode.ViewMode)
    (write : Option FileError) :
    (e.showWelcome = true → inputCapture ⟨Key.KeyRune, 103⟩ write e =
      some { e with showHelp := true, ui := e.ui ++ [UiCall.setRoot Root.helpModal] }) ∧
    (e.showWelcome = false → inputCapture ⟨Key.KeyRune, 103⟩ write e = some e) := by
  constructor
  · intro hw
    simp [inputCapture, hmode, handleViewMode, hw]
  · intro hw
    simp [inputCapture, hmode, handleViewMode, hw]

/-- C15 (amended) at the welcome screen and at a state past it. -/
theorem handleViewMode_g_witness :
    welcomePristine.mode = EditorMode.ViewMode ∧ viewState.mode = EditorMode.ViewMode ∧
    inputCapture ⟨Key.KeyRune, 103⟩ none welcomePristine =
      some { welcomePristine with
             showHelp := true,
             ui := welcomePristine.ui ++ [UiCall.setRoot Root.helpModal] } ∧
    inputCapture ⟨Key.KeyRune, 103⟩ none viewState = some viewState :=
  ⟨rfl, rfl, (handleViewMode_g welcomePristine rfl none).1 rfl,
    (handleViewMode_g viewState rfl none).2 rfl⟩

/-! ## Saving and loading -/

theorem splitLines_append (l : GoString) (s p : GoString) (ps : List GoString)
    (hl : (10 : UInt8) ∉ l) (hs : splitLines s = p :: ps) :
    splitLines (l ++ s) = (l ++ p) :: ps := by
  induction l with
  | nil => simpa using hs
  | cons b l ih =>
    have hb : b ≠ 10 := fun h => hl (h ▸ List.mem_cons_self _ _)
    have hl' : (10 : UInt8) ∉ l := fun h => hl (List.mem_cons_of_mem _ h)
    rw [List.cons_append, splitLines, if_neg hb, ih hl']
    rfl

/-- Splitting the joined lines at the line feeds gives the lines back. -/
theorem splitLines_joinLines (lines : List GoString) (hne : lines ≠ [])
    (hlf : ∀ l ∈ lines, (10 : UInt8) ∉ l) : splitLines (joinLines lines) = lines := by
  induction lines with
  | nil => exact absurd rfl hne
  | cons l rest ih =>
    cases rest with
    | nil =>
      have := splitLines_append l [] [] [] (hlf l (List.mem_cons_self _ _)) rfl
      simpa [joinLines] using this
    | cons l2 rest =>
      have ih' := ih (by simp) (fun x hx => hlf x (List.mem_cons_of_mem _ hx))
      have h10 : splitLines (10 :: joinLines (l2 :: rest)) = [] :: l2 :: rest := by
        rw [splitLines, if_pos rfl, ih']
      have := splitLines_append l _ [] (l2 :: rest) (hlf l (List.mem_cons_self _ _)) h10
      simpa [joinLines] using this

theorem loadFile_ok (data : GoString) (e : TextEditor) (hpath : e.filePath ≠ []) :
    loadFile (Except.ok data) e =
      some { e with content := splitLines data, lineNum := 0, colNum := 0,
                    showWelcome := false, modified := false,
                    ui := e.ui ++ [UiCall.display] } := by
  unfold loadFile
  rw [if_neg hpath]
  simp only
  rw [updateDisplay_ok _ (le_refl _), if_neg]
  · rfl
  · have := List.length_pos.mpr (splitLines_ne_nil data)
    simp only [len]
    omega

/-! ## The welcome screen -/

theorem Pristine.of_quiet {e e' : TextEditor} (h : Pristine e) (hq : Quiet e e') :
    Pristine e' := by
  obtain ⟨h1, h2, h3, h4, h5⟩ := hq
  intro hw
  obtain ⟨k1, k2, k3, k4⟩ := h (h1 ▸ hw)
  refine ⟨h2 ▸ k1, h3 ▸ k2, h4 ▸ k3, ?_⟩
  rcases h5 with h5 | h5
  · rw [h5, k4]
  · exact h5

theorem Pristine.of_past {e : TextEditor} (h : e.showWelcome = false) : Pristine e := by
  intro hw
  rw [h] at hw
  cases hw

theorem Quiet.refl (e : TextEditor) : Quiet e e := ⟨rfl, rfl, rfl, rfl, Or.inl rfl⟩

theorem updateDisplay_showWelcome (e e' : TextEditor) (h : updateDisplay e = some e') :
    e'.showWelcome = e.showWelcome := by
  unfold updateDisplay at h
  split_ifs at h <;> cases h <;> rfl

theorem insertChar_showWelcome (char : Rune) (e e' : TextEditor)
    (h : insertChar char e = some e') : e'.showWelcome = e.showWelcome := by
  unfold insertChar at h
  split_ifs at h
  · cases h
    rfl
  · simp only [Option.bind_eq_bind, Option.bind_eq_some] at h
    obtain ⟨_, _, _, _, _, _, _, _, h⟩ := h
    exact (updateDisplay_showWelcome _ _ h : _)

theorem insertNewline_showWelcome (e e' : TextEditor) (h : insertNewline e = some e') :
    e'.showWelcome = e.showWelcome := by
  unfold insertNewline at h
  split_ifs at h
  · cases h
    rfl
  · simp only [Option.bind_eq_bind, Option.bind_eq_some] at h
    obtain ⟨_, _, _, _, _, _, _, _, _, _, _, _, h⟩ := h
    exact (updateDisplay_showWelcome _ _ h : _)

theorem backspace_showWelcome (e e' : TextEditor) (h : backspace e = some e') :
    e'.showWelcome = e.showWelcome := by
  unfold backspace at h
  split_ifs at h
  · cases h
    rfl
  · simp only [Option.bind_eq_bind, Option.bind_eq_some] at h
    obtain ⟨_, _, _, _, _, _, _, _, h⟩ := h
    exact (updateDisplay_showWelcome _ _ h : _)
  · simp only [Option.bind_eq_bind, Option.bind_eq_some] at h
    obtain ⟨_, _, _, _, _, _, _, _, _, _, h⟩ := h
    exact (updateDisplay_showWelcome _ _ h : _)
  · exact (updateDisplay_showWelcome _ _ h : _)

theorem delete_showWelcome (e e' : TextEditor) (h : delete e = some e') :
    e'.showWelcome = e.showWelcome := by
  unfold delete at h
  by_cases hw : e.showWelcome = true
  · rw [if_pos hw] at h
    cases h
    rfl
  · rw [if_neg hw] at h
    simp only [Option.bind_eq_bind, Option.bind_eq_some] at h
    obtain ⟨line, _, h⟩ := h
    split_ifs at h
    · simp only [Option.bind_eq_bind, Option.bind_eq_some] at h
      obtain ⟨_, _, _, _, _, _, h⟩ := h
      exact (updateDisplay_showWelcome _ _ h : _)
    · simp only [Option.bind_eq_bind, Option.bind_eq_some] at h
      obtain ⟨_, _, _, _, _, _, _, _, h⟩ := h
      exact (updateDisplay_showWelcome _ _ h : _)
    · exact (updateDisplay_showWelcome _ _ h : _)

theorem insertTabLoop_showWelcome (n : Nat) : ∀ (e e' : TextEditor),
    insertTabLoop n e = some e' → e'.showWelcome = e.showWelcome := by
  induction n with
  | zero =>
    intro e e' h
    cases h
    rfl
  | succ n ih =>
    intro e e' h
    simp only [insertTabLoop, Option.bind_eq_some] at h
    obtain ⟨e1, h1, h2⟩ := h
    rw [ih e1 e' h2, insertChar_showWelcome 32 e e1 h1]

theorem insertTab_showWelcome (e e' : TextEditor) (h : insertTab e = some e') :
    e'.showWelcome = e.showWelcome := by
  unfold insertTab at h
  split_ifs at h
  · cases h
    rfl
  · exact insertTabLoop_showWelcome 4 e e' h

theorem Pristine.of_edit {f : TextEditor → Option TextEditor}
    (hs : ∀ e e', f e = some e' → e'.showWelcome = e.showWelcome)
    (hwel : ∀ e, e.showWelcome = true → f e = some e)
    {e e' : TextEditor} (h : Pristine e) (hf : f e = some e') : Pristine e' := by
  intro hw
  have hw0 : e.showWelcome = true := by rw [← hs e e' hf]; exact hw
  have := hwel e hw0
  rw [hf] at this
  cases this
  exact h hw0

theorem Pristine.of_move {f : TextEditor → Option TextEditor} (hm : Moves f)
    (hp : ∀ e, e.showWelcome = true → WellFormed e → e.content = [[]] → f e = some e)
    {e e' : TextEditor} (hwf : WellFormed e) (h : Pristine e) (hf : f e = some e') :
    Pristine e' := by
  obtain ⟨e1, h1, _, _, _, h5, _⟩ := hm e hwf
  rw [hf] at h1
  cases h1
  intro hw
  have hw0 : e.showWelcome = true := by rw [← h5]; exact hw
  have := hp e hw0 hwf (h hw0).1
  rw [hf] at this
  cases this
  exact h hw0

theorem saveFile_quiet (write : Option FileError) (e : TextEditor) :
    Quiet e (saveFile write e) := by
  unfold saveFile
  split
  · exact ⟨rfl, rfl, rfl, rfl, Or.inl rfl⟩
  · cases write with
    | none => exact ⟨rfl, rfl, rfl, rfl, Or.inr rfl⟩
    | some err => exact ⟨rfl, rfl, rfl, rfl, Or.inl rfl⟩

theorem closeDialog_quiet (e : TextEditor) : Quiet e (closeDialog e) :=
  ⟨rfl, rfl, rfl, rfl, Or.inl rfl⟩

theorem loadFile_pristine (read : Except FileError GoString) (e e' : TextEditor)
    (h : Pristine e) (hf : loadFile read e = some e') : Pristine e' := by
  unfold loadFile at hf
  split at hf
  · cases hf
    exact h
  · cases read with
    | error err =>
      cases hf
      exact h.of_quiet ⟨rfl, rfl, rfl, rfl, Or.inl rfl⟩
    | ok data =>
      simp only at hf
      have := (updateDisplay_showWelcome _ _ hf : _)
      exact Pristine.of_past this

theorem newFile_pristine (e e' : TextEditor) (hf : newFile e = some e') : Pristine e' := by
  rw [newFile_eq] at hf
  cases hf
  exact Pristine.of_past rfl

theorem executeCommand_pristine (write : Option FileError) (e e' : TextEditor)
    (h : Pristine e) (hf : executeCommand write e = some e') : Pristine e' := by
  have h0 : Pristine { e with commandBuffer := [] } := h.of_quiet (Quiet.refl e)
  unfold executeCommand at hf
  simp only at hf
  split_ifs at hf
  · cases hf
    exact h.of_quiet (Quiet.refl e)
  · cases hf
    exact h0.of_quiet (saveFile_quiet write _)
  · cases hf
    exact (h0.of_quiet (saveFile_quiet write _)).of_quiet ⟨rfl, rfl, rfl, rfl, Or.inl rfl⟩
  · cases hf
    exact h.of_quiet (Quiet.refl e)
  · exact newFile_pristine _ _ hf
  · cases hf
    exact h.of_quiet (Quiet.refl e)
  · cases hf
    exact h.of_quiet (Quiet.refl e)

theorem moveUp_pristine {e e' : TextEditor} (hwf : WellFormed e) (h : Pristine e)
    (hf : moveUp e = some e') : Pristine e' :=
  Pristine.of_move moveUp_moves (fun e hw hwf hc => (moves_pristine e hw hwf hc).1) hwf h hf

theorem moveDown_pristine {e e' : TextEditor} (hwf : WellFormed e) (h : Pristine e)
    (hf : moveDown e = some e') : Pristine e' :=
  Pristine.of_move moveDown_moves (fun e hw hwf hc => (moves_pristine e hw hwf hc).2.1) hwf h hf

theorem moveLeft_pristine {e e' : TextEditor} (hwf : WellFormed e) (h : Pristine e)
    (hf : moveLeft e = some e') : Pristine e' :=
  Pristine.of_move moveLeft_moves (fun e hw hwf hc => (moves_pristine e hw hwf hc).2.2.1)
    hwf h hf

theorem moveRight_pristine {e e' : TextEditor} (hwf : WellFormed e) (h : Pristine e)
    (hf : moveRight e = some e') : Pristine e' :=
  Pristine.of_move moveRight_moves (fun e hw hwf hc => (moves_pristine e hw hwf hc).2.2.2.1)
    hwf h hf

theorem moveToLineStart_pristine {e e' : TextEditor} (hwf : WellFormed e) (h : Pristine e)
    (hf : moveToLineStart e = some e') : Pristine e' :=
  Pristine.of_move moveToLineStart_moves
    (fun e hw hwf hc => (moves_pristine e hw hwf hc).2.2.2.2.1) hwf h hf

theorem moveToLineEnd_pristine {e e' : TextEditor} (hwf : WellFormed e) (h : Pristine e)
    (hf : moveToLineEnd e = some e') : Pristine e' :=
  Pristine.of_move moveToLineEnd_moves
    (fun e hw hwf hc => (moves_pristine e hw hwf hc).2.2.2.2.2) hwf h hf

theorem handleEditMode_pristine (event : EventKey) {e e' : TextEditor} (hwf : WellFormed e)
    (h : Pristine e) (hf : handleEditMode event e = some e') : Pristine e' := by
  unfold handleEditMode at hf
  split at hf
  · cases hf
    exact h.of_quiet (Quiet.refl e)
  · exact moveUp_pristine hwf h hf
  · exact moveDown_pristine hwf h hf
  · exact moveLeft_pristine hwf h hf
  · exact moveRight_pristine hwf h hf
  · exact moveToLineStart_pristine hwf h hf
  · exact moveToLineEnd_pristine hwf h hf
  · exact h.of_edit insertNewline_showWelcome insertNewline_welcome hf
  · exact h.of_edit backspace_showWelcome backspace_welcome hf
  · exact h.of_edit backspace_showWelcome backspace_welcome hf
  · exact h.of_edit delete_showWelcome delete_welcome hf
  · exact h.of_edit insertTab_showWelcome insertTab_welcome hf
  · split at hf
    · exact h.of_edit (insertChar_showWelcome _) (insertChar_welcome _) hf
    · cases hf
      exact h

theorem handleViewMode_pristine (event : EventKey) (write : Option FileError)
    {e e' : TextEditor} (hwf : WellFormed e) (h : Pristine e)
    (hf : handleViewMode event write e = some e') : Pristine e' := by
  unfold handleViewMode at hf
  split at hf
  · cases hf
    exact h.of_quiet (Quiet.refl e)
  · exact moveUp_pristine hwf h hf
  · exact moveDown_pristine hwf h hf
  · exact moveLeft_pristine hwf h hf
  · exact moveRight_pristine hwf h hf
  · exact moveToLineStart_pristine hwf h hf
  · exact moveToLineEnd_pristine hwf h hf
  · exact executeCommand_pristine write e e' h hf
  · split_ifs at hf <;> cases hf <;> exact h.of_quiet (Quiet.refl e)

theorem step_pristine (i : Input) {e e' : TextEditor} (hwf : WellFormed e) (h : Pristine e)
    (hf : step i e = some e') : Pristine e' := by
  cases i with
  | key event write =>
    change inputCapture event write e = some e' at hf
    unfold inputCapture at hf
    split at hf
    · exact handleEditMode_pristine event hwf h hf
    · exact handleViewMode_pristine event write hwf h hf
  | helpClose =>
    cases hf
    exact h.of_quiet (Quiet.refl e)
  | saveSubmit filename write =>
    cases hf
    unfold saveFormSave
    split
    · have h1 : Pristine { e with filePath := filename } :=
        h.of_quiet ⟨rfl, rfl, rfl, rfl, Or.inl rfl⟩
      have h2 := h1.of_quiet (saveFile_quiet write _)
      exact h2.of_quiet (closeDialog_quiet _)
    · exact h.of_quiet (closeDialog_quiet e)
  | saveCancel =>
    cases hf
    exact h.of_quiet (Quiet.refl e)
  | openSubmit filename read =>
    change openFormOpen filename read e = some e' at hf
    unfold openFormOpen at hf
    split at hf
    · simp only [Option.map_eq_some'] at hf
      obtain ⟨e1, h1, h2⟩ := hf
      subst h2
      have h0 : Pristine { e with filePath := filename } :=
        h.of_quiet ⟨rfl, rfl, rfl, rfl, Or.inl rfl⟩
      exact (loadFile_pristine read _ e1 h0 h1).of_quiet (closeDialog_quiet e1)
    · cases hf
      exact h.of_quiet (Quiet.refl e)
  | openCancel =>
    cases hf
    exact h.of_quiet (Quiet.refl e)
  | callMoveUp => exact moveUp_pristine hwf h hf
  | callMoveDown => exact moveDown_pristine hwf h hf
  | callMoveLeft => exact moveLeft_pristine hwf h hf
  | callMoveRight => exact moveRight_pristine hwf h hf
  | callMoveToLineStart => exact moveToLineStart_pristine hwf h hf
  | callMoveToLineEnd => exact moveToLineEnd_pristine hwf h hf
  | callInsertChar char =>
    exact h.of_edit (insertChar_showWelcome char) (insertChar_welcome char) hf
  | callInsertNewline => exact h.of_edit insertNewline_showWelcome insertNewline_welcome hf
  | callBackspace => exact h.of_edit backspace_showWelcome backspace_welcome hf
  | callDelete => exact h.of_edit delete_showWelcome delete_welcome hf
  | callInsertTab => exact h.of_edit insertTab_showWelcome insertTab_welcome hf
  | callExecuteCommand write => exact executeCommand_pristine write e e' h hf
  | callLoadFile read => exact loadFile_pristine read e e' h hf
  | callSaveFile write =>
    cases hf
    exact h.of_quiet (saveFile_quiet write e)
  | callNewFile => exact newFile_pristine e e' hf

theorem NewTextEditor_pristine (filePath : GoString) (read : Except FileError GoString)
    (e : TextEditor) (h : NewTextEditor filePath read = some e) : Pristine e := by
  have h0 : Pristine
      { filePath := filePath, content := [[]], lineNum := 0, colNum := 0, showHelp := false,
        showWelcome := decide (filePath = []), modified := false, mode := EditorMode.ViewMode,
        commandBuffer := [], showingDialog := false, ui := [] } :=
    fun _ => ⟨rfl, rfl, rfl, rfl⟩
  unfold NewTextEditor at h
  simp only at h
  split at h
  · simp only [Option.map_eq_some'] at h
    obtain ⟨e1, h1, h2⟩ := h
    subst h2
    exact (loadFile_pristine read _ e1 h0 h1).of_quiet ⟨rfl, rfl, rfl, rfl, Or.inl rfl⟩
  · simp only [Option.map_some', Option.some.injEq] at h
    subst h
    exact h0.of_quiet ⟨rfl, rfl, rfl, rfl, Or.inl rfl⟩

theorem run_pristine (inputs : List Input) : ∀ (e e' : TextEditor), WellFormed e →
    Pristine e → run inputs e = some e' → WellFormed e' ∧ Pristine e' := by
  induction inputs with
  | nil =>
    intro e e' hwf h hf
    cases hf
    exact ⟨hwf, h⟩
  | cons i rest ih =>
    intro e e' hwf h hf
    obtain ⟨e1, h1, h2⟩ := step_safe i e hwf
    rw [run, h1, Option.some_bind] at hf
    exact ih e1 e' h2 (step_pristine i hwf h h1) hf

/-! ## Replacement scans and colour tags -/

theorem replaceAllAux_nil (old new : GoString) (n : Nat) : replaceAllAux old new n [] = [] := by
  cases n <;> rfl

/-- Passing over `n` bytes is dropping them. -/
theorem replaceAllAux_skip (old new : GoString) (s : GoString) :
    ∀ n, replaceAllAux old new n s = replaceAllAux old new 0 (s.drop n) := by
  induction s with
  | nil =>
    intro n
    simp [replaceAllAux_nil]
  | cons b rest ih =>
    intro n
    cases n with
    | zero => rfl
    | succ n =>
      rw [replaceAllAux, ih n]
      rfl

/-- Where `old` occurs the scan emits `new` and goes on after the occurrence. -/
theorem replaceAllAux_match (old new s : GoString) (h : old ≠ []) :
    replaceAllAux old new 0 (old ++ s) = new ++ replaceAllAux old new 0 s := by
  cases old with
  | nil => exact absurd rfl h
  | cons o os =>
    have hp : (o :: os).isPrefixOf (o :: (os ++ s)) = true := by
      rw [List.isPrefixOf_iff_prefix]
      exact List.prefix_append (o :: os) s
    rw [List.cons_append, replaceAllAux, if_pos hp, replaceAllAux_skip]
    simp

/-- Where `old` does not occur the scan copies one byte. -/
theorem replaceAllAux_copy (old new : GoString) (b : UInt8) (rest : GoString)
    (h : old.isPrefixOf (b :: rest) = false) :
    replaceAllAux old new 0 (b :: rest) = b :: replaceAllAux old new 0 rest := by
  rw [replaceAllAux, if_neg (by simp [h])]

/-- A prefix of `m ++ c :: s` that does not contain `c` is a prefix of `m`. -/
theorem prefix_of_not_mem {α : Type} (c : α) (s : List α) :
    ∀ (m k : List α), c ∉ k → k <+: m ++ c :: s → k <+: m := by
  intro m
  induction m with
  | nil =>
    intro k hc hk
    cases k with
    | nil => exact List.prefix_refl _
    | cons a k =>
      rw [List.nil_append, List.cons_prefix_cons] at hk
      exact absurd (hk.1 ▸ List.mem_cons_self _ _) hc
  | cons b m ih =>
    intro k hc hk
    cases k with
    | nil => exact List.nil_prefix
    | cons a k =>
      rw [List.cons_append, List.cons_prefix_cons] at hk
      rw [List.cons_prefix_cons]
      exact ⟨hk.1, ih k (fun h => hc (List.mem_cons_of_mem _ h)) hk.2⟩

/-- The scan copies a stretch `m ++ "]"` in which `old`, which has no `]`, does
not occur. -/
theorem replaceAllAux_through (old new s : GoString) (h93 : (93 : UInt8) ∉ old) :
    ∀ m : GoString, (∀ i < m.length + 1, old.isPrefixOf (m.drop i) = false) →
      replaceAllAux old new 0 (m ++ 93 :: s) = m ++ 93 :: replaceAllAux old new 0 s := by
  intro m
  induction m with
  | nil =>
    intro h
    have h0 : old.isPrefixOf [] = false := h 0 (by simp)
    rw [List.nil_append, List.nil_append, replaceAllAux_copy]
    rw [Bool.eq_false_iff, ne_eq, List.isPrefixOf_iff_prefix]
    intro hp
    have := prefix_of_not_mem 93 s [] old h93 hp
    rw [← List.isPrefixOf_iff_prefix, h0] at this
    cases this
  | cons b m ih =>
    intro h
    have h0 : old.isPrefixOf (b :: m) = false := h 0 (by simp)
    rw [List.cons_append, List.cons_append, replaceAllAux_copy, ih]
    · intro i hi
      have := h (i + 1) (by simp only [List.length_cons]; omega)
      simpa using this
    · rw [Bool.eq_false_iff, ne_eq, List.isPrefixOf_iff_prefix]
      intro hp
      have := prefix_of_not_mem 93 s (b :: m) old h93 hp
      rw [← List.isPrefixOf_iff_prefix, h0] at this
      cases this

theorem colourTags_shape : ∀ tag ∈ colourTags,
    tag = tag.dropLast ++ [93] ∧ tag.head? = some 91 ∧ tag.length = tag.dropLast.length + 1 := by
  decide

/-- The scan copies a colour tag when the search text is tag safe. -/
theorem replaceAllAux_tag (old new s tag : GoString) (hold : TagSafe old)
    (htag : tag ∈ colourTags) :
    replaceAllAux old new 0 (tag ++ s) = tag ++ replaceAllAux old new 0 s := by
  obtain ⟨_, _, h93, hocc⟩ := hold
  obtain ⟨hshape, _, hlen⟩ := colourTags_shape tag htag
  have := replaceAllAux_through old new s h93 tag.dropLast
    (fun i hi => hocc tag htag i (by omega))
  rw [hshape, List.append_assoc, List.singleton_append, this]
  simp

/-- A text without `[` is tagged text with no tag. -/
theorem Tagged.of_plain : ∀ t : GoString, (91 : UInt8) ∉ t → Tagged t t := by
  intro t
  induction t with
  | nil => exact fun _ => Tagged.nil
  | cons b t ih =>
    intro h
    exact Tagged.byte b t t (fun hb => h (hb ▸ List.mem_cons_self _ _))
      (ih (fun hm => h (List.mem_cons_of_mem _ hm)))

/-- Bytes without `[` in front of tagged text. -/
theorem Tagged.append_plain {s t : GoString} (h : Tagged s t) :
    ∀ k : GoString, (91 : UInt8) ∉ k → Tagged (k ++ s) (k ++ t) := by
  intro k
  induction k with
  | nil => exact fun _ => h
  | cons b k ih =>
    intro hk
    exact Tagged.byte b _ _ (fun hb => hk (hb ▸ List.mem_cons_self _ _))
      (ih (fun hm => hk (List.mem_cons_of_mem _ hm)))

/-- A stretch without `[` at the start of tagged text is a stretch of the text. -/
theorem Tagged.split_front {s t : GoString} (h : Tagged s t) :
    ∀ (k s2 : GoString), (91 : UInt8) ∉ k → s = k ++ s2 →
      ∃ t2, t = k ++ t2 ∧ Tagged s2 t2 := by
  induction h with
  | nil =>
    intro k s2 _ hs
    have hk : k = [] := (List.append_eq_nil.mp hs.symm).1
    have hs2 : s2 = [] := (List.append_eq_nil.mp hs.symm).2
    subst hk hs2
    exact ⟨[], rfl, Tagged.nil⟩
  | byte b s t hb h ih =>
    intro k s2 hk hs
    cases k with
    | nil =>
      rw [List.nil_append] at hs
      subst hs
      exact ⟨b :: t, rfl, Tagged.byte b s t hb h⟩
    | cons a k =>
      rw [List.cons_append, List.cons.injEq] at hs
      obtain ⟨hab, hs⟩ := hs
      obtain ⟨t2, ht, h2⟩ := ih k s2 (fun hm => hk (List.mem_cons_of_mem _ hm)) hs
      exact ⟨t2, by rw [ht, hab]; rfl, h2⟩
  | tag tag s t htag h _ =>
    intro k s2 hk hs
    cases k with
    | nil =>
      rw [List.nil_append] at hs
      subst hs
      exact ⟨t, rfl, Tagged.tag tag s t htag h⟩
    | cons a k =>
      obtain ⟨_, hhead, _⟩ := colourTags_shape tag htag
      cases tag with
      | nil => cases hhead
      | cons c tag =>
        rw [List.head?_cons, Option.some.injEq] at hhead
        rw [List.cons_append, List.cons_append, List.cons.injEq] at hs
        exact absurd (hs.1 ▸ hhead ▸ List.mem_cons_self _ _) hk

/-- Wrapping every occurrence of a tag-safe text in two colour tags keeps tagged text
tagged, over the same text. -/
theorem Tagged.replaceAllAux (k opening closing : GoString) (hk : TagSafe k)
    (hopen : opening ∈ colourTags) (hclose : closing ∈ colourTags) :
    ∀ (n : Nat) (s t : GoString), s.length ≤ n → Tagged s t →
      Tagged (Swift.replaceAllAux k (opening ++ k ++ closing) 0 s) t := by
  intro n
  induction n with
  | zero =>
    intro s t hn h
    have hs : s = [] := List.length_eq_zero.mp (Nat.le_zero.mp hn)
    subst hs
    exact h
  | succ n ih =>
    intro s t hn h
    cases h with
    | nil => exact Tagged.nil
    | byte b s t hb h =>
      cases hm : k.isPrefixOf (b :: s) with
      | false =>
        rw [replaceAllAux_copy _ _ _ _ hm]
        exact Tagged.byte b _ _ hb (ih s t (by simp only [List.length_cons] at hn; omega) h)
      | true =>
        obtain ⟨s2, hs2⟩ := List.isPrefixOf_iff_prefix.mp hm
        obtain ⟨t2, ht2, h2⟩ := (Tagged.byte b s t hb h).split_front k s2 hk.2.1 hs2.symm
        have hlen : s2.length ≤ n := by
          have h1 : (b :: s).length = k.length + s2.length := by
            rw [← hs2, List.length_append]
          have h2 : 0 < k.length := List.length_pos.mpr hk.1
          simp only [List.length_cons] at hn h1
          omega
        rw [← hs2, ht2, replaceAllAux_match _ _ _ hk.1, List.append_assoc, List.append_assoc]
        exact Tagged.tag opening _ _ hopen
          ((Tagged.tag closing _ _ hclose (ih s2 t2 hlen h2)).append_plain k hk.2.1)
    | tag tag s t htag h =>
      obtain ⟨_, _, hlen⟩ := colourTags_shape tag htag
      rw [replaceAllAux_tag _ _ _ _ hk htag]
      exact Tagged.tag tag _ _ htag
        (ih s t (by simp only [List.length_append] at hn; omega) h)

theorem Tagged.replaceAll (k opening closing : GoString) (hk : TagSafe k)
    (hopen : opening ∈ colourTags) (hclose : closing ∈ colourTags) {s t : GoString}
    (h : Tagged s t) : Tagged (Swift.replaceAll s k (opening ++ k ++ closing)) t := by
  unfold Swift.replaceAll
  rw [if_neg hk.1]
  exact Tagged.replaceAllAux k opening closing hk hopen hclose s.length s t (Nat.le_refl _) h

theorem Tagged.highlightKeywords (keywords : List GoString) :
    (∀ k ∈ keywords, TagSafe k) → ∀ {s t : GoString}, Tagged s t →
      Tagged (Swift.highlightKeywords keywords s) t := by
  induction keywords with
  | nil => exact fun _ _ _ h => h
  | cons k ks ih =>
    intro hks s t h
    have h1 := Tagged.replaceAll k (goStr "[blue]") (goStr "[white]")
      (hks k (List.mem_cons_self _ _)) (by decide) (by decide) h
    exact ih (fun x hx => hks x (List.mem_cons_of_mem _ hx)) h1

theorem stripTagsAux_nil (n : Nat) : stripTagsAux n [] = [] := by
  cases n <;> rfl

theorem stripTagsAux_skip (s : GoString) :
    ∀ n, stripTagsAux n s = stripTagsAux 0 (s.drop n) := by
  induction s with
  | nil =>
    intro n
    simp [stripTagsAux_nil]
  | cons b rest ih =>
    intro n
    cases n with
    | zero => rfl
    | succ n =>
      rw [stripTagsAux, ih n]
      rfl

/-- No colour tag is a proper prefix of another. -/
theorem colourTags_prefix_eq : ∀ a ∈ colourTags, ∀ b ∈ colourTags,
    a.isPrefixOf b = true → a = b := by
  decide

/-- Deleting the tags passes over a tag at the start. -/
theorem stripTagsAux_tag (tag s : GoString) (htag : tag ∈ colourTags) :
    stripTagsAux 0 (tag ++ s) = stripTagsAux 0 s := by
  obtain ⟨_, hhead, _⟩ := colourTags_shape tag htag
  cases tag with
  | nil => cases hhead
  | cons c rest =>
    have hself : (c :: rest).isPrefixOf (c :: (rest ++ s)) = true := by
      rw [List.isPrefixOf_iff_prefix]
      exact List.prefix_append (c :: rest) s
    have hfind : colourTags.find? (fun x => x.isPrefixOf (c :: (rest ++ s))) =
        some (c :: rest) := by
      cases hf : colourTags.find? (fun x => x.isPrefixOf (c :: (rest ++ s))) with
      | none =>
        have := List.find?_eq_none.mp hf (c :: rest) htag
        exact absurd hself this
      | some found =>
        have hp := List.find?_some hf
        change found.isPrefixOf (c :: (rest ++ s)) = true at hp
        have hm : found ∈ colourTags := List.mem_of_find?_eq_some hf
        rw [List.isPrefixOf_iff_prefix] at hp hself
        rcases List.prefix_or_prefix_of_prefix hp hself with h | h
        · rw [colourTags_prefix_eq found hm (c :: rest) htag (List.isPrefixOf_iff_prefix.mpr h)]
        · rw [colourTags_prefix_eq (c :: rest) htag found hm (List.isPrefixOf_iff_prefix.mpr h)]
    rw [List.cons_append, stripTagsAux, hfind]
    simp only
    rw [stripTagsAux_skip]
    simp

/-- Deleting the tags keeps a byte other than `[`. -/
theorem stripTagsAux_byte (b : UInt8) (s : GoString) (hb : b ≠ 91) :
    stripTagsAux 0 (b :: s) = b :: stripTagsAux 0 s := by
  have hfind : colourTags.find? (fun x => x.isPrefixOf (b :: s)) = none := by
    rw [List.find?_eq_none]
    intro x hx
    obtain ⟨_, hhead, _⟩ := colourTags_shape x hx
    cases x with
    | nil => cases hhead
    | cons c rest =>
      rw [List.head?_cons, Option.some.injEq] at hhead
      subst hhead
      simp [List.isPrefixOf, Ne.symm hb]
  rw [stripTagsAux, hfind]

/-- Deleting the tags of tagged text gives the text. -/
theorem Tagged.stripTags {s t : GoString} (h : Tagged s t) : Swift.stripTags s = t := by
  unfold Swift.stripTags
  induction h with
  | nil => rfl
  | byte b s t hb _ ih => rw [stripTagsAux_byte b s hb, ih]
  | tag tag s t htag _ ih => rw [stripTagsAux_tag tag s htag, ih]

theorem tagSafe_go : ∀ k ∈ goKeywords, TagSafe k := by
  unfold TagSafe
  decide

theorem tagSafe_python : ∀ k ∈ pythonKeywords, TagSafe k := by
  unfold TagSafe
  decide

theorem tagSafe_javaScript : ∀ k ∈ javaScriptKeywords, TagSafe k := by
  unfold TagSafe
  decide

/-- The single bytes the highlighters search for are tag safe. -/
theorem tagSafe_bytes : TagSafe (goStr "\"") ∧ TagSafe (goStr "<") ∧ TagSafe (goStr ">") ∧
    TagSafe (goStr ":") ∧ TagSafe (goStr ",") := by
  unfold TagSafe
  decide

theorem Tagged.highlightGo {s t : GoString} (h : Tagged s t) :
    Tagged (Swift.highlightGo s) t :=
  Tagged.replaceAll (goStr "\"") (goStr "[green]") (goStr "[white]") tagSafe_bytes.1
    (by decide) (by decide) (Tagged.highlightKeywords goKeywords tagSafe_go h)

theorem Tagged.highlightPython {s t : GoString} (h : Tagged s t) :
    Tagged (Swift.highlightPython s) t :=
  Tagged.highlightKeywords pythonKeywords tagSafe_python h

theorem Tagged.highlightJavaScript {s t : GoString} (h : Tagged s t) :
    Tagged (Swift.highlightJavaScript s) t :=
  Tagged.highlightKeywords javaScriptKeywords tagSafe_javaScript h

theorem Tagged.highlightHTML {s t : GoString} (h : Tagged s t) :
    Tagged (Swift.highlightHTML s) t :=
  Tagged.replaceAll (goStr ">") (goStr "[red]") (goStr "[white]") tagSafe_bytes.2.2.1
    (by decide) (by decide)
    (Tagged.replaceAll (goStr "<") (goStr "[red]") (goStr "[white]") tagSafe_bytes.2.1
      (by decide) (by decide) h)

theorem Tagged.highlightJSON {s t : GoString} (h : Tagged s t) :
    Tagged (Swift.highlightJSON s) t :=
  Tagged.replaceAll (goStr ",") (goStr "[yellow]") (goStr "[white]") tagSafe_bytes.2.2.2.2
    (by decide) (by decide)
    (Tagged.replaceAll (goStr ":") (goStr "[yellow]") (goStr "[white]") tagSafe_bytes.2.2.2.1
      (by decide) (by decide)
      (Tagged.replaceAll (goStr "\"") (goStr "[green]") (goStr "[white]") tagSafe_bytes.1
        (by decide) (by decide) h))

/-- For every extension but `.css`, highlighting a line without `[` inserts whole colour
tags and nothing else. -/
theorem highlightLine_tagged (lowerExt : GoString → GoString) (e : TextEditor)
    (line : GoString) (hline : (91 : UInt8) ∉ line)
    (hcss : e.filePath = [] ∨ lowerExt e.filePath ≠ goStr ".css") :
    Tagged (highlightLine lowerExt e line) line := by
  have h0 := Tagged.of_plain line hline
  unfold highlightLine
  by_cases h1 : e.filePath = []
  · rw [if_pos h1]
    exact h0
  rw [if_neg h1]
  simp only
  by_cases h2 : lowerExt e.filePath = goStr ".go"
  · rw [if_pos h2]
    exact h0.highlightGo
  rw [if_neg h2]
  by_cases h3 : lowerExt e.filePath = goStr ".py"
  · rw [if_pos h3]
    exact h0.highlightPython
  rw [if_neg h3]
  by_cases h4 : lowerExt e.filePath = goStr ".js" ∨ lowerExt e.filePath = goStr ".ts"
  · rw [if_pos h4]
    exact h0.highlightJavaScript
  rw [if_neg h4]
  by_cases h5 : lowerExt e.filePath = goStr ".html" ∨ lowerExt e.filePath = goStr ".htm"
  · rw [if_pos h5]
    exact h0.highlightHTML
  rw [if_neg h5]
  have h6 : lowerExt e.filePath ≠ goStr ".css" := by
    rcases hcss with h | h
    · exact absurd h h1
    · exact h
  rw [if_neg h6]
  by_cases h7 : lowerExt e.filePath = goStr ".json"
  · rw [if_pos h7]
    exact h0.highlightJSON
  rw [if_neg h7]
  exact h0

/-- Replacing a single byte is a byte-by-byte map. -/
theorem replaceAll_single (c : UInt8) (new s : GoString) :
    replaceAll s [c] new = s.flatMap (fun b => if b = c then new else [b]) := by
  unfold replaceAll
  rw [if_neg (by simp)]
  induction s with
  | nil => rfl
  | cons b rest ih =>
    by_cases hb : b = c
    · subst hb
      rw [replaceAllAux, if_pos (by simp [List.isPrefixOf]), List.flatMap_cons, if_pos rfl]
      exact congrArg _ ih
    · rw [replaceAllAux, if_neg (by simp [List.isPrefixOf, Ne.symm hb]), List.flatMap_cons,
        if_neg hb, ih]
      rfl

theorem jsonByte_eq (b : UInt8) :
    (((if b = 34 then goStr "[green]\"[white]" else [b]).flatMap
      (fun x => if x = 58 then goStr "[yellow]:[white]" else [x])).flatMap
      (fun x => if x = 44 then goStr "[yellow],[white]" else [x])) = jsonByte b := by
  unfold jsonByte
  by_cases h1 : b = 34
  · subst h1
    decide
  · rw [if_neg h1, if_neg h1]
    by_cases h2 : b = 58
    · subst h2
      decide
    · rw [if_neg h2]
      by_cases h3 : b = 44
      · subst h3
        decide
      · rw [if_neg h3]
        simp [List.flatMap, h2, h3]

theorem highlightJSON_eq_flatMap (line : GoString) :
    highlightJSON line = line.flatMap jsonByte := by
  have h1 : goStr "\"" = [34] := by decide
  have h2 : goStr ":" = [58] := by decide
  have h3 : goStr "," = [44] := by decide
  unfold highlightJSON
  simp only [h1, h2, h3, replaceAll_single]
  induction line with
  | nil => rfl
  | cons b rest ih =>
    rw [List.flatMap_cons, List.flatMap_append, List.flatMap_append, ih, List.flatMap_cons,
      jsonByte_eq]

/-- Away from `.css`, deleting the colour tags from a highlighted line without `[` gives
the line back. -/
theorem highlightLine_stripTags (lowerExt : GoString → GoString) (e : TextEditor)
    (line : GoString) (hline : (91 : UInt8) ∉ line)
    (hcss : e.filePath = [] ∨ lowerExt e.filePath ≠ goStr ".css") :
    stripTags (highlightLine lowerExt e line) = line :=
  (highlightLine_tagged lowerExt e line hline hcss).stripTags

/-! ## Scan passes over classified lines -/

theorem contains_of_isPrefixOf (s k : GoString) (h : k.isPrefixOf s = true) :
    contains s k = true := by
  cases s with
  | nil => exact h
  | cons b rest => rw [contains, h, Bool.true_or]

theorem contains_append_left (s k : GoString) (h : contains s k = true) :
    ∀ p : GoString, contains (p ++ s) k = true := by
  intro p
  induction p with
  | nil => exact h
  | cons b p ih => rw [List.cons_append, contains, ih, Bool.or_true]

theorem contains_self_append (k s : GoString) : contains (k ++ s) k = true :=
  contains_of_isPrefixOf _ _ (List.isPrefixOf_iff_prefix.mpr (List.prefix_append k s))

/-- The scan copies a stretch `m` in front of a byte `c` when `old` does not occur in `m`
and does not contain `c`. -/
theorem replaceAllAux_upto (old new s : GoString) (c : UInt8) (hc : c ∉ old) :
    ∀ m : GoString, contains m old = false →
      replaceAllAux old new 0 (m ++ c :: s) = m ++ replaceAllAux old new 0 (c :: s) := by
  intro m
  induction m with
  | nil => exact fun _ => rfl
  | cons b m ih =>
    intro h
    rw [contains, Bool.or_eq_false_iff] at h
    rw [List.cons_append, List.cons_append, replaceAllAux_copy, ih h.2]
    rw [Bool.eq_false_iff, ne_eq, List.isPrefixOf_iff_prefix]
    intro hp
    have := prefix_of_not_mem c s (b :: m) old hc hp
    rw [← List.isPrefixOf_iff_prefix, h.1] at this
    cases this

theorem renderCells_cons (c : Cell) (cells : List Cell) :
    renderCells (c :: cells) = c.render ++ renderCells cells := by
  simp [renderCells]

theorem renderCells_append (a b : List Cell) :
    renderCells (a ++ b) = renderCells a ++ renderCells b := by
  simp [renderCells]

theorem renderCells_plain (k : GoString) : renderCells (k.map Cell.plain) = k := by
  induction k with
  | nil => rfl
  | cons b k ih => rw [List.map_cons, renderCells_cons, ih]; rfl

theorem renderCells_wrapCells (reconsider : Bool) (colour old : GoString) :
    renderCells (wrapCells reconsider colour old) = colour ++ old ++ goStr "[white]" := by
  cases reconsider with
  | false => simp [wrapCells, renderCells, Cell.render]
  | true =>
    have h : wrapCells true colour old =
        Cell.tag colour :: (old.map Cell.plain ++ [Cell.tag (goStr "[white]")]) := rfl
    rw [h, renderCells_cons, renderCells_append, renderCells_plain]
    simp [renderCells, Cell.render]

theorem cellsText_cons (c : Cell) (cells : List Cell) :
    cellsText (c :: cells) = c.text ++ cellsText cells := by
  simp [cellsText]

theorem cellsText_append (a b : List Cell) :
    cellsText (a ++ b) = cellsText a ++ cellsText b := by
  simp [cellsText]

theorem cellsText_plain (k : GoString) : cellsText (k.map Cell.plain) = k := by
  induction k with
  | nil => rfl
  | cons b k ih => rw [List.map_cons, cellsText_cons, ih]; rfl

theorem cellsText_wrapCells (reconsider : Bool) (colour old : GoString) :
    cellsText (wrapCells reconsider colour old) = old := by
  cases reconsider with
  | false => simp [wrapCells, cellsText, Cell.text]
  | true =>
    have h : wrapCells true colour old =
        Cell.tag colour :: (old.map Cell.plain ++ [Cell.tag (goStr "[white]")]) := rfl
    rw [h, cellsText_cons, cellsText_append, cellsText_plain]
    simp [cellsText, Cell.text]

theorem startsPlain_self (k : GoString) (rest : List Cell) :
    startsPlain k (k.map Cell.plain ++ rest) = true := by
  induction k with
  | nil => rfl
  | cons b k ih => simp [startsPlain, ih]

/-- Where the search text is spelled by unclassified bytes, the cells start with them. -/
theorem startsPlain_split : ∀ (k : GoString) (cells : List Cell),
    startsPlain k cells = true → cells = k.map Cell.plain ++ cells.drop k.length := by
  intro k
  induction k with
  | nil => exact fun _ _ => rfl
  | cons a k ih =>
    intro cells h
    cases cells with
    | nil => cases h
    | cons c rest =>
      cases c with
      | plain b =>
        simp only [startsPlain, Bool.and_eq_true, beq_iff_eq] at h
        have := ih rest h.2
        rw [h.1]
        simp only [List.map_cons, List.cons_append, List.length_cons, List.drop_succ_cons]
        exact congrArg _ this
      | wrapped colour text => cases h
      | tag t => cases h

theorem classifyAux_nil (reconsider : Bool) (old colour : GoString) (n : Nat) :
    classifyAux reconsider old colour n [] = [] := by
  cases n <;> rfl

theorem classifyAux_skip (reconsider : Bool) (old colour : GoString) (cells : List Cell) :
    ∀ n, classifyAux reconsider old colour n cells =
      classifyAux reconsider old colour 0 (cells.drop n) := by
  induction cells with
  | nil =>
    intro n
    simp [classifyAux_nil]
  | cons c rest ih =>
    intro n
    cases n with
    | zero => rfl
    | succ n =>
      rw [classifyAux, ih n]
      rfl

/-- Where the search text is spelled by unclassified bytes the pass wraps it and goes on
after the occurrence. -/
theorem classifyAux_hit (reconsider : Bool) (old colour : GoString) (rest : List Cell)
    (h : old ≠ []) :
    classifyAux reconsider old colour 0 (old.map Cell.plain ++ rest) =
      wrapCells reconsider colour old ++ classifyAux reconsider old colour 0 rest := by
  have hs := startsPlain_self old rest
  cases old with
  | nil => exact absurd rfl h
  | cons o os =>
    rw [List.map_cons, List.cons_append] at hs ⊢
    rw [classifyAux, if_pos hs, classifyAux_skip]
    simp

/-- Elsewhere the pass keeps the cell. -/
theorem classifyAux_copy (reconsider : Bool) (old colour : GoString) (c : Cell)
    (rest : List Cell) (h : startsPlain old (c :: rest) = false) :
    classifyAux reconsider old colour 0 (c :: rest) =
      c :: classifyAux reconsider old colour 0 rest := by
  rw [classifyAux, if_neg (by simp [h])]

/-- Induction along a scan pass: the pass either wraps an occurrence and goes on after
it, or keeps one cell. -/
theorem scan_induction (k : GoString) (hk : k ≠ []) (motive : List Cell → Prop)
    (nil : motive [])
    (hit : ∀ rest, motive rest → motive (k.map Cell.plain ++ rest))
    (copy : ∀ c rest, startsPlain k (c :: rest) = false → motive rest → motive (c :: rest)) :
    ∀ cells, motive cells := by
  have key : ∀ n (cells : List Cell), cells.length ≤ n → motive cells := by
    intro n
    induction n with
    | zero =>
      intro cells hn
      have hs : cells = [] := List.length_eq_zero.mp (Nat.le_zero.mp hn)
      subst hs
      exact nil
    | succ n ih =>
      intro cells hn
      cases cells with
      | nil => exact nil
      | cons c rest =>
        cases hm : startsPlain k (c :: rest) with
        | false =>
          exact copy c rest hm (ih rest (by simp only [List.length_cons] at hn; omega))
        | true =>
          have hs := startsPlain_split k (c :: rest) hm
          rw [hs]
          apply hit
          apply ih
          have hpos : 0 < k.length := List.length_pos.mpr hk
          simp only [List.length_drop, List.length_cons] at hn ⊢
          omega
  exact fun cells => key cells.length cells (Nat.le_refl _)

/-- A search text without `[` is at the start of the displayed text exactly when it is
spelled by unclassified bytes at the start of the cells. -/
theorem isPrefixOf_renderCells : ∀ (k : GoString) (cells : List Cell), (91 : UInt8) ∉ k →
    TagCells cells → k.isPrefixOf (renderCells cells) = startsPlain k cells := by
  intro k
  induction k with
  | nil =>
    intro cells _ _
    simp [startsPlain]
  | cons a k ih =>
    intro cells hk hcells
    have ha : a ≠ 91 := fun h => hk (h ▸ List.mem_cons_self _ _)
    have hhead : ∀ (tag rest : GoString), tag ∈ colourTags →
        (a :: k).isPrefixOf (tag ++ rest) = false := by
      intro tag rest htag
      obtain ⟨_, hh, _⟩ := colourTags_shape tag htag
      cases tag with
      | nil => cases hh
      | cons c tag =>
        rw [List.head?_cons, Option.some.injEq] at hh
        subst hh
        simp [List.isPrefixOf, ha]
    cases cells with
    | nil => rfl
    | cons c rest =>
      cases c with
      | plain b =>
        have hrest : TagCells rest :=
          ⟨fun colour text h => hcells.1 colour text (List.mem_cons_of_mem _ h),
            fun t h => hcells.2 t (List.mem_cons_of_mem _ h)⟩
        rw [renderCells_cons]
        show (a == b && k.isPrefixOf (renderCells rest)) = (a == b && startsPlain k rest)
        rw [ih rest (fun h => hk (List.mem_cons_of_mem _ h)) hrest]
      | wrapped colour text =>
        rw [renderCells_cons]
        show (a :: k).isPrefixOf (colour ++ text ++ goStr "[white]" ++ renderCells rest) = false
        rw [List.append_assoc, List.append_assoc]
        exact hhead colour _ (hcells.1 colour text (List.mem_cons_self _ _))
      | tag t =>
        rw [renderCells_cons]
        exact hhead t _ (hcells.2 t (List.mem_cons_self _ _))

theorem TagCells.tail {c : Cell} {rest : List Cell} (h : TagCells (c :: rest)) :
    TagCells rest :=
  ⟨fun colour text hm => h.1 colour text (List.mem_cons_of_mem _ hm),
    fun t hm => h.2 t (List.mem_cons_of_mem _ hm)⟩

theorem TagCells.of_append {a b : List Cell} (h : TagCells (a ++ b)) : TagCells b :=
  ⟨fun colour text hm => h.1 colour text (List.mem_append_right _ hm),
    fun t hm => h.2 t (List.mem_append_right _ hm)⟩

/-- One replacement of the source is one scan pass over the cells, when the search text
is tag safe and occurs in no wrapped text. -/
theorem replaceAllAux_renderCells (reconsider : Bool) (k colour : GoString) (hk : TagSafe k) :
    ∀ cells : List Cell, TagCells cells →
      (∀ c text, Cell.wrapped c text ∈ cells → contains text k = false) →
      replaceAllAux k (colour ++ k ++ goStr "[white]") 0 (renderCells cells) =
        renderCells (classifyAux reconsider k colour 0 cells) := by
  apply scan_induction k hk.1
  · exact fun _ _ => rfl
  · intro rest ih hcells hw
    rw [renderCells_append, renderCells_plain, replaceAllAux_match _ _ _ hk.1,
      classifyAux_hit _ _ _ _ hk.1, renderCells_append, renderCells_wrapCells,
      ih hcells.of_append (fun c text hm => hw c text (List.mem_append_right _ hm))]
  · intro c rest hm ih hcells hw
    have ih2 := ih hcells.tail (fun c text hm => hw c text (List.mem_cons_of_mem _ hm))
    rw [classifyAux_copy _ _ _ _ _ hm, renderCells_cons, renderCells_cons, ← ih2]
    generalize colour ++ k ++ goStr "[white]" = new
    cases c with
    | plain b =>
      have hp := isPrefixOf_renderCells k (Cell.plain b :: rest) hk.2.1 hcells
      rw [hm, renderCells_cons] at hp
      exact replaceAllAux_copy _ _ b _ hp
    | wrapped c text =>
      have hc := hcells.1 c text (List.mem_cons_self _ _)
      have hwhite : goStr "[white]" ∈ colourTags := by decide
      have h91 : goStr "[white]" = 91 :: goStr "white]" := by decide
      have hstep : replaceAllAux k new 0 (text ++ (goStr "[white]" ++ renderCells rest)) =
          text ++ replaceAllAux k new 0 (goStr "[white]" ++ renderCells rest) := by
        have := replaceAllAux_upto k new (goStr "white]" ++ renderCells rest) 91 hk.2.1 text
          (hw c text (List.mem_cons_self _ _))
        rw [h91]
        exact this
      show replaceAllAux k new 0 (c ++ text ++ goStr "[white]" ++ renderCells rest) =
        c ++ text ++ goStr "[white]" ++ replaceAllAux k new 0 (renderCells rest)
      rw [List.append_assoc, List.append_assoc, replaceAllAux_tag _ _ _ _ hk hc, hstep,
        replaceAllAux_tag _ _ _ _ hk hwhite]
      simp only [List.append_assoc]
    | tag t =>
      exact replaceAllAux_tag _ _ _ _ hk (hcells.2 t (List.mem_cons_self _ _))

/-- A scan pass keeps the line the cells stand for. -/
theorem cellsText_classifyAux (reconsider : Bool) (k colour : GoString) (hk : k ≠ []) :
    ∀ cells : List Cell,
      cellsText (classifyAux reconsider k colour 0 cells) = cellsText cells := by
  apply scan_induction k hk
  · rfl
  · intro rest ih
    rw [classifyAux_hit _ _ _ _ hk, cellsText_append, cellsText_append, cellsText_wrapCells,
      cellsText_plain, ih]
  · intro c rest hm ih
    rw [classifyAux_copy _ _ _ _ _ hm, cellsText_cons, cellsText_cons, ih]

/-- A cell after a scan pass was there before, or wraps an occurrence in the line. -/
theorem mem_classifyAux (reconsider : Bool) (k colour : GoString) (hk : k ≠ []) (x : Cell) :
    ∀ cells : List Cell, x ∈ classifyAux reconsider k colour 0 cells →
      x ∈ cells ∨ (x ∈ wrapCells reconsider colour k ∧ contains (cellsText cells) k = true) := by
  apply scan_induction k hk
  · exact fun h => Or.inl h
  · intro rest ih h
    rw [classifyAux_hit _ _ _ _ hk, List.mem_append] at h
    have hc : contains (cellsText (k.map Cell.plain ++ rest)) k = true := by
      rw [cellsText_append, cellsText_plain]
      exact contains_self_append k _
    rcases h with h | h
    · exact Or.inr ⟨h, hc⟩
    · rcases ih h with h2 | h2
      · exact Or.inl (List.mem_append_right _ h2)
      · exact Or.inr ⟨h2.1, hc⟩
  · intro c rest hm ih h
    rw [classifyAux_copy _ _ _ _ _ hm, List.mem_cons] at h
    rcases h with h | h
    · exact Or.inl (h ▸ List.mem_cons_self _ _)
    · rcases ih h with h2 | h2
      · exact Or.inl (List.mem_cons_of_mem _ h2)
      · refine Or.inr ⟨h2.1, ?_⟩
        rw [cellsText_cons]
        exact contains_append_left _ _ h2.2 _

theorem mem_wrapCells_wrapped (reconsider : Bool) (colour old c text : GoString)
    (h : Cell.wrapped c text ∈ wrapCells reconsider colour old) :
    reconsider = false ∧ c = colour ∧ text = old := by
  cases reconsider with
  | false =>
    simp only [wrapCells, Bool.false_eq_true, if_false, List.mem_singleton,
      Cell.wrapped.injEq] at h
    exact ⟨rfl, h.1, h.2⟩
  | true =>
    simp [wrapCells] at h

theorem mem_wrapCells_tag (reconsider : Bool) (colour old t : GoString)
    (h : Cell.tag t ∈ wrapCells reconsider colour old) :
    t = colour ∨ t = goStr "[white]" := by
  cases reconsider with
  | false => simp [wrapCells] at h
  | true =>
    simp only [wrapCells, if_true, List.mem_cons, Cell.tag.injEq, List.mem_append,
      List.mem_map, List.mem_singleton, List.not_mem_nil, or_false] at h
    rcases h with h | h | h
    · exact Or.inl h
    · obtain ⟨_, _, h⟩ := h
      cases h
    · exact Or.inr h

theorem nestingTexts_tail (a : GoString) (later : List GoString) (k : GoString)
    (h : k ∈ nestingTexts later) : k ∈ nestingTexts (a :: later) := by
  rw [nestingTexts]
  split
  · exact List.mem_cons_of_mem _ h
  · exact h

theorem nestingTexts_head (a : GoString) (later : List GoString) (b : GoString)
    (hb : b ∈ later) (h : contains a b = true) : a ∈ nestingTexts (a :: later) := by
  rw [nestingTexts, if_pos (List.any_eq_true.mpr ⟨b, hb, h⟩)]
  exact List.mem_cons_self _ _

/-- The replacements of the source, rule after rule, are the scan passes over the cells:
under first match wins when the line contains no search text in which a later one
occurs, and always when wrapped text is reconsidered. -/
theorem foldl_replaceAll_renderCells (reconsider : Bool) (line : GoString) :
    ∀ (rules : List (GoString × GoString)) (cells : List Cell),
      (∀ rule ∈ rules, TagSafe rule.1 ∧ rule.2 ∈ colourTags) →
      (reconsider = false →
        ∀ k ∈ nestingTexts (rules.map Prod.fst), contains line k = false) →
      TagCells cells → cellsText cells = line →
      (∀ c text, Cell.wrapped c text ∈ cells → ∀ rule ∈ rules, contains text rule.1 = false) →
      rules.foldl
          (fun result rule => replaceAll result rule.1 (rule.2 ++ rule.1 ++ goStr "[white]"))
          (renderCells cells) =
        renderCells
          (rules.foldl (fun cells rule => classify reconsider cells rule.1 rule.2) cells) := by
  intro rules
  induction rules with
  | nil => exact fun _ _ _ _ _ _ => rfl
  | cons r rest ih =>
    intro cells hsafe hnest hcells htext hw
    obtain ⟨hk, hcol⟩ := hsafe r (List.mem_cons_self _ _)
    have hwhite : goStr "[white]" ∈ colourTags := by decide
    have hstep : replaceAll (renderCells cells) r.1 (r.2 ++ r.1 ++ goStr "[white]") =
        renderCells (classify reconsider cells r.1 r.2) := by
      unfold replaceAll classify
      rw [if_neg hk.1, if_neg hk.1]
      exact replaceAllAux_renderCells reconsider r.1 r.2 hk cells hcells
        (fun c text hm => hw c text hm r (List.mem_cons_self _ _))
    have hmem : ∀ x, x ∈ classify reconsider cells r.1 r.2 →
        x ∈ cells ∨ (x ∈ wrapCells reconsider r.2 r.1 ∧ contains line r.1 = true) := by
      intro x hx
      unfold classify at hx
      rw [if_neg hk.1] at hx
      have := mem_classifyAux reconsider r.1 r.2 hk.1 x cells hx
      rw [htext] at this
      exact this
    rw [List.foldl_cons, List.foldl_cons, hstep]
    apply ih
    · exact fun rule hr => hsafe rule (List.mem_cons_of_mem _ hr)
    · intro hrc k hkm
      exact hnest hrc k (nestingTexts_tail _ _ k hkm)
    · constructor
      · intro c text hm
        rcases hmem _ hm with h | h
        · exact hcells.1 c text h
        · rw [(mem_wrapCells_wrapped _ _ _ _ _ h.1).2.1]
          exact hcol
      · intro t hm
        rcases hmem _ hm with h | h
        · exact hcells.2 t h
        · rcases mem_wrapCells_tag _ _ _ _ h.1 with h2 | h2
          · rw [h2]
            exact hcol
          · rw [h2]
            exact hwhite
    · unfold classify
      rw [if_neg hk.1, cellsText_classifyAux reconsider r.1 r.2 hk.1, htext]
    · intro c text hm rule hr
      rcases hmem _ hm with h | h
      · exact hw c text h rule (List.mem_cons_of_mem _ hr)
      · obtain ⟨hrc, _, ht⟩ := mem_wrapCells_wrapped _ _ _ _ _ h.1
        rw [ht]
        cases hc : contains r.1 rule.1 with
        | false => rfl
        | true =>
          have hn : r.1 ∈ nestingTexts ((r :: rest).map Prod.fst) :=
            nestingTexts_head r.1 (rest.map Prod.fst) rule.1 (List.mem_map_of_mem _ hr) hc
          rw [hnest hrc r.1 hn] at h
          cases h.2

/-- The replacements of the source over a line are the scan passes over the line. -/
theorem foldl_replaceAll_scanRules (reconsider : Bool) (rules : List (GoString × GoString))
    (line : GoString) (hsafe : ∀ rule ∈ rules, TagSafe rule.1 ∧ rule.2 ∈ colourTags)
    (hnest : reconsider = false →
      ∀ k ∈ nestingTexts (rules.map Prod.fst), contains line k = false) :
    rules.foldl
        (fun result rule => replaceAll result rule.1 (rule.2 ++ rule.1 ++ goStr "[white]"))
        line = scanRules reconsider rules line := by
  have h := foldl_replaceAll_renderCells reconsider line rules (line.map Cell.plain) hsafe
    hnest ⟨fun c text hm => by simp at hm, fun t hm => by simp at hm⟩ (cellsText_plain line)
    (fun c text hm => by simp at hm)
  rw [renderCells_plain] at h
  exact h

theorem highlightKeywords_eq_foldl (keywords : List GoString) (line : GoString) :
    highlightKeywords keywords line =
      (keywordRules keywords).foldl
        (fun result rule => replaceAll result rule.1 (rule.2 ++ rule.1 ++ goStr "[white]"))
        line := by
  unfold highlightKeywords keywordRules
  rw [List.foldl_map]

theorem keywordRules_safe (keywords : List GoString) (h : ∀ k ∈ keywords, TagSafe k) :
    ∀ rule ∈ keywordRules keywords, TagSafe rule.1 ∧ rule.2 ∈ colourTags := by
  intro rule hr
  unfold keywordRules at hr
  rw [List.mem_map] at hr
  obtain ⟨k, hk, rfl⟩ := hr
  have hblue : goStr "[blue]" ∈ colourTags := by decide
  exact ⟨h k hk, hblue⟩

theorem keywordRules_fst (keywords : List GoString) :
    (keywordRules keywords).map Prod.fst = keywords := by
  unfold keywordRules
  rw [List.map_map]
  exact List.map_id _

/-- A keyword loop is the scan passes of its rules. -/
theorem highlightKeywords_scanRules (reconsider : Bool) (keywords : List GoString)
    (line : GoString) (hsafe : ∀ k ∈ keywords, TagSafe k)
    (hnest : reconsider = false → ∀ k ∈ nestingTexts keywords, contains line k = false) :
    highlightKeywords keywords line = scanRules reconsider (keywordRules keywords) line := by
  rw [highlightKeywords_eq_foldl]
  apply foldl_replaceAll_scanRules reconsider _ line (keywordRules_safe keywords hsafe)
  rw [keywordRules_fst]
  exact hnest

theorem nestingTexts_values :
    nestingTexts (goRules.map Prod.fst) = [] ∧ nestingTexts javaScriptKeywords = [] ∧
    nestingTexts (htmlRules.map Prod.fst) = [] ∧ nestingTexts (jsonRules.map Prod.fst) = [] ∧
    nestingTexts pythonKeywords =
      (["class", "for", "import", "finally", "continue"] : List String).map goStr := by
  decide

theorem highlightGo_firstMatchWins (line : GoString) :
    highlightGo line = firstMatchWins goRules line := by
  have hsafe : ∀ rule ∈ goRules, TagSafe rule.1 ∧ rule.2 ∈ colourTags := by
    intro rule hr
    unfold goRules at hr
    rw [List.mem_append, List.mem_singleton] at hr
    rcases hr with hr | hr
    · exact keywordRules_safe goKeywords tagSafe_go rule hr
    · rw [hr]
      exact ⟨tagSafe_bytes.1, by decide⟩
  have h := foldl_replaceAll_scanRules false goRules line hsafe
    (fun _ k hk => by rw [nestingTexts_values.1] at hk; cases hk)
  have hquote : goStr "[green]" ++ goStr "\"" ++ goStr "[white]" = goStr "[green]\"[white]" := by
    decide
  have hfold : goRules.foldl
      (fun result rule => replaceAll result rule.1 (rule.2 ++ rule.1 ++ goStr "[white]"))
      line = highlightGo line := by
    unfold goRules highlightGo
    rw [List.foldl_append, ← highlightKeywords_eq_foldl, List.foldl_cons, List.foldl_nil]
    simp only
    rw [hquote]
  unfold firstMatchWins
  rw [← h, hfold]

theorem highlightJavaScript_firstMatchWins (line : GoString) :
    highlightJavaScript line = firstMatchWins (keywordRules javaScriptKeywords) line :=
  highlightKeywords_scanRules false javaScriptKeywords line tagSafe_javaScript
    (fun _ k hk => by rw [nestingTexts_values.2.1] at hk; cases hk)

theorem highlightHTML_firstMatchWins (line : GoString) :
    highlightHTML line = firstMatchWins htmlRules line := by
  have hsafe : ∀ rule ∈ htmlRules, TagSafe rule.1 ∧ rule.2 ∈ colourTags := by
    intro rule hr
    unfold htmlRules at hr
    simp only [List.mem_cons, List.mem_singleton, List.not_mem_nil, or_false] at hr
    rcases hr with hr | hr <;> rw [hr]
    · exact ⟨tagSafe_bytes.2.1, by decide⟩
    · exact ⟨tagSafe_bytes.2.2.1, by decide⟩
  have h := foldl_replaceAll_scanRules false htmlRules line hsafe
    (fun _ k hk => by rw [nestingTexts_values.2.2.1] at hk; cases hk)
  unfold firstMatchWins
  rw [← h]
  rfl

theorem highlightJSON_firstMatchWins (line : GoString) :
    highlightJSON line = firstMatchWins jsonRules line := by
  have hsafe : ∀ rule ∈ jsonRules, TagSafe rule.1 ∧ rule.2 ∈ colourTags := by
    intro rule hr
    unfold jsonRules at hr
    simp only [List.mem_cons, List.mem_singleton, List.not_mem_nil, or_false] at hr
    rcases hr with hr | hr | hr <;> rw [hr]
    · exact ⟨tagSafe_bytes.1, by decide⟩
    · exact ⟨tagSafe_bytes.2.2.2.1, by decide⟩
    · exact ⟨tagSafe_bytes.2.2.2.2, by decide⟩
  have h := foldl_replaceAll_scanRules false jsonRules line hsafe
    (fun _ k hk => by rw [nestingTexts_values.2.2.2.1] at hk; cases hk)
  unfold firstMatchWins
  rw [← h]
  rfl

/-- The method `highlightLine` picks the highlighter by the lower-cased extension. -/
theorem highlightLine_dispatch (lowerExt : GoString → GoString) (e : TextEditor)
    (line : GoString) (hpath : e.filePath ≠ []) :
    (lowerExt e.filePath = goStr ".go" → highlightLine lowerExt e line = highlightGo line) ∧
    (lowerExt e.filePath = goStr ".py" →
      highlightLine lowerExt e line = highlightPython line) ∧
    (lowerExt e.filePath = goStr ".js" ∨ lowerExt e.filePath = goStr ".ts" →
      highlightLine lowerExt e line = highlightJavaScript line) ∧
    (lowerExt e.filePath = goStr ".html" ∨ lowerExt e.filePath = goStr ".htm" →
      highlightLine lowerExt e line = highlightHTML line) ∧
    (lowerExt e.filePath = goStr ".json" →
      highlightLine lowerExt e line = highlightJSON line) ∧
    (lowerExt e.filePath = goStr ".css" →
      highlightLine lowerExt e line = highlightCSS line) := by
  unfold highlightLine
  rw [if_neg hpath]
  simp only
  refine ⟨?_, ?_, ?_, ?_, ?_, ?_⟩
  · intro h
    rw [if_pos h]
  · intro h
    rw [if_neg (by rw [h]; decide), if_pos h]
  · intro h
    rw [if_neg (by rcases h with h | h <;> rw [h] <;> decide),
      if_neg (by rcases h with h | h <;> rw [h] <;> decide), if_pos h]
  · intro h
    rw [if_neg (by rcases h with h | h <;> rw [h] <;> decide),
      if_neg (by rcases h with h | h <;> rw [h] <;> decide),
      if_neg (by rcases h with h | h <;> rw [h] <;> decide), if_pos h]
  · intro h
    rw [if_neg (by rw [h]; decide), if_neg (by rw [h]; decide),
      if_neg (by rw [h]; decide), if_neg (by rw [h]; decide),
      if_neg (by rw [h]; decide), if_pos h]
  · intro h
    rw [if_neg (by rw [h]; decide), if_neg (by rw [h]; decide),
      if_neg (by rw [h]; decide), if_neg (by rw [h]; decide), if_pos h]

/-- A search text that does not occur is not replaced. -/
theorem replaceAllAux_absent (old new : GoString) :
    ∀ s : GoString, contains s old = false → replaceAllAux old new 0 s = s := by
  intro s
  induction s with
  | nil => exact fun _ => rfl
  | cons b rest ih =>
    intro h
    rw [contains, Bool.or_eq_false_iff] at h
    rw [replaceAllAux_copy _ _ _ _ h.1, ih h.2]

/-- A keyword loop over keywords that do not occur in the line returns the line. -/
theorem highlightKeywords_absent (keywords : List GoString) (line : GoString)
    (h : ∀ k ∈ keywords, contains line k = false) : highlightKeywords keywords line = line := by
  unfold highlightKeywords
  induction keywords with
  | nil => rfl
  | cons k ks ih =>
    have hk : replaceAll line k (goStr "[blue]" ++ k ++ goStr "[white]") = line := by
      unfold replaceAll
      split
      · rfl
      · exact replaceAllAux_absent _ _ line (h k (List.mem_cons_self _ _))
    rw [List.foldl_cons, hk]
    exact ih (fun x hx => h x (List.mem_cons_of_mem _ hx))

theorem contains_of_append (p s k : GoString) (h : contains (p ++ s) k = false) :
    contains s k = false := by
  cases hc : contains s k with
  | false => rfl
  | true => rw [contains_append_left s k hc p] at h; cases h

/-- A scan pass for a search text that does not occur in the line changes nothing. -/
theorem classifyAux_absent (reconsider : Bool) (k colour : GoString) (hk : k ≠ []) :
    ∀ cells : List Cell, contains (cellsText cells) k = false →
      classifyAux reconsider k colour 0 cells = cells := by
  apply scan_induction k hk
  · exact fun _ => rfl
  · intro rest _ h
    rw [cellsText_append, cellsText_plain, contains_self_append] at h
    cases h
  · intro c rest hm ih h
    rw [cellsText_cons] at h
    rw [classifyAux_copy _ _ _ _ _ hm, ih (contains_of_append _ _ _ h)]

theorem foldl_classify_absent (reconsider : Bool) (keywords : List GoString)
    (line : GoString) (h : ∀ k ∈ keywords, contains line k = false) :
    (keywordRules keywords).foldl
        (fun cells rule => classify reconsider cells rule.1 rule.2) (line.map Cell.plain) =
      line.map Cell.plain := by
  unfold keywordRules
  rw [List.foldl_map]
  induction keywords with
  | nil => rfl
  | cons k ks ih =>
    have hk : classify reconsider (line.map Cell.plain) k (goStr "[blue]") =
        line.map Cell.plain := by
      unfold classify
      split
      · rfl
      · rename_i hne
        apply classifyAux_absent reconsider k _ hne
        rw [cellsText_plain]
        exact h k (List.mem_cons_self _ _)
    rw [List.foldl_cons]
    simp only
    rw [hk]
    exact ih (fun x hx => h x (List.mem_cons_of_mem _ hx))

theorem startsPlain_map_plain : ∀ (k line : GoString),
    startsPlain k (line.map Cell.plain) = k.isPrefixOf line := by
  intro k
  induction k with
  | nil =>
    intro line
    simp [startsPlain]
  | cons a k ih =>
    intro line
    cases line with
    | nil => rfl
    | cons b rest =>
      show (a == b && startsPlain k (rest.map Cell.plain)) = (a == b && k.isPrefixOf rest)
      rw [ih rest]

/-- On a line without wrapped text one replacement of the source is one scan pass,
whatever the search text. -/
theorem replaceAllAux_plain (reconsider : Bool) (k colour : GoString) (hk : k ≠ []) :
    ∀ (n : Nat) (line : GoString), line.length ≤ n →
      replaceAllAux k (colour ++ k ++ goStr "[white]") 0 line =
        renderCells (classifyAux reconsider k colour 0 (line.map Cell.plain)) := by
  intro n
  induction n with
  | zero =>
    intro line hn
    have hs : line = [] := List.length_eq_zero.mp (Nat.le_zero.mp hn)
    subst hs
    rfl
  | succ n ih =>
    intro line hn
    cases line with
    | nil => rfl
    | cons b rest =>
      cases hm : k.isPrefixOf (b :: rest) with
      | false =>
        have hs : startsPlain k (Cell.plain b :: rest.map Cell.plain) = false := by
          rw [← hm, ← startsPlain_map_plain]
          rfl
        rw [replaceAllAux_copy _ _ _ _ hm, List.map_cons, classifyAux_copy _ _ _ _ _ hs,
          renderCells_cons, ih rest (by simp only [List.length_cons] at hn; omega)]
        rfl
      | true =>
        obtain ⟨s2, hs2⟩ := List.isPrefixOf_iff_prefix.mp hm
        have hlen : s2.length ≤ n := by
          have h1 : (b :: rest).length = k.length + s2.length := by
            rw [← hs2, List.length_append]
          have h2 : 0 < k.length := List.length_pos.mpr hk
          simp only [List.length_cons] at hn h1
          omega
        rw [← hs2, replaceAllAux_match _ _ _ hk, List.map_append, classifyAux_hit _ _ _ _ hk,
          renderCells_append, renderCells_wrapCells, ih s2 hlen]

/-- A keyword loop is first match wins when the line contains none of the keywords `pre`
at the head of the list and the keywords `post` after the next keyword `k` are tag safe,
do not occur in `k`, and nest only in keywords the line does not contain. -/
theorem highlightKeywords_after_absent (pre : List GoString) (k : GoString)
    (post : List GoString) (line : GoString)
    (hpre : ∀ x ∈ pre, contains line x = false) (hk : k ≠ [])
    (hpost : ∀ x ∈ post, TagSafe x) (hin : ∀ x ∈ post, contains k x = false)
    (hnest : ∀ x ∈ nestingTexts post, contains line x = false) :
    highlightKeywords (pre ++ k :: post) line =
      firstMatchWins (keywordRules (pre ++ k :: post)) line := by
  have hblue : goStr "[blue]" ∈ colourTags := by decide
  have hcode : highlightKeywords (pre ++ k :: post) line =
      highlightKeywords post (replaceAll line k (goStr "[blue]" ++ k ++ goStr "[white]")) := by
    have h := highlightKeywords_absent pre line hpre
    unfold highlightKeywords at h ⊢
    rw [List.foldl_append, List.foldl_cons, h]
  have hcells : (keywordRules (pre ++ k :: post)).foldl
      (fun cells rule => classify false cells rule.1 rule.2) (line.map Cell.plain) =
      (keywordRules post).foldl (fun cells rule => classify false cells rule.1 rule.2)
        (classifyAux false k (goStr "[blue]") 0 (line.map Cell.plain)) := by
    have h := foldl_classify_absent false pre line hpre
    have hsplit : keywordRules (pre ++ k :: post) =
        keywordRules pre ++ (k, goStr "[blue]") :: keywordRules post := by
      simp [keywordRules]
    rw [hsplit, List.foldl_append, List.foldl_cons, h]
    simp only [classify, if_neg hk]
  have hmem : ∀ x, x ∈ classifyAux false k (goStr "[blue]") 0 (line.map Cell.plain) →
      (∃ b, x = Cell.plain b) ∨ x = Cell.wrapped (goStr "[blue]") k := by
    intro x hx
    rcases mem_classifyAux false k (goStr "[blue]") hk x _ hx with h | h
    · rw [List.mem_map] at h
      obtain ⟨b, _, hb⟩ := h
      exact Or.inl ⟨b, hb.symm⟩
    · have := h.1
      simp only [wrapCells, Bool.false_eq_true, if_false, List.mem_singleton] at this
      exact Or.inr this
  unfold firstMatchWins scanRules
  rw [hcode, hcells, highlightKeywords_eq_foldl]
  have hfirst : replaceAll line k (goStr "[blue]" ++ k ++ goStr "[white]") =
      renderCells (classifyAux false k (goStr "[blue]") 0 (line.map Cell.plain)) := by
    unfold replaceAll
    rw [if_neg hk]
    exact replaceAllAux_plain false k (goStr "[blue]") hk line.length line (Nat.le_refl _)
  rw [hfirst]
  apply foldl_replaceAll_renderCells false line (keywordRules post) _
    (keywordRules_safe post hpost)
  · intro _
    rw [keywordRules_fst]
    exact hnest
  · constructor
    · intro c text hm
      rcases hmem _ hm with ⟨b, h⟩ | h
      · cases h
      · rw [Cell.wrapped.injEq] at h
        rw [h.1]
        exact hblue
    · intro t hm
      rcases hmem _ hm with ⟨b, h⟩ | h <;> cases h
  · rw [cellsText_classifyAux false k _ hk, cellsText_plain]
  · intro c text hm rule hr
    rcases hmem _ hm with ⟨b, h⟩ | h
    · cases h
    · rw [Cell.wrapped.injEq] at h
      rw [h.2]
      apply hin
      have := List.mem_map_of_mem Prod.fst hr
      rw [keywordRules_fst] at this
      exact this

/-- The keyword loop of `highlightCSS` is first match wins on a line that contains none
of the keywords listed before `white`. -/
theorem highlightCSS_firstMatchWins (line : GoString)
    (h : ∀ k ∈ cssKeywords.takeWhile (fun k => k != goStr "white"), contains line k = false) :
    highlightCSS line = firstMatchWins (keywordRules cssKeywords) line := by
  have hsplit : cssKeywords = cssKeywords.takeWhile (fun k => k != goStr "white") ++
      goStr "white" :: (cssKeywords.dropWhile (fun k => k != goStr "white")).tail := by
    decide
  have hpost : (∀ x ∈ (cssKeywords.dropWhile (fun k => k != goStr "white")).tail, TagSafe x) ∧
      (∀ x ∈ (cssKeywords.dropWhile (fun k => k != goStr "white")).tail,
        contains (goStr "white") x = false) ∧
      nestingTexts (cssKeywords.dropWhile (fun k => k != goStr "white")).tail = [] := by
    unfold TagSafe
    decide
  unfold highlightCSS
  rw [hsplit]
  exact highlightKeywords_after_absent _ _ _ line h (by decide) hpost.1 hpost.2.1
    (fun x hx => by rw [hpost.2.2] at hx; cases hx)

/-- C16 (evaluation at the failing input): the line `color` of `style.css` has no `[`.
`highlightCSS` first wraps `color`; the later keyword `white` is then found inside the
inserted tag `[white]` and wrapped too, so the output is
`[blue]color[[blue]white[white]]`; deleting the colour tags leaves `color[white]`, not
`color`. -/
theorem highlightLine_css_alters_text :
    unixLowerExt cssFile.filePath = goStr ".css" ∧ (91 : UInt8) ∉ goStr "color" ∧
    highlightLine unixLowerExt cssFile (goStr "color") =
      goStr "[blue]color[[blue]white[white]]" ∧
    stripTags (highlightLine unixLowerExt cssFile (goStr "color")) = goStr "color[white]" ∧
    goStr "color[white]" ≠ goStr "color" := by
  decide

/-- C17 (counterexample): for `loop.py` the line `continue` does not give
`[blue]continue[white]`: the later keyword `in` is matched inside the wrapped
`continue`, and the output is `[blue]cont[blue]in[white]ue[white]`. -/
theorem highlightLine_python_rematches :
    unixLowerExt pythonFile.filePath = goStr ".py" ∧
    highlightLine unixLowerExt pythonFile (goStr "continue") =
      goStr "[blue]cont[blue]in[white]ue[white]" ∧
    goStr "[blue]cont[blue]in[white]ue[white]" ≠ goStr "[blue]continue[white]" := by
  decide

/-- C17 (amended): first-match-wins highlighting holds for Go, JavaScript/TypeScript, HTML
and JSON and every line, lines with `[` included: `highlightLine` is `firstMatchWins` of
the rules of the language, in which each rule in list order wraps its occurrences in not
yet wrapped text and a wrapped occurrence is closed to later rules and shown inside one
`[colour]`...`[white]` pair.  For Python the same holds for every line that contains none
of `class`, `for`, `import`, `finally`, `continue`, the keywords inside which a later
keyword of the list occurs; in general Python is `rematching`: the later keywords are
matched again inside wrapped text, though never inside an inserted tag, and `continue`
gives `[blue]cont[blue]in[white]ue[white]` where first match wins gives
`[blue]continue[white]`.  For CSS first match wins holds for every line that contains
none of the keywords listed before `white`; the line `color` gives
`[blue]color[[blue]white[white]]` where first match wins gives `[blue]color[white]`. -/
theorem highlightLine_first_match_wins (lowerExt : GoString → GoString) (e : TextEditor)
    (line : GoString) (hpath : e.filePath ≠ []) :
    (lowerExt e.filePath = goStr ".go" →
      highlightLine lowerExt e line = firstMatchWins goRules line) ∧
    (lowerExt e.filePath = goStr ".js" ∨ lowerExt e.filePath = goStr ".ts" →
      highlightLine lowerExt e line =
        firstMatchWins (keywordRules javaScriptKeywords) line) ∧
    (lowerExt e.filePath = goStr ".html" ∨ lowerExt e.filePath = goStr ".htm" →
      highlightLine lowerExt e line = firstMatchWins htmlRules line) ∧
    (lowerExt e.filePath = goStr ".json" →
      highlightLine lowerExt e line = firstMatchWins jsonRules line) ∧
    (lowerExt e.filePath = goStr ".py" →
      highlightLine lowerExt e line = rematching (keywordRules pythonKeywords) line ∧
      ((∀ k ∈ nestingTexts pythonKeywords, contains line k = false) →
        highlightLine lowerExt e line =
          firstMatchWins (keywordRules pythonKeywords) line)) ∧
    (lowerExt e.filePath = goStr ".css" →
      (∀ k ∈ cssKeywords.takeWhile (fun k => k != goStr "white"), contains line k = false) →
      highlightLine lowerExt e line = firstMatchWins (keywordRules cssKeywords) line) ∧
    nestingTexts pythonKeywords =
      [goStr "class", goStr "for", goStr "import", goStr "finally", goStr "continue"] ∧
    firstMatchWins (keywordRules pythonKeywords) (goStr "continue") =
      goStr "[blue]continue[white]" ∧
    rematching (keywordRules pythonKeywords) (goStr "continue") =
      goStr "[blue]cont[blue]in[white]ue[white]" ∧
    firstMatchWins (keywordRules cssKeywords) (goStr "color") = goStr "[blue]color[white]" ∧
    highlightCSS (goStr "color") = goStr "[blue]color[[blue]white[white]]" := by
  obtain ⟨hgo, hpy, hjs, hhtml, hjson, hcss⟩ := highlightLine_dispatch lowerExt e line hpath
  refine ⟨?_, ?_, ?_, ?_, ?_, ?_, by decide, by decide, by decide, by decide, by decide⟩
  · intro h
    rw [hgo h, highlightGo_firstMatchWins]
  · intro h
    rw [hjs h, highlightJavaScript_firstMatchWins]
  · intro h
    rw [hhtml h, highlightHTML_firstMatchWins]
  · intro h
    rw [hjson h, highlightJSON_firstMatchWins]
  · intro h
    rw [hpy h]
    exact ⟨highlightKeywords_scanRules true pythonKeywords line tagSafe_python
        (fun hrc => by cases hrc),
      fun hline => highlightKeywords_scanRules false pythonKeywords line tagSafe_python
        (fun _ => hline)⟩
  · intro h hline
    rw [hcss h, highlightCSS_firstMatchWins line hline]

/-- C17 (amended) at the line `if s[0] == "go"` of `main.go`, at the lines
`x is not None` and `for x in xs: pass` of `loop.py`, and at the line
`white-space: nowrap` of `style.css`. -/
theorem highlightLine_first_match_wins_witness :
    goFile.filePath ≠ [] ∧ unixLowerExt goFile.filePath = goStr ".go" ∧
    highlightLine unixLowerExt goFile (goStr "if s[0] == \"go\"") =
      firstMatchWins goRules (goStr "if s[0] == \"go\"") ∧
    firstMatchWins goRules (goStr "if s[0] == \"go\"") =
      goStr "[blue]if[white] s[0] == [green]\"[white][blue]go[white][green]\"[white]" ∧
    pythonFile.filePath ≠ [] ∧ unixLowerExt pythonFile.filePath = goStr ".py" ∧
    (∀ k ∈ nestingTexts pythonKeywords, contains (goStr "x is not None") k = false) ∧
    highlightLine unixLowerExt pythonFile (goStr "x is not None") =
      firstMatchWins (keywordRules pythonKeywords) (goStr "x is not None") ∧
    highlightLine unixLowerExt pythonFile (goStr "for x in xs: pass") =
      rematching (keywordRules pythonKeywords) (goStr "for x in xs: pass") ∧
    rematching (keywordRules pythonKeywords) (goStr "for x in xs: pass") =
      goStr "[blue]f[blue]or[white][white] x [blue]in[white] xs: p[blue]as[white]s" ∧
    cssFile.filePath ≠ [] ∧ unixLowerExt cssFile.filePath = goStr ".css" ∧
    highlightLine unixLowerExt cssFile (goStr "white-space: nowrap") =
      firstMatchWins (keywordRules cssKeywords) (goStr "white-space: nowrap") ∧
    firstMatchWins (keywordRules cssKeywords) (goStr "white-space: nowrap") =
      goStr "[blue]white[white]-[blue]space[white]: nowrap" :=
  ⟨by decide, by decide,
    (highlightLine_first_match_wins unixLowerExt goFile (goStr "if s[0] == \"go\"")
      (by decide)).1 (by decide),
    by decide, by decide, by decide, by decide,
    ((highlightLine_first_match_wins unixLowerExt pythonFile (goStr "x is not None")
      (by decide)).2.2.2.2.1 (by decide)).2 (by decide),
    ((highlightLine_first_match_wins unixLowerExt pythonFile (goStr "for x in xs: pass")
      (by decide)).2.2.2.2.1 (by decide)).1,
    by decide, by decide, by decide,
    (highlightLine_first_match_wins unixLowerExt cssFile (goStr "white-space: nowrap")
      (by decide)).2.2.2.2.2.1 (by decide) (by decide),
    by decide⟩

/-- C18: for a file whose lower-cased extension is `.json`, `highlightLine` is
`highlightJSON`, and that is the byte-by-byte map `jsonByte`: a double quote becomes
`[green]"[white]`, a colon `[yellow]:[white]`, a comma `[yellow],[white]`, every other
byte is kept. -/
theorem highlightJSON_byte_map (lowerExt : GoString → GoString) (e : TextEditor)
    (line : GoString) (hpath : e.filePath ≠ []) (hext : lowerExt e.filePath = goStr ".json") :
    highlightLine lowerExt e line = highlightJSON line ∧
    highlightJSON line = line.flatMap jsonByte := by
  refine ⟨?_, highlightJSON_eq_flatMap line⟩
  unfold highlightLine
  rw [if_neg hpath]
  simp only [hext]
  rw [if_neg (by decide), if_neg (by decide), if_neg (by decide), if_neg (by decide),
    if_neg (by decide), if_pos trivial]

/-- C18 at the line `{"a":1,"b":2}` of `data.json`. -/
theorem highlightJSON_byte_map_witness :
    jsonFile.filePath ≠ [] ∧ unixLowerExt jsonFile.filePath = goStr ".json" ∧
    highlightJSON (goStr "\x7b\"a\":1,\"b\":2\x7d") =
      goStr ("\x7b[green]\"[white]a[green]\"[white][yellow]:[white]1[yellow],[white]" ++
        "[green]\"[white]b[green]\"[white][yellow]:[white]2\x7d") ∧
    highlightLine unixLowerExt jsonFile (goStr "\x7b\"a\":1,\"b\":2\x7d") =
      highlightJSON (goStr "\x7b\"a\":1,\"b\":2\x7d") ∧
    highlightJSON (goStr "\x7b\"a\":1,\"b\":2\x7d") =
      (goStr "\x7b\"a\":1,\"b\":2\x7d").flatMap jsonByte :=
  ⟨by decide, by decide, by decide,
    highlightJSON_byte_map unixLowerExt jsonFile (goStr "\x7b\"a\":1,\"b\":2\x7d")
      (by decide) (by decide)⟩

/-- C19: for a buffer with a path whose lines are non-empty in number and free of line
feeds, the text `saveFile` writes (the lines joined with a line feed) splits back into
the same lines; a successful `saveFile` followed by a successful `loadFile` that reads
that text gives the same `content`, the cursor `(0, 0)` and `modified = false`; and an
empty file loads as `[""]`. -/
theorem save_load_roundtrip (e : TextEditor) (hpath : e.filePath ≠ [])
    (hne : e.content ≠ []) (hlf : ∀ l ∈ e.content, (10 : UInt8) ∉ l) :
    savedText e = joinLines e.content ∧ splitLines (joinLines e.content) = e.content ∧
    (saveFile none e).modified = false ∧ (saveFile none e).content = e.content ∧
    (saveFile none e).filePath = e.filePath ∧
    (∃ e', loadFile (Except.ok (savedText e)) (saveFile none e) = some e' ∧
      e'.content = e.content ∧ e'.lineNum = 0 ∧ e'.colNum = 0 ∧ e'.modified = false ∧
      e'.filePath = e.filePath) ∧
    ∃ e', loadFile (Except.ok []) e = some e' ∧ e'.content = [[]] := by
  have hrt := splitLines_joinLines e.content hne hlf
  have hsave : saveFile none e =
      updateStatusBar (StatusMessage.saved e.filePath) { e with modified := false } := by
    unfold saveFile
    rw [if_neg hpath]
  refine ⟨rfl, hrt, by rw [hsave]; rfl, by rw [hsave]; rfl, by rw [hsave]; rfl, ?_, ?_⟩
  · rw [hsave]
    refine ⟨_, loadFile_ok _ _ hpath, ?_, rfl, rfl, rfl, rfl⟩
    exact hrt
  · exact ⟨_, loadFile_ok _ _ hpath, rfl⟩

/-- C19 at the modified buffer `["ab", "cd"]` of `a.txt`, cursor `(1, 1)`: the text
written is `ab`, line feed, `cd`. -/
theorem save_load_roundtrip_witness :
    viewState.filePath ≠ [] ∧ viewState.content ≠ [] ∧
    (∀ l ∈ viewState.content, (10 : UInt8) ∉ l) ∧
    savedText viewState = [97, 98, 10, 99, 100] ∧
    savedText viewState = joinLines viewState.content ∧
    splitLines (joinLines viewState.content) = viewState.content ∧
    (saveFile none viewState).modified = false ∧
    (saveFile none viewState).content = viewState.content ∧
    (saveFile none viewState).filePath = viewState.filePath ∧
    (∃ e', loadFile (Except.ok (savedText viewState)) (saveFile none viewState) = some e' ∧
      e'.content = viewState.content ∧ e'.lineNum = 0 ∧ e'.colNum = 0 ∧
      e'.modified = false ∧ e'.filePath = viewState.filePath) ∧
    ∃ e', loadFile (Except.ok []) viewState = some e' ∧ e'.content = [[]] :=
  ⟨by decide, by decide, by decide, by decide,
    save_load_roundtrip viewState (by decide) (by decide) (by decide)⟩

/-- C10: from every initial state every sequence of inputs runs without a panic and ends
in a state that satisfies the cursor invariant, and whenever `showWelcome` is true in
that state each of `moveUp`, `moveDown`, `moveLeft`, `moveRight`, `moveToLineStart`,
`moveToLineEnd`, `insertChar` (for every character), `insertNewline`, `backspace`,
`delete` and `insertTab` returns the state unchanged, so `content`, `lineNum`, `colNum`
and `modified` are unchanged. -/
theorem welcome_operations_are_noops (filePath : GoString) (read : Except FileError GoString)
    (inputs : List Input) :
    ∃ e0 e, NewTextEditor filePath read = some e0 ∧ run inputs e0 = some e ∧ WellFormed e ∧
      (e.showWelcome = true →
        moveUp e = some e ∧ moveDown e = some e ∧ moveLeft e = some e ∧
        moveRight e = some e ∧ moveToLineStart e = some e ∧ moveToLineEnd e = some e ∧
        (∀ char, insertChar char e = some e) ∧ insertNewline e = some e ∧
        backspace e = some e ∧ delete e = some e ∧ insertTab e = some e) := by
  obtain ⟨e0, h0⟩ := NewTextEditor_isSome filePath read
  have hwf0 := NewTextEditor_wellFormed filePath read e0 h0
  obtain ⟨e, h1, _⟩ := run_safe inputs e0 hwf0
  obtain ⟨hwf, hp⟩ :=
    run_pristine inputs e0 e hwf0 (NewTextEditor_pristine filePath read e0 h0) h1
  refine ⟨e0, e, h0, h1, hwf, fun hw => ?_⟩
  obtain ⟨m1, m2, m3, m4, m5, m6⟩ := moves_pristine e hw hwf (hp hw).1
  exact ⟨m1, m2, m3, m4, m5, m6, fun char => insertChar_welcome char e hw,
    insertNewline_welcome e hw, backspace_welcome e hw, delete_welcome e hw,
    insertTab_welcome e hw⟩

/-- C10 at the state reached from `NewTextEditor("")` by the keys i and a: the welcome
screen is still showing, in edit mode, and every operation returns the state unchanged. -/
theorem welcome_operations_are_noops_witness :
    ∃ e, (NewTextEditor [] (Except.ok [])).bind
        (run [Input.key ⟨Key.KeyRune, 105⟩ none, Input.key ⟨Key.KeyRune, 97⟩ none]) = some e ∧
      e.showWelcome = true ∧ e.mode = EditorMode.EditMode ∧ WellFormed e ∧
      moveUp e = some e ∧ moveDown e = some e ∧ moveLeft e = some e ∧
      moveRight e = some e ∧ moveToLineStart e = some e ∧ moveToLineEnd e = some e ∧
      (∀ char, insertChar char e = some e) ∧ insertNewline e = some e ∧
      backspace e = some e ∧ delete e = some e ∧ insertTab e = some e := by
  obtain ⟨e0, e, h0, h1, hwf, h⟩ := welcome_operations_are_noops [] (Except.ok [])
    [Input.key ⟨Key.KeyRune, 105⟩ none, Input.key ⟨Key.KeyRune, 97⟩ none]
  have hc : ((NewTextEditor [] (Except.ok [])).bind
      (run [Input.key ⟨Key.KeyRune, 105⟩ none, Input.key ⟨Key.KeyRune, 97⟩ none])).map
      (fun x => (x.showWelcome, x.mode)) = some (true, EditorMode.EditMode) := by
    decide
  rw [h0, Option.some_bind, h1, Option.map_some', Option.some.injEq, Prod.mk.injEq] at hc
  exact ⟨e, by rw [h0, Option.some_bind, h1], hc.1, hc.2, hwf, h hc.1⟩

/-- C20: from every initial state every sequence of inputs (key events in either mode,
command dispatch, dialog buttons, loads that succeed or fail, `newFile`, direct calls of
the operations) runs without a panic, and in the state it ends in, whenever `showWelcome`
is true, `content` is `[""]`, the cursor is `(0, 0)` and `modified` is false; hence each
of the six movement operations returns that state unchanged. -/
theorem welcome_buffer_pristine (filePath : GoString) (read : Except FileError GoString)
    (inputs : List Input) :
    ∃ e0 e, NewTextEditor filePath read = some e0 ∧ run inputs e0 = some e ∧
      (e.showWelcome = true →
        (e.content = [[]] ∧ e.lineNum = 0 ∧ e.colNum = 0 ∧ e.modified = false) ∧
        moveUp e = some e ∧ moveDown e = some e ∧ moveLeft e = some e ∧
        moveRight e = some e ∧ moveToLineStart e = some e ∧ moveToLineEnd e = some e) := by
  obtain ⟨e0, h0⟩ := NewTextEditor_isSome filePath read
  have hwf0 := NewTextEditor_wellFormed filePath read e0 h0
  obtain ⟨e, h1, _⟩ := run_safe inputs e0 hwf0
  obtain ⟨hwf, hp⟩ :=
    run_pristine inputs e0 e hwf0 (NewTextEditor_pristine filePath read e0 h0) h1
  exact ⟨e0, e, h0, h1, fun hw => ⟨hp hw, moves_pristine e hw hwf (hp hw).1⟩⟩

/-! ## The command buffer -/

theorem ofNat_ne_of_mod (m : Nat) (c : UInt8) (h : m % 256 ≠ c.toNat) : UInt8.ofNat m ≠ c := by
  intro hc
  apply h
  rw [← hc]
  rfl

/-- The text `string(r)` contains the byte of an ASCII letter only when `r` is that
letter. -/
theorem runeString_not_mem (r : Int) (c : UInt8) (hc : c.toNat < 128) (hr : r ≠ c.toNat) :
    c ∉ runeString r := by
  have hfffd : c ∉ ([0xEF, 0xBF, 0xBD] : GoString) := by
    intro hm
    simp only [List.mem_cons, List.mem_singleton, List.not_mem_nil, or_false] at hm
    rcases hm with h | h | h <;> subst h <;> revert hc <;> decide
  have key : ∀ m : Nat, m % 256 ≠ c.toNat → c ≠ UInt8.ofNat m :=
    fun m hm heq => ofNat_ne_of_mod m c hm heq.symm
  unfold runeString
  by_cases h0 : r < 0
  · rw [if_pos h0]
    exact hfffd
  rw [if_neg h0]
  simp only
  have hn : (r.toNat : Int) = r := Int.toNat_of_nonneg (by omega)
  split_ifs with h1 h2 h3 h4
  · simp only [List.mem_singleton]
    exact key _ (by omega)
  · simp only [List.mem_cons, List.mem_singleton, List.not_mem_nil, or_false, not_or]
    exact ⟨key _ (by omega), key _ (by omega)⟩
  · exact hfffd
  · simp only [List.mem_cons, List.mem_singleton, List.not_mem_nil, or_false, not_or]
    exact ⟨key _ (by omega), key _ (by omega), key _ (by omega)⟩
  · simp only [List.mem_cons, List.mem_singleton, List.not_mem_nil, or_false, not_or]
    have h5 : r.toNat ≤ 0x10FFFF := by omega
    exact ⟨key _ (by omega), key _ (by omega), key _ (by omega), key _ (by omega)⟩

theorem NoShortcut.of_eq {e e' : TextEditor} (h : NoShortcut e)
    (hc : e'.commandBuffer = e.commandBuffer) : NoShortcut e' := by
  unfold NoShortcut at *
  rw [hc]
  exact h

theorem NoShortcut.cleared {e : TextEditor} (hc : e.commandBuffer = []) : NoShortcut e := by
  unfold NoShortcut
  rw [hc]
  simp

theorem updateDisplay_commandBuffer (e e' : TextEditor) (h : updateDisplay e = some e') :
    e'.commandBuffer = e.commandBuffer := by
  unfold updateDisplay at h
  split_ifs at h <;> cases h <;> rfl

theorem insertChar_commandBuffer (char : Rune) (e e' : TextEditor)
    (h : insertChar char e = some e') : e'.commandBuffer = e.commandBuffer := by
  unfold insertChar at h
  split_ifs at h
  · cases h
    rfl
  · simp only [Option.bind_eq_bind, Option.bind_eq_some] at h
    obtain ⟨_, _, _, _, _, _, _, _, h⟩ := h
    exact (updateDisplay_commandBuffer _ _ h : _)

theorem insertNewline_commandBuffer (e e' : TextEditor) (h : insertNewline e = some e') :
    e'.commandBuffer = e.commandBuffer := by
  unfold insertNewline at h
  split_ifs at h
  · cases h
    rfl
  · simp only [Option.bind_eq_bind, Option.bind_eq_some] at h
    obtain ⟨_, _, _, _, _, _, _, _, _, _, _, _, h⟩ := h
    exact (updateDisplay_commandBuffer _ _ h : _)

theorem backspace_commandBuffer (e e' : TextEditor) (h : backspace e = some e') :
    e'.commandBuffer = e.commandBuffer := by
  unfold backspace at h
  split_ifs at h
  · cases h
    rfl
  · simp only [Option.bind_eq_bind, Option.bind_eq_some] at h
    obtain ⟨_, _, _, _, _, _, _, _, h⟩ := h
    exact (updateDisplay_commandBuffer _ _ h : _)
  · simp only [Option.bind_eq_bind, Option.bind_eq_some] at h
    obtain ⟨_, _, _, _, _, _, _, _, _, _, h⟩ := h
    exact (updateDisplay_commandBuffer _ _ h : _)
  · exact (updateDisplay_commandBuffer _ _ h : _)

theorem delete_commandBuffer (e e' : TextEditor) (h : delete e = some e') :
    e'.commandBuffer = e.commandBuffer := by
  unfold delete at h
  by_cases hw : e.showWelcome = true
  · rw [if_pos hw] at h
    cases h
    rfl
  · rw [if_neg hw] at h
    simp only [Option.bind_eq_bind, Option.bind_eq_some] at h
    obtain ⟨line, _, h⟩ := h
    split_ifs at h
    · simp only [Option.bind_eq_bind, Option.bind_eq_some] at h
      obtain ⟨_, _, _, _, _, _, h⟩ := h
      exact (updateDisplay_commandBuffer _ _ h : _)
    · simp only [Option.bind_eq_bind, Option.bind_eq_some] at h
      obtain ⟨_, _, _, _, _, _, _, _, h⟩ := h
      exact (updateDisplay_commandBuffer _ _ h : _)
    · exact (updateDisplay_commandBuffer _ _ h : _)

theorem insertTabLoop_commandBuffer (n : Nat) : ∀ (e e' : TextEditor),
    insertTabLoop n e = some e' → e'.commandBuffer = e.commandBuffer := by
  induction n with
  | zero =>
    intro e e' h
    cases h
    rfl
  | succ n ih =>
    intro e e' h
    simp only [insertTabLoop, Option.bind_eq_some] at h
    obtain ⟨e1, h1, h2⟩ := h
    rw [ih e1 e' h2, insertChar_commandBuffer 32 e e1 h1]

theorem insertTab_commandBuffer (e e' : TextEditor) (h : insertTab e = some e') :
    e'.commandBuffer = e.commandBuffer := by
  unfold insertTab at h
  split_ifs at h
  · cases h
    rfl
  · exact insertTabLoop_commandBuffer 4 e e' h

theorem Moves.commandBuffer {f : TextEditor → Option TextEditor} (hm : Moves f)
    {e e' : TextEditor} (hwf : WellFormed e) (hf : f e = some e') :
    e'.commandBuffer = e.commandBuffer := by
  obtain ⟨e1, h1, _, _, _, _, _, _, h8, _⟩ := hm e hwf
  rw [hf] at h1
  cases h1
  exact h8

theorem loadFile_commandBuffer (read : Except FileError GoString) (e e' : TextEditor)
    (h : loadFile read e = some e') : e'.commandBuffer = e.commandBuffer := by
  unfold loadFile at h
  split at h
  · cases h
    rfl
  · cases read with
    | error err =>
      cases h
      rfl
    | ok data =>
      simp only at h
      exact (updateDisplay_commandBuffer _ _ h : _)

/-- After `executeCommand` the command buffer is empty. -/
theorem executeCommand_commandBuffer (write : Option FileError) (e e' : TextEditor)
    (h : executeCommand write e = some e') : e'.commandBuffer = [] := by
  unfold executeCommand at h
  simp only at h
  split_ifs at h
  · cases h
    rfl
  · cases h
    exact saveFile_commandBuffer write _
  · cases h
    exact saveFile_commandBuffer write _
  · cases h
    rfl
  · rw [newFile_eq] at h
    cases h
    rfl
  · cases h
    rfl
  · cases h
    rfl

theorem handleEditMode_commandBuffer (event : EventKey) {e e' : TextEditor}
    (hwf : WellFormed e) (h : handleEditMode event e = some e') :
    e'.commandBuffer = e.commandBuffer := by
  unfold handleEditMode at h
  split at h
  · cases h
    rfl
  · exact moveUp_moves.commandBuffer hwf h
  · exact moveDown_moves.commandBuffer hwf h
  · exact moveLeft_moves.commandBuffer hwf h
  · exact moveRight_moves.commandBuffer hwf h
  · exact moveToLineStart_moves.commandBuffer hwf h
  · exact moveToLineEnd_moves.commandBuffer hwf h
  · exact insertNewline_commandBuffer e e' h
  · exact backspace_commandBuffer e e' h
  · exact backspace_commandBuffer e e' h
  · exact delete_commandBuffer e e' h
  · exact insertTab_commandBuffer e e' h
  · split at h
    · exact insertChar_commandBuffer _ e e' h
    · cases h
      rfl

theorem handleViewMode_noShortcut (event : EventKey) (write : Option FileError)
    {e e' : TextEditor} (hwf : WellFormed e) (hn : NoShortcut e)
    (h : handleViewMode event write e = some e') : NoShortcut e' := by
  unfold handleViewMode at h
  split at h
  · cases h
    exact hn.of_eq rfl
  · exact hn.of_eq (moveUp_moves.commandBuffer hwf h)
  · exact hn.of_eq (moveDown_moves.commandBuffer hwf h)
  · exact hn.of_eq (moveLeft_moves.commandBuffer hwf h)
  · exact hn.of_eq (moveRight_moves.commandBuffer hwf h)
  · exact hn.of_eq (moveToLineStart_moves.commandBuffer hwf h)
  · exact hn.of_eq (moveToLineEnd_moves.commandBuffer hwf h)
  · exact NoShortcut.cleared (executeCommand_commandBuffer write e e' h)
  · split_ifs at h with h0 h1 h2 h3 h4
    · cases h
      exact hn.of_eq rfl
    · cases h
      exact hn.of_eq rfl
    · cases h
      exact hn
    · cases h
      exact hn.of_eq rfl
    · cases h
      obtain ⟨k1, k2, k3⟩ := hn
      have hr : ∀ c : UInt8, c.toNat < 128 → event.rune ≠ c.toNat →
          c ∉ runeString event.rune := fun c hc hne => runeString_not_mem _ c hc hne
      refine ⟨?_, ?_, ?_⟩
      · show (105 : UInt8) ∉ e.commandBuffer ++ runeString event.rune
        rw [List.mem_append, not_or]
        exact ⟨k1, hr 105 (by decide) h1⟩
      · show (103 : UInt8) ∉ e.commandBuffer ++ runeString event.rune
        rw [List.mem_append, not_or]
        exact ⟨k2, hr 103 (by decide) h2⟩
      · show (104 : UInt8) ∉ e.commandBuffer ++ runeString event.rune
        rw [List.mem_append, not_or]
        exact ⟨k3, hr 104 (by decide) h4⟩
    · cases h
      exact hn

theorem step_noShortcut (i : Input) {e e' : TextEditor} (hwf : WellFormed e)
    (hn : NoShortcut e) (h : step i e = some e') : NoShortcut e' := by
  cases i with
  | key event write =>
    change inputCapture event write e = some e' at h
    unfold inputCapture at h
    split at h
    · exact hn.of_eq (handleEditMode_commandBuffer event hwf h)
    · exact handleViewMode_noShortcut event write hwf hn h
  | helpClose =>
    cases h
    exact hn.of_eq rfl
  | saveSubmit filename write =>
    cases h
    unfold saveFormSave
    split
    · exact hn.of_eq (saveFile_commandBuffer write _)
    · exact hn.of_eq rfl
  | saveCancel =>
    cases h
    exact hn.of_eq rfl
  | openSubmit filename read =>
    change openFormOpen filename read e = some e' at h
    unfold openFormOpen at h
    split at h
    · simp only [Option.map_eq_some'] at h
      obtain ⟨e1, h1, h2⟩ := h
      subst h2
      have hc := loadFile_commandBuffer read _ e1 h1
      exact hn.of_eq hc
    · cases h
      exact hn.of_eq rfl
  | openCancel =>
    cases h
    exact hn.of_eq rfl
  | callMoveUp => exact hn.of_eq (moveUp_moves.commandBuffer hwf h)
  | callMoveDown => exact hn.of_eq (moveDown_moves.commandBuffer hwf h)
  | callMoveLeft => exact hn.of_eq (moveLeft_moves.commandBuffer hwf h)
  | callMoveRight => exact hn.of_eq (moveRight_moves.commandBuffer hwf h)
  | callMoveToLineStart => exact hn.of_eq (moveToLineStart_moves.commandBuffer hwf h)
  | callMoveToLineEnd => exact hn.of_eq (moveToLineEnd_moves.commandBuffer hwf h)
  | callInsertChar char => exact hn.of_eq (insertChar_commandBuffer char e e' h)
  | callInsertNewline => exact hn.of_eq (insertNewline_commandBuffer e e' h)
  | callBackspace => exact hn.of_eq (backspace_commandBuffer e e' h)
  | callDelete => exact hn.of_eq (delete_commandBuffer e e' h)
  | callInsertTab => exact hn.of_eq (insertTab_commandBuffer e e' h)
  | callExecuteCommand write =>
    exact NoShortcut.cleared (executeCommand_commandBuffer write e e' h)
  | callLoadFile read => exact hn.of_eq (loadFile_commandBuffer read e e' h)
  | callSaveFile write =>
    cases h
    exact hn.of_eq (saveFile_commandBuffer write e)
  | callNewFile =>
    rw [show step Input.callNewFile e = newFile e from rfl, newFile_eq] at h
    cases h
    exact hn.of_eq rfl

theorem NewTextEditor_commandBuffer (filePath : GoString) (read : Except FileError GoString)
    (e : TextEditor) (h : NewTextEditor filePath read = some e) : e.commandBuffer = [] := by
  unfold NewTextEditor at h
  simp only at h
  split at h
  · simp only [Option.map_eq_some'] at h
    obtain ⟨e1, h1, h2⟩ := h
    subst h2
    exact (loadFile_commandBuffer read _ e1 h1 : _)
  · simp only [Option.map_some', Option.some.injEq] at h
    subst h
    rfl

theorem run_noShortcut (inputs : List Input) : ∀ (e e' : TextEditor), WellFormed e →
    NoShortcut e → run inputs e = some e' → NoShortcut e' := by
  induction inputs with
  | nil =>
    intro e e' _ hn h
    cases h
    exact hn
  | cons i rest ih =>
    intro e e' hwf hn h
    obtain ⟨e1, h1, h2⟩ := step_safe i e hwf
    rw [run, h1, Option.some_bind] at h
    exact ih e1 e' h2 (step_noShortcut i hwf hn h1) h

/-- With a command other than `h` in the buffer `executeCommand` does not open help. -/
theorem executeCommand_showHelp (write : Option FileError) (e e' : TextEditor)
    (hne : e.commandBuffer ≠ goStr "h") (h : executeCommand write e = some e') :
    e'.showHelp = e.showHelp := by
  have hsave : ∀ x : TextEditor, (saveFile write x).showHelp = x.showHelp := by
    intro x
    unfold saveFile
    split
    · rfl
    · cases write <;> rfl
  unfold executeCommand at h
  simp only at h
  split_ifs at h
  · cases h
    rfl
  · cases h
    exact hsave _
  · cases h
    exact hsave _
  · cases h
    rfl
  · rw [newFile_eq] at h
    cases h
    rfl
  · cases h
    rfl

/-- C21: from every initial state every sequence of inputs (key events in either mode,
dialog buttons, direct calls of the operations) runs without a panic, and in the state it
ends in `commandBuffer` holds none of the bytes of the letters i, g and h (in view mode
they are consumed as shortcuts or dropped, and the UTF-8 text of every other rune is free
of them); hence `commandBuffer` is never the text `h`, so no call of `executeCommand` in
such a state takes the `h` entry of its dispatch: `showHelp` is left as it was. -/
theorem commandBuffer_never_holds_shortcut (filePath : GoString)
    (read : Except FileError GoString) (inputs : List Input) :
    ∃ e0 e, NewTextEditor filePath read = some e0 ∧ run inputs e0 = some e ∧
      (105 : UInt8) ∉ e.commandBuffer ∧ (103 : UInt8) ∉ e.commandBuffer ∧
      (104 : UInt8) ∉ e.commandBuffer ∧ e.commandBuffer ≠ goStr "h" ∧
      ∀ write e', executeCommand write e = some e' → e'.showHelp = e.showHelp := by
  obtain ⟨e0, h0⟩ := NewTextEditor_isSome filePath read
  have hwf0 := NewTextEditor_wellFormed filePath read e0 h0
  obtain ⟨e, h1, _⟩ := run_safe inputs e0 hwf0
  have hn := run_noShortcut inputs e0 e hwf0
    (NoShortcut.cleared (NewTextEditor_commandBuffer filePath read e0 h0)) h1
  have hne : e.commandBuffer ≠ goStr "h" := by
    intro hc
    apply hn.2.2
    rw [hc]
    decide
  exact ⟨e0, e, h0, h1, hn.1, hn.2.1, hn.2.2, hne,
    fun write e' h => executeCommand_showHelp write e e' hne h⟩

end Swift
